import Mathlib

/-!
Verification of the FIB (forwarding information base) data structure of this
repository: a hash table implemented as a single split-ordered linked list with
a power-of-two bucket array.  The development is a sequential (single-thread)
shallow embedding of nest/multi_test.c (the copy of the implementation around
lines 1580-2620, which is the one the specification describes), together with
the alternative bit-reversal routine from src/nest/rt-fib.c.

Modelling conventions:
* The heap of list nodes is a `List FibNode`; a pointer to a node is its index.
  The C next word packs an address and a delete-mark low bit; following the
  tagged-pointer reading of the design notes it is modelled as the pair
  `next : Option Nat` (the address part, `none` for the C null pointer) and
  `marked : Bool` (the low bit).  `getNextAddress`, `getFlag` and the fetch-or
  of `setFlagTrue` are the corresponding accessors.
* The C `sentinel` word of a node (an atomic char whose low bit is the sentinel
  flag and whose remaining bits count links) is kept as a plain `state : Nat`
  taken modulo 2^8.
* User pointers: `fib_node_to_user` maps node index `c` to `2 * (c + 1)`, an
  injective map onto nonzero even numbers.  This abstracts the C address
  arithmetic (malloc alignment makes real node addresses even and nonzero, and
  the `node_offset` translation is invertible); the C null pointer is `0`.
* Machine integers (`u32`/`uint`) are `Nat` with an explicit `% 2 ^ 32` at the
  operations where the C code can overflow.
* The address type is out of scope per the specification; it is a type
  parameter `α` with decidable equality (`net_equal`) and a hash function
  `h : α → Nat` (`net_hash`).  For the CIDR-routing claims `α` is instantiated
  with IPv4 prefixes.
* The while(1)/goto-start retry loops of the C code are modelled with an
  explicit fuel argument; the scans inside them get fuel `heap.length + 1`,
  which exceeds the length of any duplicate-free chain.  `none` (or the
  `diverge` constructors) means the fuel ran out or the C code would loop
  forever (for instance `getHashFromSentinel` on a sentinel that is in no
  bucket).
* The concurrency scaffolding (row reservation, soft-link slots, the handover
  reclaimer thread) is outside the sequential model; the deferred-free queue
  is kept as the list of enqueued node indices, and `free` of heap memory is a
  no-op on the model heap (freed nodes are never referenced again on the
  verified paths).
-/

set_option maxRecDepth 4000

namespace BirdFib

/-- Byte bit-reversal lookup table `BitReverseTable256` of nest/multi_test.c
(lines 1698-1716). -/
def BitReverseTable256 : List Nat :=
  [0x00, 0x80, 0x40, 0xC0, 0x20, 0xA0, 0x60, 0xE0, 0x10, 0x90, 0x50, 0xD0, 0x30, 0xB0, 0x70, 0xF0,
   0x08, 0x88, 0x48, 0xC8, 0x28, 0xA8, 0x68, 0xE8, 0x18, 0x98, 0x58, 0xD8, 0x38, 0xB8, 0x78, 0xF8,
   0x04, 0x84, 0x44, 0xC4, 0x24, 0xA4, 0x64, 0xE4, 0x14, 0x94, 0x54, 0xD4, 0x34, 0xB4, 0x74, 0xF4,
   0x0C, 0x8C, 0x4C, 0xCC, 0x2C, 0xAC, 0x6C, 0xEC, 0x1C, 0x9C, 0x5C, 0xDC, 0x3C, 0xBC, 0x7C, 0xFC,
   0x02, 0x82, 0x42, 0xC2, 0x22, 0xA2, 0x62, 0xE2, 0x12, 0x92, 0x52, 0xD2, 0x32, 0xB2, 0x72, 0xF2,
   0x0A, 0x8A, 0x4A, 0xCA, 0x2A, 0xAA, 0x6A, 0xEA, 0x1A, 0x9A, 0x5A, 0xDA, 0x3A, 0xBA, 0x7A, 0xFA,
   0x06, 0x86, 0x46, 0xC6, 0x26, 0xA6, 0x66, 0xE6, 0x16, 0x96, 0x56, 0xD6, 0x36, 0xB6, 0x76, 0xF6,
   0x0E, 0x8E, 0x4E, 0xCE, 0x2E, 0xAE, 0x6E, 0xEE, 0x1E, 0x9E, 0x5E, 0xDE, 0x3E, 0xBE, 0x7E, 0xFE,
   0x01, 0x81, 0x41, 0xC1, 0x21, 0xA1, 0x61, 0xE1, 0x11, 0x91, 0x51, 0xD1, 0x31, 0xB1, 0x71, 0xF1,
   0x09, 0x89, 0x49, 0xC9, 0x29, 0xA9, 0x69, 0xE9, 0x19, 0x99, 0x59, 0xD9, 0x39, 0xB9, 0x79, 0xF9,
   0x05, 0x85, 0x45, 0xC5, 0x25, 0xA5, 0x65, 0xE5, 0x15, 0x95, 0x55, 0xD5, 0x35, 0xB5, 0x75, 0xF5,
   0x0D, 0x8D, 0x4D, 0xCD, 0x2D, 0xAD, 0x6D, 0xED, 0x1D, 0x9D, 0x5D, 0xDD, 0x3D, 0xBD, 0x7D, 0xFD,
   0x03, 0x83, 0x43, 0xC3, 0x23, 0xA3, 0x63, 0xE3, 0x13, 0x93, 0x53, 0xD3, 0x33, 0xB3, 0x73, 0xF3,
   0x0B, 0x8B, 0x4B, 0xCB, 0x2B, 0xAB, 0x6B, 0xEB, 0x1B, 0x9B, 0x5B, 0xDB, 0x3B, 0xBB, 0x7B, 0xFB,
   0x07, 0x87, 0x47, 0xC7, 0x27, 0xA7, 0x67, 0xE7, 0x17, 0x97, 0x57, 0xD7, 0x37, 0xB7, 0x77, 0xF7,
   0x0F, 0x8F, 0x4F, 0xCF, 0x2F, 0xAF, 0x6F, 0xEF, 0x1F, 0x9F, 0x5F, 0xDF, 0x3F, 0xBF, 0x7F, 0xFF]

/-- Common shape of the C bit-reversal loop: for each `i < w`, if bit `i` of
`num` is set, set bit `w - 1 - i` of the result.  `reverseBitsLoop` is the
instance `w = 32` (`NO_OF_BITS` in the C code); `w = 8` describes one table
byte. -/
def revAux (w num : Nat) : Nat :=
  (List.range w).foldl
    (fun r i => if num &&& (1 <<< i) ≠ 0 then r ||| (1 <<< (w - 1 - i)) else r) 0

/-- The bit-by-bit `reverseBits` of nest/multi_test.c lines 2859-2870, also
src/nest/rt-fib.c lines 152-163: a loop over the 32 bit positions. -/
def reverseBitsLoop (num : Nat) : Nat := revAux 32 num

/-- The table-driven `reverseBits` of nest/multi_test.c lines 1719-1729 (the
copy used by the functions verified here).  On the little-endian build target
(x86 per the repository Dockerfile) output byte `k` is the table entry for
input byte `3 - k`. -/
def reverseBits (x : Nat) : Nat :=
  BitReverseTable256.getD (x / 2 ^ 24 % 2 ^ 8) 0 +
    2 ^ 8 * BitReverseTable256.getD (x / 2 ^ 16 % 2 ^ 8) 0 +
    2 ^ 16 * BitReverseTable256.getD (x / 2 ^ 8 % 2 ^ 8) 0 +
    2 ^ 24 * BitReverseTable256.getD (x % 2 ^ 8) 0

/-- The do-while loop of `getParent` (nest/multi_test.c lines 1653-1662):
starting from `p = bucketSize`, halve `p` and repeat while the result exceeds
`bucket`.  The fuel argument bounds the number of halvings; `getParent` passes
`bucketSize` itself, which is enough because halving reaches any value in at
most `log2 bucketSize + 1 ≤ bucketSize` steps (and at fuel 0 the mandatory
first halving still happens, matching the do-while). -/
def getParentGo (bucket : Nat) : Nat → Nat → Nat
  | p, 0 => p / 2
  | p, fuel + 1 => if p / 2 > bucket then getParentGo bucket (p / 2) fuel else p / 2

/-- `getParent` of nest/multi_test.c lines 1653-1662: halve `bucketSize` until
the result no longer exceeds `bucket`, then subtract it from `bucket`. -/
def getParent (bucket bucketSize : Nat) : Nat :=
  bucket - getParentGo bucket bucketSize bucketSize

/-- One list node, `struct fib_node` of lib/fib.h: the atomic `next` word
(address part and delete-mark bit kept separately, see the file header), the
atomic `sentinel` char (`state`, modulo 2^8: low bit sentinel flag, upper bits
link count), and the stored prefix (`none` for sentinel nodes, which are
allocated without an address). -/
structure FibNode (α : Type) where
  next : Option Nat
  marked : Bool
  state : Nat
  addr : Option α
deriving DecidableEq

/-- The value a heap read returns for an invalid index; unreachable under the
structure invariant. -/
def junkNode {α : Type} : FibNode α := ⟨none, false, 0, none⟩

/-- The table state, `struct fib` of lib/fib.h restricted to the fields the
sequential model observes (pool/slab handles, the row-reservation and
soft-link arrays, and the reclaimer thread handle are concurrency scaffolding
outside the model; `handovers` keeps the indices enqueued on the deferred-free
queue). -/
structure Fib (α : Type) where
  heap : List (FibNode α)
  table : List (Option Nat)
  hash_size : Nat
  hash_order : Nat
  hash_shift : Nat
  hash_mask : Nat
  entries : Nat
  entries_min : Nat
  entries_max : Nat
  resizing : Bool
  handovers : List Nat
deriving DecidableEq

variable {α : Type}

/-- Dereference a node pointer (heap read). -/
def readNode (f : Fib α) (c : Nat) : FibNode α := f.heap.getD c junkNode

/-- Store a node (heap write). -/
def writeNode (f : Fib α) (c : Nat) (n : FibNode α) : Fib α :=
  { f with heap := f.heap.set c n }

/-- `getNextAddress` (multi_test.c lines 1757-1761): the next word with the
mark bit stripped. -/
def getNextAddress (f : Fib α) (c : Nat) : Option Nat := (readNode f c).next

/-- `getFlag` (multi_test.c lines 1690-1694): the mark bit of the next word. -/
def getFlag (f : Fib α) (c : Nat) : Bool := (readNode f c).marked

/-- `getSentinel` (multi_test.c lines 1763-1767): low bit of the state word. -/
def getSentinel (f : Fib α) (c : Nat) : Bool := (readNode f c).state % 2 == 1

/-- `getHashFromSentinel` (multi_test.c lines 1731-1741): scan the bucket array
for the index pointing at this node.  The C code retries forever when the node
is in no bucket; the model returns `none` then. -/
def getHashFromSentinel (f : Fib α) (c : Nat) : Option Nat :=
  (List.range f.hash_size).find? (fun b => f.table.getD b none == some c)

/-- `getHash` (multi_test.c lines 1743-1750): bit-reversed bucket index for a
sentinel, `net_hash` of the stored prefix for a payload node. -/
def getHash (h : α → Nat) (f : Fib α) (c : Nat) : Option Nat :=
  if getSentinel f c then (getHashFromSentinel f c).map reverseBits
  else ((readNode f c).addr).map h

/-- `addALink` (multi_test.c lines 1773-1779): fetch-add 2 on the state char of
a non-null node. -/
def addALink (f : Fib α) (c : Option Nat) : Fib α :=
  match c with
  | none => f
  | some c => writeNode f c { readNode f c with state := ((readNode f c).state + 2) % 2 ^ 8 }

/-- `removeALink` (multi_test.c lines 1590-1596): fetch-sub 2 on the state char
of a non-null node (two's-complement wrap modulo 2^8). -/
def removeALink (f : Fib α) (c : Option Nat) : Fib α :=
  match c with
  | none => f
  | some c =>
    writeNode f c { readNode f c with state := ((readNode f c).state + (2 ^ 8 - 2)) % 2 ^ 8 }

/-- `fib_node_to_user` (lib/fib.h): node pointer to user pointer; see the file
header for the address convention. -/
def fib_node_to_user (c : Nat) : Nat := 2 * (c + 1)

/-- `fib_user_to_node` (lib/fib.h): user pointer back to node pointer. -/
def fib_user_to_node (p : Nat) : Nat := p / 2 - 1

/-- The bucket index computed from a 32-bit address hash `H`, as used by
`fib_hash` (multi_test.c lines 2012-2017) and inline by `fib_find`
(line 2172), `fib_get2` (line 2276) and `fib_delete` (line 2508): the
bit-reversed hash masked by the current `hash_mask`. -/
def bucketOfHash (f : Fib α) (H : Nat) : Nat := reverseBits H &&& f.hash_mask

/-- `fib_hash` (multi_test.c lines 2012-2017). -/
def fib_hash (h : α → Nat) (f : Fib α) (a : α) : Nat := bucketOfHash f (h a)

/-- `fib_rehash` (multi_test.c lines 1968-2005).  If the atomic `resizing` flag
is already set the contender skips the resize entirely; otherwise: allocate a
bucket array of double length, zero the upper half, copy the existing
pointers, swap the array in, double `hash_size` and `entries_max`, set
`hash_mask` to twice-plus-one, decrement `hash_shift`, increment `hash_order`,
clear the flag and free the old array.  All counter updates are u32. -/
def fib_rehash (f : Fib α) : Fib α :=
  if f.resizing then f
  else
    { f with
      table := (List.range (2 * f.hash_size % 2 ^ 32)).map
        (fun i => if i < f.hash_size then f.table.getD i none else none)
      hash_size := 2 * f.hash_size % 2 ^ 32
      hash_mask := (2 * f.hash_mask + 1) % 2 ^ 32
      entries_max := 2 * f.entries_max % 2 ^ 32
      hash_shift := (f.hash_shift + (2 ^ 32 - 1)) % 2 ^ 32
      hash_order := (f.hash_order + 1) % 2 ^ 32
      resizing := false }

/-- `fib_init` (multi_test.c lines 1891-1965) restricted to the modelled
fields: compute the sizing fields from the requested order (0 selects
`HASH_DEF_ORDER = 10`), allocate the zeroed bucket array, compute
`entries_max` (`~0` above `HASH_HI_MAX - HASH_HI_STEP = 23`) and
`entries_min`, overwrite `entries_min` with 0 (line 1942), clear `resizing`,
and install the bucket-0 sentinel as the single heap node. -/
def fib_init (α : Type) (hash_order : Nat) : Fib α :=
  let order := if hash_order = 0 then 10 else hash_order
  let size := 1 <<< order % 2 ^ 32
  { heap := [⟨none, false, 1, none⟩]
    table := (List.replicate size (none : Option Nat)).set 0 (some 0)
    hash_size := size
    hash_order := order
    hash_shift := (32 + 2 ^ 32 - order % 2 ^ 32) % 2 ^ 32
    hash_mask := (size + 2 ^ 32 - 1) % 2 ^ 32
    entries := 0
    entries_min := 0
    entries_max := if order > 24 - 1 then 2 ^ 32 - 1 else size * 2 % 2 ^ 32
    resizing := false
    handovers := [] }

/-- Outcome of the shared cursor-advance loop of `fib_insert2` (lines
2069-2078) and `fib_get2` (lines 2299-2309). -/
inductive ScanLtRes where
  | diverge
  | restart
  | done (curr : Nat) (succ : Option Nat)
deriving DecidableEq

/-- The loop `while (succ != 0 && getHash(succ) < key)` advancing the
curr/succ cursor pair; `restart` is the `goto start` taken when the cursor
falls off the list. -/
def scanLt (h : α → Nat) (f : Fib α) (key : Nat) : Nat → Nat → Option Nat → ScanLtRes
  | 0, _, _ => .diverge
  | fuel + 1, curr, succ =>
    match succ with
    | none => .done curr none
    | some s =>
      match getHash h f s with
      | none => .diverge
      | some ks =>
        if ks < key then
          match getNextAddress f curr with
          | none => .restart
          | some c2 => scanLt h f key fuel c2 (getNextAddress f c2)
        else .done curr (some s)

/-- Outcome of the second scan loop of `fib_get2` (lines 2318-2353), which
walks the run of keys equal to the target: a duplicate hit (`found`), a
restart that freed the cached fresh node (`restartDrop`, line 2336), a
restart that kept it (`restartKeep`, line 2349), or fall-through to the
insert attempt. -/
inductive Scan2Res where
  | diverge
  | restartKeep
  | restartDrop
  | found (s : Nat)
  | through (curr : Nat) (succ : Option Nat)
deriving DecidableEq

/-- The loop `while (succ != 0 && getHash(succ) <= key)` of `fib_get2`:
checks each equal-key payload for address equality (returning the existing
entry if unmarked), then advances, restarting when the cursor dies or lands on
a payload with the searched address. -/
def scan2 (h : α → Nat) [DecidableEq α] (f : Fib α) (a : α) (key : Nat) :
    Nat → Nat → Option Nat → Scan2Res
  | 0, _, _ => .diverge
  | fuel + 1, curr, succ =>
    match succ with
    | none => .through curr none
    | some s =>
      match getHash h f s with
      | none => .diverge
      | some ks =>
        if ks ≤ key then
          if ks = key ∧ getSentinel f s = false ∧ (readNode f s).addr = some a then
            if getFlag f s then .restartDrop else .found s
          else
            match getNextAddress f curr with
            | none => .restartKeep
            | some c2 =>
              if getSentinel f c2 = false ∧ (readNode f c2).addr = some a then .restartKeep
              else scan2 h f a key fuel c2 (getNextAddress f c2)
        else .through curr (some s)

/-- Outcome of the scan loop of `fib_find` (lines 2190-2209). -/
inductive FindRes where
  | diverge
  | restart
  | found (c : Nat)
  | missed
deriving DecidableEq

/-- The loop `while (curr != 0 && getHash(curr) <= key)` of `fib_find`: at an
equal-key payload compare the stored prefix; a marked match restarts the whole
lookup, an unmarked match is returned; falling past the key (or off the list)
reports a miss. -/
def findScan (h : α → Nat) [DecidableEq α] (f : Fib α) (a : α) (key : Nat) :
    Nat → Option Nat → FindRes
  | 0, _ => .diverge
  | fuel + 1, curr =>
    match curr with
    | none => .missed
    | some c =>
      match getHash h f c with
      | none => .diverge
      | some kc =>
        if kc ≤ key then
          if kc = key ∧ getSentinel f c = false ∧ (readNode f c).addr = some a then
            if getFlag f c then .restart else .found c
          else findScan h f a key fuel (getNextAddress f c)
        else .missed

/-- The predecessor-search loop of `fib_delete` (lines 2526-2529):
`while (curr != 0 && getHash(curr) <= key && getNextAddress(curr) != succ)`
advance; returns the final cursor (outer `none` is divergence). -/
def delScan (h : α → Nat) (f : Fib α) (key n : Nat) : Nat → Option Nat → Option (Option Nat)
  | 0, _ => none
  | fuel + 1, curr =>
    match curr with
    | none => some none
    | some c =>
      match getHash h f c with
      | none => none
      | some kc =>
        if kc ≤ key ∧ getNextAddress f c ≠ some n then
          delScan h f key n fuel (getNextAddress f c)
        else some (some c)

/-- `fib_insert2` (multi_test.c lines 2019-2130): insert the sentinel for
`bucket`.  Each outer iteration: run `fib_rehash` when `entries` reached
`entries_max`; anchor at the parent bucket (recursively creating its sentinel
when absent — the recursion and the goto-start retries share the fuel
argument); retry when the anchor reads null mid-resize; advance with `scanLt`
to the insertion point for `key = reverseBits bucket`; return when an equal-key
sentinel already exists (freeing the cached allocation); otherwise allocate
the sentinel node once (cached across retries in `cache`), link it with the
CAS on the predecessor next word, and publish it in the bucket array. -/
def fib_insert2 (h : α → Nat) : Nat → Option Nat → Fib α → Nat → Option (Fib α)
  | 0, _, _, _ => none
  | fuel + 1, cache, f, bucket =>
    let key := reverseBits bucket
    let f := if f.entries ≥ f.entries_max then fib_rehash f else f
    let sb := getParent bucket f.hash_size
    match (if f.table.getD sb none = none then fib_insert2 h fuel none f sb else some f) with
    | none => none
    | some f =>
      match f.table.getD sb none with
      | none => fib_insert2 h fuel cache f bucket
      | some c0 =>
        match scanLt h f key (f.heap.length + 1) c0 (getNextAddress f c0) with
        | .diverge => none
        | .restart => fib_insert2 h fuel cache f bucket
        | .done curr succ =>
          match succ with
          | some s =>
            match getHash h f s with
            | none => none
            | some ks =>
              if ks = key ∧ getSentinel f s = true then some f
              else
                match getHash h f curr with
                | none => none
                | some kc =>
                  if kc < key ∧ key ≤ ks then
                    let p := match cache with
                      | some m => (f, m)
                      | none => ({ f with heap := f.heap ++ [junkNode] }, f.heap.length)
                    let f2 := writeNode p.1 p.2
                      { readNode p.1 p.2 with state := 1, next := some s, marked := false }
                    if getNextAddress f2 curr = some s ∧ getFlag f2 curr = false then
                      let f3 := writeNode f2 curr
                        { readNode f2 curr with next := some p.2, marked := false }
                      some { f3 with table := f3.table.set bucket (some p.2) }
                    else fib_insert2 h fuel (some p.2) f2 bucket
                  else fib_insert2 h fuel cache f bucket
          | none =>
            match getHash h f curr with
            | none => none
            | some kc =>
              if kc < key then
                let p := match cache with
                  | some m => (f, m)
                  | none => ({ f with heap := f.heap ++ [junkNode] }, f.heap.length)
                let f2 := writeNode p.1 p.2
                  { readNode p.1 p.2 with state := 1, next := none, marked := false }
                if getNextAddress f2 curr = none ∧ getFlag f2 curr = false then
                  let f3 := writeNode f2 curr
                    { readNode f2 curr with next := some p.2, marked := false }
                  some { f3 with table := f3.table.set bucket (some p.2) }
                else fib_insert2 h fuel (some p.2) f2 bucket
              else fib_insert2 h fuel cache f bucket

/-- `fib_find` (multi_test.c lines 2158-2218): search by prefix.  Each outer
iteration computes the bucket from the bit-reversed hash and the current mask,
lazily creates the bucket sentinel, retries while the bucket reads null
mid-resize, and scans the equal-or-smaller-key region for the prefix.  The
result is the user pointer or `NULL` (`none`), together with the table (which
the lazy sentinel creation may have changed). -/
def fib_find (h : α → Nat) [DecidableEq α] (a : α) : Nat → Fib α → Option (Option Nat × Fib α)
  | 0, _ => none
  | fuel + 1, f =>
    let key := h a
    let bucket := bucketOfHash f (h a)
    match (if f.table.getD bucket none = none then fib_insert2 h (bucket + 1) none f bucket
           else some f) with
    | none => none
    | some f =>
      match f.table.getD bucket none with
      | none => fib_find h a fuel f
      | some c0 =>
        match findScan h f a key (f.heap.length + 1) (some c0) with
        | .diverge => none
        | .restart => fib_find h a fuel f
        | .found c => some (some (fib_node_to_user c), f)
        | .missed => some (none, f)

/-- `fib_get2` (multi_test.c lines 2222-2383): find-or-insert.  Each outer
iteration: rehash when `entries` reached `entries_max`; compute the starting
bucket, lazily create its sentinel and retry on a mid-resize null; `scanLt`
to the equal-key region; restart when the cursor itself is an equal-key
payload (a deletion passed us); `scan2` through the equal-key run (returning
an existing unmarked entry with the low tag bit set); finally attempt the
insert: allocate the payload once (cached in `cache` across retries, freed
and reallocated around the `restartDrop` path), link it by CAS, run the
constructor, bump the link count and the entry count, and return the
untagged user pointer. -/
def fib_get2 (h : α → Nat) [DecidableEq α] (a : α) : Nat → Option Nat → Fib α → Option (Nat × Fib α)
  | 0, _, _ => none
  | fuel + 1, cache, f =>
    let key := h a
    let f := if f.entries ≥ f.entries_max then fib_rehash f else f
    let sb := bucketOfHash f (h a)
    match (if f.table.getD sb none = none then fib_insert2 h (sb + 1) none f sb else some f) with
    | none => none
    | some f =>
      match f.table.getD sb none with
      | none => fib_get2 h a fuel cache f
      | some c0 =>
        match scanLt h f key (f.heap.length + 1) c0 (getNextAddress f c0) with
        | .diverge => none
        | .restart => fib_get2 h a fuel cache f
        | .done curr1 succ1 =>
          match getHash h f curr1 with
          | none => none
          | some kc1 =>
            if kc1 = key ∧ getSentinel f curr1 = false then fib_get2 h a fuel cache f
            else
              match scan2 h f a key (f.heap.length + 1) curr1 succ1 with
              | .diverge => none
              | .restartKeep => fib_get2 h a fuel cache f
              | .restartDrop => fib_get2 h a fuel none f
              | .found s => some (fib_node_to_user s ||| 1, f)
              | .through curr succ =>
                match getHash h f curr with
                | none => none
                | some kc =>
                  match succ with
                  | some s2 =>
                    match getHash h f s2 with
                    | none => none
                    | some ks2 =>
                      if kc ≤ key ∧ key < ks2 then
                        let p := match cache with
                          | some m => (f, m)
                          | none =>
                            ({ f with heap := f.heap ++ [({ next := none, marked := false, state := 0, addr := some a } : FibNode _)] },
                              f.heap.length)
                        let f2 := writeNode p.1 p.2
                          { readNode p.1 p.2 with state := 0, next := some s2, marked := false }
                        if getNextAddress f2 curr = some s2 ∧ getFlag f2 curr = false then
                          let f3 := writeNode f2 curr
                            { readNode f2 curr with next := some p.2, marked := false }
                          let f4 := addALink f3 (some p.2)
                          some (fib_node_to_user p.2,
                            { f4 with entries := (f4.entries + 1) % 2 ^ 32 })
                        else fib_get2 h a fuel (some p.2) f2
                      else fib_get2 h a fuel cache f
                  | none =>
                    if kc ≤ key then
                      let p := match cache with
                        | some m => (f, m)
                        | none =>
                          ({ f with heap := f.heap ++ [({ next := none, marked := false, state := 0, addr := some a } : FibNode _)] },
                            f.heap.length)
                      let f2 := writeNode p.1 p.2
                        { readNode p.1 p.2 with state := 0, next := none, marked := false }
                      if getNextAddress f2 curr = none ∧ getFlag f2 curr = false then
                        let f3 := writeNode f2 curr
                          { readNode f2 curr with next := some p.2, marked := false }
                        let f4 := addALink f3 (some p.2)
                        some (fib_node_to_user p.2,
                          { f4 with entries := (f4.entries + 1) % 2 ^ 32 })
                      else fib_get2 h a fuel (some p.2) f2
                    else fib_get2 h a fuel cache f

/-- `fib_get` (multi_test.c lines 2395-2402): the public wrapper; masks the
low tag bit off the `fib_get2` result (`r & ~1`). -/
def fib_get (h : α → Nat) [DecidableEq α] (a : α) (fuel : Nat) (f : Fib α) :
    Option (Nat × Fib α) :=
  match fib_get2 h a fuel none f with
  | none => none
  | some (r, f2) => some (2 * (r / 2), f2)

/-- Outcome of `fib_delete`: the C int result with the new state, the fatal
`bug("fib_delete() called for invalid node")`, or divergence/fuel
exhaustion. -/
inductive DeleteRes (α : Type) where
  | ok (removed : Bool) (f : Fib α)
  | fatal
  | diverge
deriving DecidableEq

/-- The retry loop of `fib_delete` (lines 2506-2569) after the node `n` was
marked: ensure the bucket is populated, search the predecessor with `delScan`,
and unlink by CAS; on success adjust the link counts, enqueue the node on the
deferred-free queue and decrement `entries`; a failed CAS retries; a missing
predecessor is the fatal invariant violation. -/
def fib_deleteGo (h : α → Nat) (n key hash : Nat) : Nat → Fib α → DeleteRes α
  | 0, _ => .diverge
  | fuel + 1, f =>
    let bucket := hash &&& f.hash_mask
    match (if f.table.getD bucket none = none then fib_insert2 h (bucket + 1) none f bucket
           else some f) with
    | none => .diverge
    | some f =>
      match f.table.getD bucket none with
      | none => fib_deleteGo h n key hash fuel f
      | some c0 =>
        match delScan h f key n (f.heap.length + 1) (some c0) with
        | none => .diverge
        | some curr =>
          match curr with
          | some c =>
            if getNextAddress f c = some n then
              if getFlag f c = false then
                let f1 := writeNode f c
                  { readNode f c with next := getNextAddress f n, marked := false }
                let f2 := removeALink f1 (some n)
                let f3 := addALink f2 (getNextAddress f2 n)
                let f4 := { f3 with handovers := n :: f3.handovers }
                .ok true { f4 with entries := (f4.entries + (2 ^ 32 - 1)) % 2 ^ 32 }
              else fib_deleteGo h n key hash fuel f
            else .fatal
          | none => .fatal

/-- `fib_delete` (multi_test.c lines 2477-2570): a null entry returns 0;
otherwise mark the node with the fetch-or of `setFlagTrue` (lines 1683-1688) —
an already-set mark returns 0 with the table unchanged; a fresh mark proceeds
to the unlink loop keyed by the node's hash. -/
def fib_delete (h : α → Nat) (fuel : Nat) (f : Fib α) (E : Nat) : DeleteRes α :=
  if E = 0 then .ok false f
  else
    let n := fib_user_to_node E
    let was := getFlag f n
    let f1 := writeNode f n { readNode f n with marked := true }
    if was then .ok false f1
    else
      match getHash h f1 n with
      | none => .diverge
      | some key => fib_deleteGo h n key (reverseBits key) fuel f1

/-- An IPv4 prefix, `net_addr_ip4`: the address word (the C field is named
prefix) and the prefix length. -/
structure IP4 where
  pfx : Nat
  pxlen : Nat
deriving DecidableEq

/-- Modelled from the spec: `ip4_clrbit` lives in the out-of-scope address
library (lib/ip.h); per the external contract of §6 it is the low-bit-clear
primitive used by `route`, clearing the now-out-of-range bit — bit
`31 - pos` counting from the least significant end. -/
def ip4_clrbit (a pos : Nat) : Nat := a &&& (2 ^ 32 - 1 - 2 ^ (31 - pos))

/-- `fib_route_ip4` (multi_test.c lines 2404-2416): repeat `fib_find`; on a
miss with positive prefix length, decrement the length and clear the bit that
fell out of range, and retry.  Structural recursion on the prefix length; the
`fuel` is handed to each `fib_find` call. -/
def fib_route_ip4 (h : IP4 → Nat) (fuel : Nat) : Nat → Nat → Fib IP4 →
    Option (Option Nat × Fib IP4)
  | pfx, pxlen, f =>
    match fib_find h ⟨pfx, pxlen⟩ fuel f with
    | none => none
    | some (some r, f2) => some (some r, f2)
    | some (none, f2) =>
      match pxlen with
      | 0 => some (none, f2)
      | px + 1 => fib_route_ip4 h fuel (ip4_clrbit pfx px) px f2

/-- `fib_route` (multi_test.c lines 2441-2466) for the `NET_IP4` branch: copy
the input prefix (implicit in the functional model — the argument is passed by
value) and run the IPv4 loop.  The IPv6 branch is structurally identical. -/
def fib_route (h : IP4 → Nat) (fuel : Nat) (f : Fib IP4) (n : IP4) :
    Option (Option Nat × Fib IP4) :=
  fib_route_ip4 h fuel n.pfx n.pxlen f

/-- Modelled from the spec (§4.2 Longest-prefix match, for the refinement
claim): "Copy the input prefix; in a loop: perform fib_find; if hit, return;
else decrement the prefix length, clear the now-out-of-range low bit, and
retry.  Terminates at prefix length 0." -/
def fib_route_spec (h : IP4 → Nat) (fuel : Nat) (f : Fib IP4) (n : IP4) :
    Option (Option Nat × Fib IP4) :=
  go n.pfx n.pxlen f
where
  go : Nat → Nat → Fib IP4 → Option (Option Nat × Fib IP4)
  | pfx, pxlen, f =>
    match fib_find h ⟨pfx, pxlen⟩ fuel f with
    | none => none
    | some (some r, f2) => some (some r, f2)
    | some (none, f2) =>
      match pxlen with
      | 0 => some (none, f2)
      | px + 1 => go (ip4_clrbit pfx px) px f2

/-- Modelled from the spec (§4.2 Insert (sentinel), for claim C5's stated
parent formula): "the bucket `b` minus the highest power of two that is at
most `b/2`". -/
def parentSpecFormula (b : Nat) : Nat := b - 2 ^ Nat.log 2 (b / 2)

/-- Walk the chain of nodes from a starting pointer, collecting indices; fuel
bounds the number of steps (`chainD` passes `heap.length + 1`, enough for any
duplicate-free chain).  `none` on an out-of-range index or fuel exhaustion. -/
def chainFrom (heap : List (FibNode α)) : Nat → Option Nat → Option (List Nat)
  | 0, _ => none
  | _ + 1, none => some []
  | fuel + 1, some c =>
    if c < heap.length then (chainFrom heap fuel (heap.getD c junkNode).next).map (c :: ·)
    else none

/-- The chain of the table: the node list reachable from bucket 0. -/
def chainOf (f : Fib α) : Option (List Nat) :=
  chainFrom f.heap (f.heap.length + 1) (f.table.getD 0 none)

/-- The chain with default. -/
def chainD (f : Fib α) : List Nat := (chainOf f).getD []

/-- The list order relation the table maintains between adjacent nodes: keys
strictly increase, or are equal with the later node a payload (sentinel
before payload at equal keys). -/
def ordRel (h : α → Nat) (f : Fib α) (x y : Nat) : Prop :=
  (getHash h f x).getD 0 < (getHash h f y).getD 0 ∨
    ((getHash h f x).getD 0 = (getHash h f y).getD 0 ∧ getSentinel f y = false)

/-- The structural invariant of a table state, still allowing marked nodes on
the chain (deletion marks its target before searching the predecessor): the
chain from bucket 0 exists (is acyclic and in range) and is duplicate-free;
bucket 0 is populated; every populated bucket points at a sentinel on the
chain whose first bucket-array occurrence is that same bucket; every sentinel
on the chain is reachable from the bucket array and every payload carries an
address (so `getHash` is total on the chain); the chain is ordered by
`ordRel`; payload addresses are pairwise distinct; and the sizing fields are
consistent (`hash_size = 2 ^ hash_order`, `hash_mask = hash_size - 1`,
bucket-array length `hash_size`, and the resizing flag clear). -/
def InvS (h : α → Nat) (f : Fib α) : Prop :=
  chainOf f ≠ none ∧
  (chainD f).Nodup ∧
  f.table.getD 0 none ≠ none ∧
  (∀ b < f.hash_size, ∀ s, f.table.getD b none = some s →
    s ∈ chainD f ∧ getSentinel f s = true ∧ getHashFromSentinel f s = some b) ∧
  (∀ c ∈ chainD f, getSentinel f c = true → getHashFromSentinel f c ≠ none) ∧
  (∀ c ∈ chainD f, getSentinel f c = false → (readNode f c).addr ≠ none) ∧
  (chainD f).Chain' (ordRel h f) ∧
  (chainD f).Pairwise (fun x y => getSentinel f x = false → getSentinel f y = false →
    (readNode f x).addr ≠ (readNode f y).addr) ∧
  f.hash_size = 2 ^ f.hash_order ∧
  f.hash_mask = f.hash_size - 1 ∧
  f.table.length = f.hash_size ∧
  f.resizing = false

/-- The invariant of a quiescent table state: the structural invariant, and no
node on the chain carries the delete mark (a marked node is physically
unlinked by the very `fib_delete` call that marked it). -/
def Inv (h : α → Nat) (f : Fib α) : Prop :=
  InvS h f ∧ ∀ c ∈ chainD f, getFlag f c = false

/-- The capacity regime of a table still within its growth headroom:
`entries` has not passed `entries_max`, which sits at twice the table size
(the `HASH_HI_MARK` setting used below `HASH_HI_MAX`). -/
def Cap (f : Fib α) : Prop :=
  f.entries ≤ f.entries_max ∧ f.entries_max = 2 ^ (f.hash_order + 1)

/-- Membership of an entry: node `e` is on the chain, is a payload, and
stores address `a`. -/
def MemP (f : Fib α) (a : α) (e : Nat) : Prop :=
  e ∈ chainD f ∧ getSentinel f e = false ∧ (readNode f e).addr = some a

/-- What a successful `fib_insert2` call guarantees about the relation between
the entry state `f` and the exit state `f2`: the structural invariant again,
the requested bucket populated, bucket-array writes confined to previously
empty buckets whose index is a submask of the requested one, all sizing and
counter fields untouched, old nodes untouched except for next-pointer
redirections, hashes of old chain nodes unchanged, and the chain grown only
by sentinels of the written buckets. -/
structure InsertOut (h : α → Nat) (f f2 : Fib α) (bucket : Nat) : Prop where
  inv : InvS h f2
  written : f2.table.getD bucket none ≠ none
  writes : ∀ i, f2.table.getD i none ≠ f.table.getD i none →
    f.table.getD i none = none ∧ i &&& bucket = i ∧ i < f.hash_size
  tlen : f2.table.length = f.table.length
  size_eq : f2.hash_size = f.hash_size
  order_eq : f2.hash_order = f.hash_order
  mask_eq : f2.hash_mask = f.hash_mask
  shift_eq : f2.hash_shift = f.hash_shift
  entries_eq : f2.entries = f.entries
  emax_eq : f2.entries_max = f.entries_max
  emin_eq : f2.entries_min = f.entries_min
  resizing_eq : f2.resizing = f.resizing
  handovers_eq : f2.handovers = f.handovers
  hplen : f.heap.length ≤ f2.heap.length
  node_pres : ∀ c, c < f.heap.length →
    (readNode f2 c).state = (readNode f c).state ∧
    (readNode f2 c).addr = (readNode f c).addr ∧
    (readNode f2 c).marked = (readNode f c).marked
  hash_pres : ∀ c ∈ chainD f, getHash h f2 c = getHash h f c
  chain_new : ∀ c ∈ chainD f2, c ∈ chainD f ∨
    (f.heap.length ≤ c ∧ (readNode f2 c).marked = false ∧
      ∃ b2, f2.table.getD b2 none = some c ∧
      b2 &&& bucket = b2 ∧ b2 < f.hash_size)
  chain_old : ∀ c ∈ chainD f, c ∈ chainD f2

instance (h : α → Nat) (f : Fib α) : DecidableRel (ordRel h f) := fun _ _ => by
  unfold ordRel; infer_instance

instance chainPairDec {β : Type} (R : β → β → Prop) [DecidableRel R] :
    ∀ l : List β, Decidable (l.Chain' R)
  | [] => .isTrue List.chain'_nil
  | [b] => .isTrue (List.chain'_singleton b)
  | a :: b :: l =>
    haveI : Decidable ((b :: l).Chain' R) := chainPairDec R (b :: l)
    decidable_of_iff (R a b ∧ (b :: l).Chain' R) List.chain'_cons.symm

instance (h : α → Nat) [DecidableEq α] (f : Fib α) : Decidable (InvS h f) := by
  unfold InvS; infer_instance

instance (h : α → Nat) [DecidableEq α] (f : Fib α) : Decidable (Inv h f) := by
  unfold Inv; infer_instance

instance (f : Fib α) : Decidable (Cap f) := by
  unfold Cap; infer_instance

instance [DecidableEq α] (f : Fib α) (a : α) (e : Nat) : Decidable (MemP f a e) := by
  unfold MemP; infer_instance

/-- A concrete one-bucket table holding the bucket-0 sentinel and one linked
payload node storing address 5, used to evaluate the operations on explicit
states. -/
def demoF : Fib Nat where
  heap := [⟨some 1, false, 1, none⟩, ⟨none, false, 0, some 5⟩]
  table := [some 0]
  hash_size := 1
  hash_order := 0
  hash_shift := 32
  hash_mask := 0
  entries := 1
  entries_min := 0
  entries_max := 2
  resizing := false
  handovers := []

/-- A concrete variant of the one-bucket table whose payload node is not
reachable from the bucket array: the address is not present in the table
although its node exists and carries no delete mark. -/
def demoBad : Fib Nat where
  heap := [⟨none, false, 1, none⟩, ⟨none, false, 0, some 5⟩]
  table := [some 0]
  hash_size := 1
  hash_order := 0
  hash_shift := 32
  hash_mask := 0
  entries := 0
  entries_min := 0
  entries_max := 2
  resizing := false
  handovers := []

/-! ### Bit-reversal lemmas -/

theorem and_one_shiftLeft_ne_zero (num i : Nat) :
    (num &&& (1 <<< i) ≠ 0) ↔ num.testBit i = true := by
  rw [Nat.one_shiftLeft]
  constructor
  · intro hne
    obtain ⟨j, hj⟩ := Nat.ne_zero_implies_bit_true hne
    rw [Nat.testBit_and, Bool.and_eq_true, Nat.testBit_two_pow] at hj
    obtain ⟨h1, h2⟩ := hj
    exact (of_decide_eq_true h2) ▸ h1
  · intro hb hz
    have : (num &&& 2 ^ i).testBit i = false := by rw [hz]; exact Nat.zero_testBit i
    rw [Nat.testBit_and, hb, Nat.testBit_two_pow_self] at this
    simp at this

theorem foldl_bitrev_testBit (w num : Nat) :
    ∀ (l : List Nat) (acc j : Nat),
      ((l.foldl (fun r i => if num &&& (1 <<< i) ≠ 0 then r ||| (1 <<< (w - 1 - i)) else r)
        acc).testBit j) =
        (acc.testBit j || l.any fun i => num.testBit i && decide (j = w - 1 - i))
  | [], acc, j => by simp
  | i :: l, acc, j => by
    simp only [List.foldl_cons, List.any_cons, foldl_bitrev_testBit w num l]
    by_cases hb : num &&& (1 <<< i) ≠ 0
    · have hbit : num.testBit i = true := (and_one_shiftLeft_ne_zero num i).1 hb
      rw [if_pos hb, hbit]
      rw [Nat.testBit_or, Nat.one_shiftLeft, Nat.testBit_two_pow]
      have : (decide (w - 1 - i = j)) = (decide (j = w - 1 - i)) := by
        simp [eq_comm]
      rw [this]
      cases acc.testBit j <;> cases (decide (j = w - 1 - i)) <;> simp
    · have hbit : num.testBit i = false := by
        rcases Bool.eq_false_or_eq_true (num.testBit i) with ht | hf
        · exact absurd ((and_one_shiftLeft_ne_zero num i).2 ht) hb
        · exact hf
      rw [if_neg hb, hbit]
      simp

theorem revAux_testBit (w num j : Nat) :
    (revAux w num).testBit j = (decide (j < w) && num.testBit (w - 1 - j)) := by
  unfold revAux
  rw [foldl_bitrev_testBit]
  simp only [Nat.zero_testBit, Bool.false_or]
  by_cases hj : j < w
  · simp only [hj, decide_True, Bool.true_and]
    by_cases hbit : num.testBit (w - 1 - j) = true
    · rw [hbit, List.any_eq_true]
      refine ⟨w - 1 - j, List.mem_range.2 (by omega), ?_⟩
      rw [hbit]
      simp only [Bool.true_and, decide_eq_true_eq]
      omega
    · have hbit' : num.testBit (w - 1 - j) = false := eq_false_of_ne_true hbit
      rw [hbit']
      rw [List.any_eq_false]
      intro i hi
      rw [List.mem_range] at hi
      simp only [Bool.and_eq_true, decide_eq_true_eq, not_and]
      intro hb hji
      have hieq : i = w - 1 - j := by omega
      rw [hieq, hbit'] at hb
      exact Bool.false_ne_true hb
  · simp only [hj, decide_False, Bool.false_and]
    rw [List.any_eq_false]
    intro i hi
    rw [List.mem_range] at hi
    simp only [Bool.and_eq_true, decide_eq_true_eq, not_and]
    intro _ hji
    omega

theorem reverseBitsLoop_testBit (num j : Nat) :
    (reverseBitsLoop num).testBit j = (decide (j < 32) && num.testBit (31 - j)) := by
  have := revAux_testBit 32 num j
  unfold reverseBitsLoop
  rw [this]

theorem table_getD_eq : ∀ b < 256, BitReverseTable256.getD b 0 = revAux 8 b := by decide

theorem table_getD_lt_aux : ∀ b < 256, BitReverseTable256.getD b 0 < 2 ^ 8 := by decide

theorem table_length_eq : BitReverseTable256.length = 256 := by decide

theorem table_getD_lt (b : Nat) : BitReverseTable256.getD b 0 < 2 ^ 8 := by
  by_cases hb : b < 256
  · exact table_getD_lt_aux b hb
  · rw [List.getD_eq_default _ _ (by rw [table_length_eq]; omega)]
    norm_num

theorem byte_testBit (x m k : Nat) (hk : k < 8) :
    (x / 2 ^ m % 2 ^ 8).testBit k = x.testBit (m + k) := by
  rw [Nat.testBit_mod_two_pow]
  simp only [hk, decide_True, Bool.true_and]
  rw [← Nat.shiftRight_eq_div_pow, Nat.testBit_shiftRight]

theorem tableByte_testBit (y k : Nat) (hy : y < 2 ^ 8) :
    (BitReverseTable256.getD y 0).testBit k = (decide (k < 8) && y.testBit (7 - k)) := by
  rw [table_getD_eq y hy, revAux_testBit]

theorem reverseBits_testBit (x j : Nat) :
    (reverseBits x).testBit j = (decide (j < 32) && x.testBit (31 - j)) := by
  have h3 := table_getD_lt (x / 2 ^ 24 % 2 ^ 8)
  have h2 := table_getD_lt (x / 2 ^ 16 % 2 ^ 8)
  have h1 := table_getD_lt (x / 2 ^ 8 % 2 ^ 8)
  have h0 := table_getD_lt (x % 2 ^ 8)
  have hsum : reverseBits x =
      2 ^ 24 * BitReverseTable256.getD (x % 2 ^ 8) 0 +
        (2 ^ 16 * BitReverseTable256.getD (x / 2 ^ 8 % 2 ^ 8) 0 +
          (2 ^ 8 * BitReverseTable256.getD (x / 2 ^ 16 % 2 ^ 8) 0 +
            BitReverseTable256.getD (x / 2 ^ 24 % 2 ^ 8) 0)) := by
    unfold reverseBits; ring
  have b1 : 2 ^ 8 * BitReverseTable256.getD (x / 2 ^ 16 % 2 ^ 8) 0 +
      BitReverseTable256.getD (x / 2 ^ 24 % 2 ^ 8) 0 < 2 ^ 16 := by omega
  have b2 : 2 ^ 16 * BitReverseTable256.getD (x / 2 ^ 8 % 2 ^ 8) 0 +
      (2 ^ 8 * BitReverseTable256.getD (x / 2 ^ 16 % 2 ^ 8) 0 +
        BitReverseTable256.getD (x / 2 ^ 24 % 2 ^ 8) 0) < 2 ^ 24 := by omega
  rw [hsum, Nat.testBit_mul_pow_two_add _ b2]
  by_cases hj24 : j < 24
  · rw [if_pos hj24, Nat.testBit_mul_pow_two_add _ b1]
    by_cases hj16 : j < 16
    · rw [if_pos hj16, Nat.testBit_mul_pow_two_add _ h3]
      by_cases hj8 : j < 8
      · rw [if_pos hj8]
        rw [tableByte_testBit _ _ (Nat.mod_lt _ (by norm_num)), byte_testBit _ _ _ (by omega)]
        have : 24 + (7 - j) = 31 - j := by omega
        rw [this]
        simp [show j < 32 by omega, show j < 8 from hj8]
      · rw [if_neg hj8]
        rw [tableByte_testBit _ _ (Nat.mod_lt _ (by norm_num)), byte_testBit _ _ _ (by omega)]
        have : 16 + (7 - (j - 8)) = 31 - j := by omega
        rw [this]
        simp [show j < 32 by omega, show j - 8 < 8 by omega]
    · rw [if_neg hj16]
      rw [tableByte_testBit _ _ (Nat.mod_lt _ (by norm_num)), byte_testBit _ _ _ (by omega)]
      have : 8 + (7 - (j - 16)) = 31 - j := by omega
      rw [this]
      simp [show j < 32 by omega, show j - 16 < 8 by omega]
  · rw [if_neg hj24]
    by_cases hj32 : j < 32
    · rw [tableByte_testBit _ _ (Nat.mod_lt _ (by norm_num))]
      rw [show (7 : Nat) - (j - 24) = 31 - j by omega]
      rw [Nat.testBit_mod_two_pow]
      simp only [show j - 24 < 8 by omega, decide_True, Bool.true_and, hj32,
        show 31 - j < 8 by omega]
    · rw [tableByte_testBit _ _ (Nat.mod_lt _ (by norm_num))]
      simp [show ¬(j - 24 < 8) by omega, hj32]

theorem reverseBits_eq_loop (x : Nat) : reverseBits x = reverseBitsLoop x :=
  Nat.eq_of_testBit_eq fun j => by rw [reverseBits_testBit, reverseBitsLoop_testBit]

theorem reverseBits_lt (x : Nat) : reverseBits x < 2 ^ 32 := by
  have h3 := table_getD_lt (x / 2 ^ 24 % 2 ^ 8)
  have h2 := table_getD_lt (x / 2 ^ 16 % 2 ^ 8)
  have h1 := table_getD_lt (x / 2 ^ 8 % 2 ^ 8)
  have h0 := table_getD_lt (x % 2 ^ 8)
  unfold reverseBits
  omega

theorem reverseBits_reverseBits (x : Nat) : reverseBits (reverseBits x) = x % 2 ^ 32 :=
  Nat.eq_of_testBit_eq fun j => by
    rw [reverseBits_testBit, reverseBits_testBit, Nat.testBit_mod_two_pow]
    by_cases hj : j < 32
    · simp only [hj, decide_True, Bool.true_and, show 31 - j < 32 by omega,
        show 31 - (31 - j) = j by omega]
    · simp [hj]

theorem reverseBits_and (x y : Nat) :
    reverseBits (x &&& y) = reverseBits x &&& reverseBits y :=
  Nat.eq_of_testBit_eq fun j => by
    rw [Nat.testBit_and, reverseBits_testBit, reverseBits_testBit, reverseBits_testBit,
      Nat.testBit_and]
    cases decide (j < 32) <;> simp

theorem reverseBits_le_of_and_self {x y : Nat} (hxy : x &&& y = x) :
    reverseBits x ≤ reverseBits y := by
  calc reverseBits x = reverseBits (x &&& y) := by rw [hxy]
    _ = reverseBits x &&& reverseBits y := reverseBits_and x y
    _ ≤ reverseBits y := Nat.and_le_right

theorem reverseBits_inj {x y : Nat} (hx : x < 2 ^ 32) (hy : y < 2 ^ 32)
    (hr : reverseBits x = reverseBits y) : x = y := by
  have : x % 2 ^ 32 = y % 2 ^ 32 := by
    rw [← reverseBits_reverseBits, ← reverseBits_reverseBits, hr]
  rwa [Nat.mod_eq_of_lt hx, Nat.mod_eq_of_lt hy] at this

theorem reverseBits_lt_of_and_self {x y : Nat} (hxy : x &&& y = x) (hne : x ≠ y)
    (hy : y < 2 ^ 32) : reverseBits x < reverseBits y := by
  have hx : x < 2 ^ 32 := Nat.lt_of_le_of_lt (hxy ▸ Nat.and_le_right) hy
  refine Nat.lt_of_le_of_ne (reverseBits_le_of_and_self hxy) (fun he => ?_)
  exact hne (reverseBits_inj hx hy he)

theorem sentinelKey_le (H mask : Nat) : reverseBits (reverseBits H &&& mask) ≤ H := by
  calc reverseBits (reverseBits H &&& mask)
      = reverseBits (reverseBits H) &&& reverseBits mask := reverseBits_and _ _
    _ ≤ reverseBits (reverseBits H) := Nat.and_le_left
    _ = H % 2 ^ 32 := reverseBits_reverseBits H
    _ ≤ H := Nat.mod_le _ _

/-! ### getParent lemmas -/

theorem getParentGo_zero : ∀ (fuel p : Nat), p ≤ fuel + 1 → getParentGo 0 p fuel = 0
  | 0, p, hp => by
    unfold getParentGo
    omega
  | fuel + 1, p, hp => by
    unfold getParentGo
    by_cases hg : p / 2 > 0
    · rw [if_pos hg]
      exact getParentGo_zero fuel (p / 2) (by omega)
    · rw [if_neg hg]
      omega

theorem getParent_zero (s : Nat) : getParent 0 s = 0 := by
  unfold getParent
  rw [getParentGo_zero s s (by omega)]

theorem getParentGo_pow : ∀ (k fuel b : Nat), 0 < b → b < 2 ^ k → k ≤ fuel + 1 →
    getParentGo b (2 ^ k) fuel = 2 ^ Nat.log 2 b
  | 0, _, b, hb, hbk, _ => by omega
  | k + 1, 0, b, hb, hbk, hf => by
    have hk : k = 0 := by omega
    subst hk
    have hb1 : b = 1 := by omega
    subst hb1
    unfold getParentGo
    norm_num
  | k + 1, fuel + 1, b, hb, hbk, hf => by
    unfold getParentGo
    have hdiv : 2 ^ (k + 1) / 2 = 2 ^ k := by
      rw [Nat.pow_succ]
      exact Nat.mul_div_cancel _ (by norm_num)
    rw [hdiv]
    by_cases hg : 2 ^ k > b
    · rw [if_pos hg]
      exact getParentGo_pow k fuel b hb hg (by omega)
    · rw [if_neg hg]
      have hle : 2 ^ k ≤ b := by omega
      rw [Nat.log_eq_of_pow_le_of_lt_pow hle hbk]

theorem getParent_pow (k b : Nat) (hb : 0 < b) (hbk : b < 2 ^ k) :
    getParent b (2 ^ k) = b - 2 ^ Nat.log 2 b := by
  unfold getParent
  rw [getParentGo_pow k (2 ^ k) b hb hbk (Nat.le_of_lt (by
    have := Nat.lt_two_pow k
    omega))]

theorem getParent_lt (k b : Nat) (hb : 0 < b) (hbk : b < 2 ^ k) :
    getParent b (2 ^ k) < b := by
  rw [getParent_pow k b hb hbk]
  have h1 : 2 ^ Nat.log 2 b ≤ b := Nat.pow_log_le_self 2 (by omega)
  have h2 : 0 < 2 ^ Nat.log 2 b := Nat.pos_pow_of_pos _ (by norm_num)
  omega

theorem getParent_le (b s : Nat) : getParent b s ≤ b := Nat.sub_le _ _

theorem and_of_add_pow (L : Nat) {r b : Nat} (hr : r < 2 ^ L) (hbe : b = 2 ^ L + r) :
    r &&& b = r := by
  refine Nat.eq_of_testBit_eq fun j => ?_
  rw [Nat.testBit_and]
  have hbbit : b.testBit j = if j < L then r.testBit j else Nat.testBit 1 (j - L) := by
    rw [hbe, show (2 : Nat) ^ L + r = 2 ^ L * 1 + r by ring]
    exact Nat.testBit_mul_pow_two_add 1 hr j
  rw [hbbit]
  by_cases hjL : j < L
  · rw [if_pos hjL, Bool.and_self]
  · rw [if_neg hjL]
    have hrj : r.testBit j = false :=
      Nat.testBit_lt_two_pow (Nat.lt_of_lt_of_le hr (Nat.pow_le_pow_right (by norm_num)
        (by omega)))
    rw [hrj, Bool.false_and]

theorem sub_pow_log_and (b : Nat) (hb : 0 < b) :
    (b - 2 ^ Nat.log 2 b) &&& b = b - 2 ^ Nat.log 2 b := by
  have h1 : 2 ^ Nat.log 2 b ≤ b := Nat.pow_log_le_self 2 (by omega)
  have h2 : b < 2 ^ (Nat.log 2 b + 1) := Nat.lt_pow_succ_log_self (by norm_num) b
  have h2' : (2 : Nat) ^ (Nat.log 2 b + 1) = 2 * 2 ^ Nat.log 2 b := by
    rw [Nat.pow_succ, Nat.mul_comm]
  exact and_of_add_pow (Nat.log 2 b) (by omega) (by omega)

theorem sub_pow_log_ne (b : Nat) (hb : 0 < b) : b - 2 ^ Nat.log 2 b ≠ b := by
  have h1 : 2 ^ Nat.log 2 b ≤ b := Nat.pow_log_le_self 2 (by omega)
  have h2 : 0 < 2 ^ Nat.log 2 b := Nat.pos_pow_of_pos _ (by norm_num)
  omega

/-! ### Chain lemmas -/

theorem chainFrom_mono {heap : List (FibNode α)} :
    ∀ (fuel fuel' : Nat) (s : Option Nat) (L : List Nat),
      chainFrom heap fuel s = some L → fuel ≤ fuel' → chainFrom heap fuel' s = some L
  | 0, _, s, L, hc, _ => by simp [chainFrom] at hc
  | fuel + 1, fuel', none, L, hc, hle => by
    obtain ⟨fu', rfl⟩ : ∃ fu', fuel' = fu' + 1 := ⟨fuel' - 1, by omega⟩
    simpa [chainFrom] using hc
  | fuel + 1, fuel', some c, L, hc, hle => by
    obtain ⟨fu', rfl⟩ : ∃ fu', fuel' = fu' + 1 := ⟨fuel' - 1, by omega⟩
    simp only [chainFrom] at hc ⊢
    by_cases hcl : c < heap.length
    · rw [if_pos hcl] at hc ⊢
      cases hrec : chainFrom heap fuel (heap.getD c junkNode).next with
      | none => rw [hrec] at hc; simp at hc
      | some L' =>
        rw [hrec] at hc
        rw [chainFrom_mono fuel fu' _ L' hrec (by omega)]
        exact hc
    · rw [if_neg hcl] at hc
      simp at hc

theorem chainFrom_mem_lt {heap : List (FibNode α)} :
    ∀ (fuel : Nat) (s : Option Nat) (L : List Nat),
      chainFrom heap fuel s = some L → ∀ c ∈ L, c < heap.length
  | 0, s, L, hc => by simp [chainFrom] at hc
  | fuel + 1, none, L, hc => by
    simp [chainFrom] at hc
    subst hc
    intro c hcm
    simp at hcm
  | fuel + 1, some c, L, hc => by
    simp only [chainFrom] at hc
    by_cases hcl : c < heap.length
    · rw [if_pos hcl] at hc
      cases hrec : chainFrom heap fuel (heap.getD c junkNode).next with
      | none => rw [hrec] at hc; simp at hc
      | some L' =>
        rw [hrec] at hc
        simp only [Option.map_some', Option.some_inj] at hc
        subst hc
        intro x hx
        rcases List.mem_cons.1 hx with rfl | hx'
        · exact hcl
        · exact chainFrom_mem_lt fuel _ L' hrec x hx'
    · rw [if_neg hcl] at hc
      simp at hc

theorem chainFrom_min {heap : List (FibNode α)} :
    ∀ (fuel : Nat) (s : Option Nat) (L : List Nat),
      chainFrom heap fuel s = some L → chainFrom heap (L.length + 1) s = some L
  | 0, s, L, hc => by simp [chainFrom] at hc
  | fuel + 1, none, L, hc => by
    simp [chainFrom] at hc
    subst hc
    simp [chainFrom]
  | fuel + 1, some c, L, hc => by
    simp only [chainFrom] at hc
    by_cases hcl : c < heap.length
    · rw [if_pos hcl] at hc
      cases hrec : chainFrom heap fuel (heap.getD c junkNode).next with
      | none => rw [hrec] at hc; simp at hc
      | some L' =>
        rw [hrec] at hc
        simp only [Option.map_some', Option.some_inj] at hc
        subst hc
        have hrec' := chainFrom_min fuel _ L' hrec
        simp only [List.length_cons, chainFrom, if_pos hcl]
        rw [hrec']
        rfl
    · rw [if_neg hcl] at hc
      simp at hc

theorem chainFrom_head {heap : List (FibNode α)} (fuel : Nat) (s : Option Nat) (L : List Nat)
    (hc : chainFrom heap fuel s = some L) : L.head? = s := by
  match fuel, s with
  | 0, s => simp [chainFrom] at hc
  | fuel + 1, none =>
    simp [chainFrom] at hc
    subst hc
    rfl
  | fuel + 1, some c =>
    simp only [chainFrom] at hc
    by_cases hcl : c < heap.length
    · rw [if_pos hcl] at hc
      cases hrec : chainFrom heap fuel (heap.getD c junkNode).next with
      | none => rw [hrec] at hc; simp at hc
      | some L' =>
        rw [hrec] at hc
        simp only [Option.map_some', Option.some_inj] at hc
        subst hc
        rfl
    · rw [if_neg hcl] at hc
      simp at hc

theorem chainFrom_cons_inv {heap : List (FibNode α)} (fuel : Nat) (c : Nat) (L : List Nat)
    (hc : chainFrom heap (fuel + 1) (some c) = some L) :
    c < heap.length ∧ ∃ B, L = c :: B ∧
      chainFrom heap fuel (heap.getD c junkNode).next = some B := by
  simp only [chainFrom] at hc
  by_cases hcl : c < heap.length
  · rw [if_pos hcl] at hc
    cases hrec : chainFrom heap fuel (heap.getD c junkNode).next with
    | none => rw [hrec] at hc; simp at hc
    | some L' =>
      rw [hrec] at hc
      simp only [Option.map_some', Option.some_inj] at hc
      exact ⟨hcl, L', hc.symm, rfl⟩
  · rw [if_neg hcl] at hc
    simp at hc

theorem chainFrom_suffix {heap : List (FibNode α)} :
    ∀ (A : List Nat) (fuel : Nat) (s : Option Nat) (c : Nat) (B : List Nat),
      chainFrom heap fuel s = some (A ++ c :: B) →
      chainFrom heap (B.length + 2) (some c) = some (c :: B)
  | [], fuel, s, c, B, hc => by
    have hh := chainFrom_head fuel s _ hc
    simp at hh
    subst hh
    have := chainFrom_min fuel _ _ hc
    simpa using this
  | a :: A', fuel, s, c, B, hc => by
    have hh := chainFrom_head fuel s _ hc
    simp at hh
    subst hh
    obtain ⟨fu, rfl⟩ : ∃ fu, fuel = fu + 1 := by
      cases fuel with
      | zero => simp [chainFrom] at hc
      | succ n => exact ⟨n, rfl⟩
    obtain ⟨hal, B', hB', hrec⟩ := chainFrom_cons_inv fu a _ hc
    have hB'' : B' = A' ++ c :: B := by
      have hcc : a :: (A' ++ c :: B) = a :: B' := by simpa using hB'
      exact (List.cons_injective hcc).symm
    exact chainFrom_suffix A' fu _ c B (hB'' ▸ hrec)

theorem nodup_length_le (L : List Nat) (n : Nat) (hnd : L.Nodup) (hlt : ∀ c ∈ L, c < n) :
    L.length ≤ n := by
  classical
  have hcard : L.length = L.toFinset.card := (List.toFinset_card_of_nodup hnd).symm
  rw [hcard]
  have hsub : L.toFinset ⊆ Finset.range n := by
    intro x hx
    rw [List.mem_toFinset] at hx
    exact Finset.mem_range.2 (hlt x hx)
  simpa using Finset.card_le_card hsub

theorem chainFrom_congr {heap heap2 : List (FibNode α)} :
    ∀ (fuel : Nat) (s : Option Nat) (L : List Nat),
      chainFrom heap fuel s = some L →
      (∀ x ∈ L, x < heap2.length ∧
        (heap2.getD x junkNode).next = (heap.getD x junkNode).next) →
      chainFrom heap2 fuel s = some L
  | 0, s, L, hc, _ => by simp [chainFrom] at hc
  | fuel + 1, none, L, hc, _ => by simpa [chainFrom] using hc
  | fuel + 1, some c, L, hc, hag => by
    obtain ⟨hcl, B, rfl, hrec⟩ := chainFrom_cons_inv fuel c L hc
    have hc2 := hag c (List.mem_cons_self c B)
    simp only [chainFrom, if_pos hc2.1]
    rw [hc2.2]
    rw [chainFrom_congr fuel _ B hrec (fun x hx => hag x (List.mem_cons_of_mem c hx))]
    rfl

/-! ### Heap and bucket-array read lemmas -/

theorem readNode_writeNode_self (f : Fib α) (c : Nat) (nd : FibNode α)
    (hc : c < f.heap.length) : readNode (writeNode f c nd) c = nd := by
  unfold readNode writeNode
  simp [List.getD_eq_getElem?_getD, List.getElem?_set_self (by simpa using hc)]

theorem readNode_writeNode_ne (f : Fib α) (c c' : Nat) (nd : FibNode α)
    (hne : c ≠ c') : readNode (writeNode f c nd) c' = readNode f c' := by
  unfold readNode writeNode
  simp [List.getD_eq_getElem?_getD, List.getElem?_set_ne hne]

theorem readNode_extend (f : Fib α) (l : List (FibNode α)) (c : Nat)
    (hc : c < f.heap.length) :
    readNode { f with heap := f.heap ++ l } c = readNode f c := by
  unfold readNode
  simp only [List.getD_eq_getElem?_getD]
  rw [List.getElem?_append, if_pos hc]

theorem readNode_extend_new (f : Fib α) (nd : FibNode α) :
    readNode { f with heap := f.heap ++ [nd] } f.heap.length = nd := by
  unfold readNode
  simp [List.getD_eq_getElem?_getD]

theorem readNode_oob (f : Fib α) (c : Nat) (hc : f.heap.length ≤ c) :
    readNode f c = junkNode := by
  unfold readNode
  simp only [List.getD_eq_getElem?_getD]
  rw [List.getElem?_eq_none (by simpa using hc)]
  rfl

theorem find?_range_eq_some (n : Nat) (p : Nat → Bool) (b : Nat) (hb : b < n)
    (hpb : p b = true) (hmin : ∀ i < b, p i = false) :
    (List.range n).find? p = some b := by
  induction n with
  | zero => omega
  | succ m ih =>
    rw [List.range_succ, List.find?_append]
    by_cases hbm : b < m
    · rw [ih hbm]
      rfl
    · have hbe : b = m := by omega
      subst hbe
      have hnone : (List.range b).find? p = none := by
        rw [List.find?_eq_none]
        intro x hx
        rw [List.mem_range] at hx
        simp [hmin x hx]
      rw [hnone]
      simp [hpb]

theorem find?_range_spec (n : Nat) (p : Nat → Bool) (b : Nat)
    (hf : (List.range n).find? p = some b) :
    b < n ∧ p b = true ∧ ∀ i < b, p i = false := by
  induction n with
  | zero => simp [List.find?] at hf
  | succ m ih =>
    rw [List.range_succ, List.find?_append] at hf
    cases hm : (List.range m).find? p with
    | some b' =>
      rw [hm] at hf
      have hb' : b' = b := by simpa using hf
      subst hb'
      obtain ⟨h1, h2, h3⟩ := ih hm
      exact ⟨by omega, h2, h3⟩
    | none =>
      rw [hm] at hf
      simp only [Option.none_or] at hf
      have hmem : ∀ x ∈ List.range m, ¬ p x := List.find?_eq_none.1 hm
      cases hfb : p m with
      | true =>
        have hbm : m = b := by simpa [List.find?, hfb] using hf
        subst hbm
        refine ⟨by omega, hfb, fun i hi => ?_⟩
        have := hmem i (List.mem_range.2 hi)
        simpa using this
      | false =>
        simp [List.find?, hfb] at hf

/-! ### Order relation lemmas -/

theorem ordRel_trans (h : α → Nat) (f : Fib α) : Transitive (ordRel h f) := by
  intro x y z hxy hyz
  unfold ordRel at hxy hyz ⊢
  rcases hxy with hlt | ⟨heq, _⟩ <;> rcases hyz with hlt' | ⟨heq', hs'⟩
  · exact Or.inl (Nat.lt_trans hlt hlt')
  · exact Or.inl (heq' ▸ hlt)
  · exact Or.inl (heq ▸ hlt')
  · exact Or.inr ⟨heq.trans heq', hs'⟩

theorem chain_ordRel_pairwise (h : α → Nat) (f : Fib α) (L : List Nat)
    (hch : L.Chain' (ordRel h f)) : L.Pairwise (ordRel h f) := by
  haveI : IsTrans Nat (ordRel h f) := ⟨fun a b c hab hbc => ordRel_trans h f hab hbc⟩
  exact List.chain'_iff_pairwise.1 hch

theorem ordRel_le (h : α → Nat) (f : Fib α) {x y : Nat} (hr : ordRel h f x y) :
    (getHash h f x).getD 0 ≤ (getHash h f y).getD 0 := by
  rcases hr with hlt | ⟨heq, _⟩
  · exact Nat.le_of_lt hlt
  · exact Nat.le_of_eq heq

/-! ### Scan characterizations -/

theorem chainFrom_nil_start {heap : List (FibNode α)} (fuel : Nat) (s : Option Nat)
    (hc : chainFrom heap fuel s = some []) : s = none := by
  have := chainFrom_head fuel s [] hc
  simpa using this.symm

theorem scanLt_spec (h : α → Nat) (f : Fib α) (key : Nat) :
    ∀ (B : List Nat) (curr : Nat) (fuel : Nat),
      chainFrom f.heap (B.length + 2) (some curr) = some (curr :: B) →
      (∀ x ∈ B, getHash h f x ≠ none) →
      B.length < fuel →
      ∃ (X Y : List Nat) (c2 : Nat),
        curr :: B = X ++ c2 :: Y ∧
        scanLt h f key fuel curr (getNextAddress f curr) = .done c2 Y.head? ∧
        getNextAddress f c2 = Y.head? ∧
        (∀ x ∈ X ++ [c2], x = curr ∨ (getHash h f x).getD 0 < key) ∧
        (∀ s ∈ Y.head?, ¬((getHash h f s).getD 0 < key))
  | [], curr, fuel, hch, _, hfuel => by
    obtain ⟨hcl, B0, hB0, hrec⟩ := chainFrom_cons_inv _ curr _ hch
    have hB0nil : B0 = [] := by simpa using hB0
    subst hB0nil
    have hnext : (f.heap.getD curr junkNode).next = none := chainFrom_nil_start _ _ hrec
    obtain ⟨fu, rfl⟩ : ∃ fu, fuel = fu + 1 := ⟨fuel - 1, by omega⟩
    refine ⟨[], [], curr, by simp, ?_, ?_, ?_, ?_⟩
    · show scanLt h f key (fu + 1) curr (getNextAddress f curr) = .done curr none
      have : getNextAddress f curr = none := hnext
      rw [this]
      rfl
    · exact hnext
    · intro x hx
      simp at hx
      exact Or.inl hx
    · intro s hs
      simp at hs
  | b :: B', curr, fuel, hch, hdef, hfuel => by
    obtain ⟨hcl, B0, hB0, hrec⟩ := chainFrom_cons_inv _ curr _ hch
    have hB0e : B0 = b :: B' := by simpa using hB0.symm
    subst hB0e
    have hnext : (f.heap.getD curr junkNode).next = some b :=
      (chainFrom_head _ _ _ hrec).symm
    obtain ⟨fu, rfl⟩ : ∃ fu, fuel = fu + 1 := ⟨fuel - 1, by omega⟩
    obtain ⟨kb, hkb⟩ : ∃ kb, getHash h f b = some kb := by
      cases hkb : getHash h f b with
      | none => exact absurd hkb (hdef b (by simp))
      | some k => exact ⟨k, rfl⟩
    have hgnext : getNextAddress f curr = some b := hnext
    by_cases hlt : kb < key
    · have hsuff : chainFrom f.heap (B'.length + 2) (some b) = some (b :: B') :=
        chainFrom_suffix [curr] _ _ b B' hch
      obtain ⟨X', Y, c2, hsplit, hscan, hnc2, hX', hY⟩ :=
        scanLt_spec h f key B' b fu hsuff (fun x hx => hdef x (by simp [hx])) (by
          simp at hfuel ⊢; omega)
      refine ⟨curr :: X', Y, c2, ?_, ?_, hnc2, ?_, hY⟩
      · rw [List.cons_append, ← hsplit]
      · show scanLt h f key (fu + 1) curr (getNextAddress f curr) = _
        rw [hgnext]
        simp only [scanLt, hkb, if_pos hlt, hgnext]
        exact hscan
      · intro x hx
        have hx2 : x = curr ∨ x ∈ X' ++ [c2] := by
          rcases (by simpa using hx : x = curr ∨ x ∈ X' ∨ x = c2) with h1 | h2 | h3
          · exact Or.inl h1
          · exact Or.inr (by simp [h2])
          · exact Or.inr (by simp [h3])
        rcases hx2 with rfl | hx'
        · exact Or.inl rfl
        · rcases hX' x hx' with rfl | hxlt
          · exact Or.inr (by rw [hkb]; simpa using hlt)
          · exact Or.inr hxlt
    · refine ⟨[], b :: B', curr, by simp, ?_, by simpa using hgnext, ?_, ?_⟩
      · show scanLt h f key (fu + 1) curr (getNextAddress f curr) = _
        rw [hgnext]
        simp only [scanLt, hkb, if_neg hlt]
        rfl
      · intro x hx
        simp at hx
        exact Or.inl hx
      · intro s hs
        simp at hs
        subst hs
        rw [hkb]
        simpa using hlt

theorem getHash_payload (h : α → Nat) (f : Fib α) (e : Nat) (a : α)
    (hs : getSentinel f e = false) (ha : (readNode f e).addr = some a) :
    getHash h f e = some (h a) := by
  unfold getHash
  rw [hs, ha]
  rfl

theorem findScan_found (h : α → Nat) [DecidableEq α] (f : Fib α) (a : α) :
    ∀ (B : List Nat) (c0 : Nat) (fuel : Nat) (e : Nat),
      chainFrom f.heap (B.length + 2) (some c0) = some (c0 :: B) →
      e ∈ c0 :: B →
      getSentinel f e = false →
      (readNode f e).addr = some a →
      getFlag f e = false →
      (∀ x ∈ c0 :: B, getHash h f x ≠ none) →
      (c0 :: B).Chain' (ordRel h f) →
      (c0 :: B).Pairwise (fun x y => getSentinel f x = false → getSentinel f y = false →
        (readNode f x).addr ≠ (readNode f y).addr) →
      B.length < fuel →
      findScan h f a (h a) fuel (some c0) = .found e := by
  intro B
  induction B with
  | nil =>
    intro c0 fuel e hch he hse hae hfe hdef hsort huniq hfuel
    have hce : e = c0 := by simpa using he
    subst hce
    obtain ⟨fu, rfl⟩ : ∃ fu, fuel = fu + 1 := ⟨fuel - 1, by omega⟩
    simp only [findScan, getHash_payload h f e a hse hae]
    rw [if_pos (Nat.le_refl _), if_pos ⟨trivial, hse, hae⟩, hfe]
    rfl
  | cons b B' ih =>
    intro c0 fuel e hch he hse hae hfe hdef hsort huniq hfuel
    obtain ⟨fu, rfl⟩ : ∃ fu, fuel = fu + 1 := ⟨fuel - 1, by omega⟩
    by_cases hce : c0 = e
    · subst hce
      simp only [findScan, getHash_payload h f c0 a hse hae]
      rw [if_pos (Nat.le_refl _), if_pos ⟨trivial, hse, hae⟩, hfe]
      rfl
    · have heB : e ∈ b :: B' := by
        rcases List.mem_cons.1 he with rfl | h2
        · exact absurd rfl hce
        · exact h2
      obtain ⟨kc, hkc⟩ : ∃ kc, getHash h f c0 = some kc := by
        cases hx : getHash h f c0 with
        | none => exact absurd hx (hdef c0 (by simp))
        | some k => exact ⟨k, rfl⟩
      have hpw := chain_ordRel_pairwise h f _ hsort
      have hrel : ordRel h f c0 e := (List.pairwise_cons.1 hpw).1 e heB
      have hkey : kc ≤ h a := by
        have := ordRel_le h f hrel
        rw [hkc, getHash_payload h f e a hse hae] at this
        simpa using this
      obtain ⟨hcl, B0, hB0, hrec⟩ := chainFrom_cons_inv _ c0 _ hch
      have hB0e : B0 = b :: B' := by simpa using hB0.symm
      subst hB0e
      have hnext : getNextAddress f c0 = some b := (chainFrom_head _ _ _ hrec).symm
      have hnotfound : ¬(kc = h a ∧ getSentinel f c0 = false ∧
          (readNode f c0).addr = some a) := by
        rintro ⟨-, hsc, hac⟩
        have huq := (List.pairwise_cons.1 huniq).1 e heB hsc hse
        rw [hac, hae] at huq
        exact huq rfl
      simp only [findScan, hkc]
      rw [if_pos hkey, if_neg hnotfound, hnext]
      have hsuff : chainFrom f.heap (B'.length + 2) (some b) = some (b :: B') :=
        chainFrom_suffix [c0] _ _ b B' hch
      exact ih b fu e hsuff heB hse hae hfe
        (fun x hx => hdef x (List.mem_cons_of_mem c0 hx))
        ((List.chain'_cons'.1 hsort).2)
        ((List.pairwise_cons.1 huniq).2)
        (by simp at hfuel ⊢; omega)

theorem scan2_found (h : α → Nat) [DecidableEq α] (f : Fib α) (a : α) :
    ∀ (B : List Nat) (c1 : Nat) (fuel : Nat) (e : Nat),
      chainFrom f.heap (B.length + 2) (some c1) = some (c1 :: B) →
      e ∈ B →
      getSentinel f e = false →
      (readNode f e).addr = some a →
      getFlag f e = false →
      (∀ x ∈ c1 :: B, getHash h f x ≠ none) →
      (c1 :: B).Chain' (ordRel h f) →
      (c1 :: B).Pairwise (fun x y => getSentinel f x = false → getSentinel f y = false →
        (readNode f x).addr ≠ (readNode f y).addr) →
      B.length < fuel →
      scan2 h f a (h a) fuel c1 (getNextAddress f c1) = .found e := by
  intro B
  induction B with
  | nil =>
    intro c1 fuel e hch he
    simp at he
  | cons b B' ih =>
    intro c1 fuel e hch he hse hae hfe hdef hsort huniq hfuel
    obtain ⟨fu, rfl⟩ : ∃ fu, fuel = fu + 1 := ⟨fuel - 1, by omega⟩
    obtain ⟨hcl, B0, hB0, hrec⟩ := chainFrom_cons_inv _ c1 _ hch
    have hB0e : B0 = b :: B' := by simpa using hB0.symm
    subst hB0e
    have hnext : getNextAddress f c1 = some b := (chainFrom_head _ _ _ hrec).symm
    have hpw := chain_ordRel_pairwise h f _ hsort
    by_cases hbe : b = e
    · subst hbe
      rw [hnext]
      simp only [scan2, getHash_payload h f b a hse hae]
      rw [if_pos (Nat.le_refl _), if_pos ⟨trivial, hse, hae⟩, hfe]
      rfl
    · have heB' : e ∈ B' := by
        rcases List.mem_cons.1 he with rfl | h2
        · exact absurd rfl hbe
        · exact h2
      obtain ⟨kb, hkb⟩ : ∃ kb, getHash h f b = some kb := by
        cases hx : getHash h f b with
        | none => exact absurd hx (hdef b (by simp))
        | some k => exact ⟨k, rfl⟩
      have hpwb : (b :: B').Pairwise (ordRel h f) := (List.pairwise_cons.1 hpw).2
      have hrel : ordRel h f b e := (List.pairwise_cons.1 hpwb).1 e heB'
      have hkey : kb ≤ h a := by
        have := ordRel_le h f hrel
        rw [hkb, getHash_payload h f e a hse hae] at this
        simpa using this
      have huniqb := (List.pairwise_cons.1 huniq).2
      have hnotfound : ¬(kb = h a ∧ getSentinel f b = false ∧
          (readNode f b).addr = some a) := by
        rintro ⟨-, hsb, hab⟩
        have huq := (List.pairwise_cons.1 huniqb).1 e heB' hsb hse
        rw [hab, hae] at huq
        exact huq rfl
      have hnotstop : ¬(getSentinel f b = false ∧ (readNode f b).addr = some a) := by
        rintro ⟨hsb, hab⟩
        exact hnotfound ⟨by
          rw [getHash_payload h f b a hsb hab] at hkb
          simpa using hkb.symm, hsb, hab⟩
      rw [hnext]
      simp only [scan2, hkb]
      rw [if_pos hkey, if_neg hnotfound]
      simp only [hnext]
      rw [if_neg hnotstop]
      have hsuff : chainFrom f.heap (B'.length + 2) (some b) = some (b :: B') :=
        chainFrom_suffix [c1] _ _ b B' hch
      exact ih b fu e hsuff heB' hse hae hfe
        (fun x hx => hdef x (List.mem_cons_of_mem c1 hx))
        ((List.chain'_cons'.1 hsort).2)
        huniqb
        (by simp at hfuel ⊢; omega)

theorem scan2_through (h : α → Nat) [DecidableEq α] (f : Fib α) (a : α) (key : Nat) :
    ∀ (B : List Nat) (c1 : Nat) (fuel : Nat),
      chainFrom f.heap (B.length + 2) (some c1) = some (c1 :: B) →
      (∀ x ∈ c1 :: B, getHash h f x ≠ none) →
      (∀ x ∈ B, getSentinel f x = false → (readNode f x).addr ≠ some a) →
      B.length < fuel →
      ∃ (X Y : List Nat) (c2 : Nat),
        c1 :: B = X ++ c2 :: Y ∧
        scan2 h f a key fuel c1 (getNextAddress f c1) = .through c2 Y.head? ∧
        getNextAddress f c2 = Y.head? ∧
        (∀ x ∈ X ++ [c2], x = c1 ∨ (getHash h f x).getD 0 ≤ key) ∧
        (∀ s ∈ Y.head?, key < (getHash h f s).getD 0) := by
  intro B
  induction B with
  | nil =>
    intro c1 fuel hch hdef hno hfuel
    obtain ⟨fu, rfl⟩ : ∃ fu, fuel = fu + 1 := ⟨fuel - 1, by omega⟩
    obtain ⟨hcl, B0, hB0, hrec⟩ := chainFrom_cons_inv _ c1 _ hch
    have hB0nil : B0 = [] := by simpa using hB0.symm
    subst hB0nil
    have hnext : getNextAddress f c1 = none := chainFrom_nil_start _ _ hrec
    refine ⟨[], [], c1, by simp, ?_, hnext, ?_, ?_⟩
    · rw [hnext]
      rfl
    · intro x hx
      simp at hx
      exact Or.inl hx
    · intro s hs
      simp at hs
  | cons b B' ih =>
    intro c1 fuel hch hdef hno hfuel
    obtain ⟨fu, rfl⟩ : ∃ fu, fuel = fu + 1 := ⟨fuel - 1, by omega⟩
    obtain ⟨hcl, B0, hB0, hrec⟩ := chainFrom_cons_inv _ c1 _ hch
    have hB0e : B0 = b :: B' := by simpa using hB0.symm
    subst hB0e
    have hnext : getNextAddress f c1 = some b := (chainFrom_head _ _ _ hrec).symm
    obtain ⟨kb, hkb⟩ : ∃ kb, getHash h f b = some kb := by
      cases hx : getHash h f b with
      | none => exact absurd hx (hdef b (by simp))
      | some k => exact ⟨k, rfl⟩
    by_cases hle : kb ≤ key
    · have hnotfound : ¬(kb = key ∧ getSentinel f b = false ∧
          (readNode f b).addr = some a) := by
        rintro ⟨-, hsb, hab⟩
        exact hno b (by simp) hsb hab
      have hnotstop : ¬(getSentinel f b = false ∧ (readNode f b).addr = some a) := by
        rintro ⟨hsb, hab⟩
        exact hno b (by simp) hsb hab
      have hsuff : chainFrom f.heap (B'.length + 2) (some b) = some (b :: B') :=
        chainFrom_suffix [c1] _ _ b B' hch
      obtain ⟨X', Y, c2, hsplit, hscan, hnc2, hX', hY⟩ :=
        ih b fu hsuff (fun x hx => hdef x (List.mem_cons_of_mem c1 hx))
          (fun x hx => hno x (List.mem_cons_of_mem b hx))
          (by simp at hfuel ⊢; omega)
      refine ⟨c1 :: X', Y, c2, ?_, ?_, hnc2, ?_, hY⟩
      · rw [List.cons_append, ← hsplit]
      · rw [hnext]
        simp only [scan2, hkb]
        rw [if_pos hle, if_neg hnotfound]
        simp only [hnext]
        rw [if_neg hnotstop]
        exact hscan
      · intro x hx
        have hx2 : x = c1 ∨ x ∈ X' ++ [c2] := by
          rcases (by simpa using hx : x = c1 ∨ x ∈ X' ∨ x = c2) with h1 | h2 | h3
          · exact Or.inl h1
          · exact Or.inr (by simp [h2])
          · exact Or.inr (by simp [h3])
        rcases hx2 with rfl | hx'
        · exact Or.inl rfl
        · rcases hX' x hx' with rfl | hxle
          · exact Or.inr (by rw [hkb]; simpa using hle)
          · exact Or.inr hxle
    · refine ⟨[], b :: B', c1, by simp, ?_, by simpa using hnext, ?_, ?_⟩
      · rw [hnext]
        simp only [scan2, hkb]
        rw [if_neg hle]
        rfl
      · intro x hx
        simp at hx
        exact Or.inl hx
      · intro s hs
        simp at hs
        subst hs
        rw [hkb]
        simpa using Nat.lt_of_not_le hle

theorem delScan_spec (h : α → Nat) (f : Fib α) (key n : Nat) :
    ∀ (A : List Nat) (c0 : Nat) (fuel : Nat) (p : Nat) (B2 : List Nat),
      chainFrom f.heap ((A ++ p :: n :: B2).length + 1) (some c0) =
        some (A ++ p :: n :: B2) →
      (∀ x ∈ A ++ p :: n :: B2, getHash h f x ≠ none) →
      (∀ x ∈ A, (getHash h f x).getD 0 ≤ key) →
      (A ++ p :: n :: B2).Nodup →
      A.length < fuel →
      delScan h f key n fuel (some c0) = some (some p) ∧ getNextAddress f p = some n := by
  intro A
  induction A with
  | nil =>
    intro c0 fuel p B2 hch hdef hA hnd hfuel
    have hc0 : c0 = p := by
      have := chainFrom_head _ _ _ hch
      simpa using this.symm
    subst hc0
    obtain ⟨fu, rfl⟩ : ∃ fu, fuel = fu + 1 := ⟨fuel - 1, by omega⟩
    obtain ⟨hcl, B0, hB0, hrec⟩ := chainFrom_cons_inv _ c0 _ hch
    have hB0e : B0 = n :: B2 := by simpa using hB0.symm
    subst hB0e
    have hnext : getNextAddress f c0 = some n := (chainFrom_head _ _ _ hrec).symm
    obtain ⟨kp, hkp⟩ : ∃ kp, getHash h f c0 = some kp := by
      cases hx : getHash h f c0 with
      | none => exact absurd hx (hdef c0 (by simp))
      | some k => exact ⟨k, rfl⟩
    refine ⟨?_, hnext⟩
    simp only [delScan, hkp]
    rw [if_neg (by
      rintro ⟨-, hne⟩
      exact hne hnext)]
  | cons x A' ih =>
    intro c0 fuel p B2 hch hdef hA hnd hfuel
    have hc0 : c0 = x := by
      have := chainFrom_head _ _ _ hch
      simpa using this.symm
    subst hc0
    obtain ⟨fu, rfl⟩ : ∃ fu, fuel = fu + 1 := ⟨fuel - 1, by omega⟩
    obtain ⟨hcl, B0, hB0, hrec⟩ := chainFrom_cons_inv _ c0 _ hch
    have hB0e : B0 = A' ++ p :: n :: B2 := by
      have := hB0.symm
      simpa using this
    subst hB0e
    obtain ⟨kx, hkx⟩ : ∃ kx, getHash h f c0 = some kx := by
      cases hx : getHash h f c0 with
      | none => exact absurd hx (hdef c0 (by simp))
      | some k => exact ⟨k, rfl⟩
    have hkxle : kx ≤ key := by
      have := hA c0 (by simp)
      rw [hkx] at this
      simpa using this
    have hnd' : (A' ++ p :: n :: B2).Nodup := (List.nodup_cons.1 hnd).2
    have hnmem : n ∉ (c0 :: A') ++ [p] := by
      intro hmem
      rcases List.mem_append.1 hmem with hc | hp
      · rcases List.mem_cons.1 hc with rfl | hA'
        · have : n ∈ A' ++ p :: n :: B2 := by simp
          exact (List.nodup_cons.1 hnd).1 this
        · have hdisj := (List.nodup_append.1 hnd').2.2
          exact hdisj hA' (by simp)
      · have hp' : n = p := by simpa using hp
        have : ¬ p ∈ n :: B2 := (List.nodup_cons.1 ((List.nodup_append.1 hnd').2.1)).1
        exact this (by simp [hp'])
    have hnextne : getNextAddress f c0 ≠ some n := by
      have hh := chainFrom_head _ _ _ hrec
      intro hcon
      have : (A' ++ p :: n :: B2).head? = some n := by
        rw [hh]
        exact hcon
      cases A' with
      | nil =>
        simp at this
        exact hnmem (by simp [this])
      | cons y A'' =>
        simp at this
        exact hnmem (by simp [this])
    refine ⟨?_, ?_⟩
    · have hh := chainFrom_head _ _ _ hrec
      obtain ⟨y, hy⟩ : ∃ y, (f.heap.getD c0 junkNode).next = some y := by
        cases A' with
        | nil => exact ⟨p, by simpa using hh.symm⟩
        | cons z A3 => exact ⟨z, by simpa using hh.symm⟩
      have hrec' : chainFrom f.heap ((A' ++ p :: n :: B2).length + 1) (some y) =
          some (A' ++ p :: n :: B2) := by
        have hm := chainFrom_min _ _ _ hrec
        rwa [hy] at hm
      have hres := ih y fu p B2 hrec'
        (fun z hz => hdef z (List.mem_cons_of_mem c0 hz))
        (fun z hz => hA z (List.mem_cons_of_mem c0 hz)) hnd'
        (by simp at hfuel ⊢; omega)
      simp only [delScan, hkx]
      rw [if_pos ⟨hkxle, hnextne⟩]
      have hgn : getNextAddress f c0 = some y := hy
      rw [hgn]
      exact hres.1
    · have hh := chainFrom_head _ _ _ hrec
      have hsuff := chainFrom_suffix A' _ _ p (n :: B2) hrec
      obtain ⟨hpl, B3, hB3, hrec3⟩ := chainFrom_cons_inv _ p _ hsuff
      have hB3e : B3 = n :: B2 := by simpa using hB3.symm
      subst hB3e
      exact (chainFrom_head _ _ _ hrec3).symm

/-! ### Invariant-derived helpers -/

theorem chainOf_eq (f : Fib α) (hne : chainOf f ≠ none) :
    chainOf f = some (chainD f) := by
  cases hc : chainOf f with
  | none => exact absurd hc hne
  | some L => unfold chainD; rw [hc]; rfl

theorem getHash_total (h : α → Nat) (f : Fib α) (hinv : InvS h f) :
    ∀ c ∈ chainD f, getHash h f c ≠ none := by
  obtain ⟨-, -, -, -, hsent, hpay, -⟩ := hinv
  intro c hc
  unfold getHash
  by_cases hs : getSentinel f c
  · rw [if_pos hs]
    have := hsent c hc hs
    cases hx : getHashFromSentinel f c with
    | none => exact absurd hx this
    | some b => simp
  · rw [if_neg hs]
    have := hpay c hc (by simpa using hs)
    cases hx : (readNode f c).addr with
    | none => exact absurd hx this
    | some a => simp

theorem chain_suffix_of_mem (f : Fib α) (c : Nat) (hne : chainOf f ≠ none)
    (hc : c ∈ chainD f) :
    ∃ A B, chainD f = A ++ c :: B ∧
      chainFrom f.heap (B.length + 2) (some c) = some (c :: B) := by
  obtain ⟨A, B, hAB⟩ := List.append_of_mem hc
  refine ⟨A, B, hAB, ?_⟩
  have hch := chainOf_eq f hne
  rw [hAB] at hch
  exact chainFrom_suffix A _ _ c B hch

theorem getHash_bucket_sentinel (h : α → Nat) (f : Fib α) (hinv : InvS h f)
    (b s : Nat) (hb : b < f.hash_size) (hsb : f.table.getD b none = some s) :
    getHash h f s = some (reverseBits b) := by
  obtain ⟨-, -, -, hbuck, -⟩ := hinv
  obtain ⟨-, hsent, hfirst⟩ := hbuck b hb s hsb
  unfold getHash
  rw [if_pos hsent, hfirst]
  rfl

theorem sentinel_before (h : α → Nat) (f : Fib α) (hinv : InvS h f)
    (e s : Nat) (he : e ∈ chainD f) (hs : s ∈ chainD f)
    (hse : getSentinel f e = false) (hss : getSentinel f s = true)
    (hkey : (getHash h f s).getD 0 ≤ (getHash h f e).getD 0) :
    ∃ A M, chainD f = A ++ s :: M ∧ e ∈ M := by
  have hne : chainOf f ≠ none := hinv.1
  obtain ⟨A, M, hAM⟩ := List.append_of_mem hs
  refine ⟨A, M, hAM, ?_⟩
  obtain ⟨-, -, -, -, -, -, hsort, -⟩ := hinv
  have hpw := chain_ordRel_pairwise h f _ hsort
  rw [hAM] at hpw
  have hmem : e ∈ A ++ s :: M := hAM ▸ he
  rcases List.mem_append.1 hmem with heA | hesM
  · exfalso
    have hcross := (List.pairwise_append.1 hpw).2.2 e heA s (by simp)
    rcases hcross with hlt | ⟨-, hsf⟩
    · omega
    · rw [hss] at hsf
      exact absurd hsf (by simp)
  · rcases List.mem_cons.1 hesM with rfl | heM
    · rw [hse] at hss
      exact absurd hss (by simp)
    · exact heM

theorem bucketOfHash_lt (f : Fib α) (H : Nat) (hmask : f.hash_mask = f.hash_size - 1)
    (hpos : 0 < f.hash_size) : bucketOfHash f H < f.hash_size := by
  unfold bucketOfHash
  have : reverseBits H &&& f.hash_mask ≤ f.hash_mask := Nat.and_le_right
  omega

/-! ### Bucket-array update lemmas -/

theorem table_getD_set_self (t : List (Option Nat)) (i : Nat) (v : Option Nat)
    (hi : i < t.length) : (t.set i v).getD i none = v := by
  simp [List.getD_eq_getElem?_getD, List.getElem?_set_self (by simpa using hi)]

theorem table_getD_set_ne (t : List (Option Nat)) (i j : Nat) (v : Option Nat)
    (hne : i ≠ j) : (t.set i v).getD j none = t.getD j none := by
  simp [List.getD_eq_getElem?_getD, List.getElem?_set_ne hne]

theorem find?_range_congr (n : Nat) (p q : Nat → Bool) (hpq : ∀ i < n, p i = q i) :
    (List.range n).find? p = (List.range n).find? q := by
  induction n with
  | zero => rfl
  | succ m ih =>
    rw [List.range_succ, List.find?_append, List.find?_append]
    rw [ih (fun i hi => hpq i (by omega))]
    have : p m = q m := hpq m (by omega)
    simp [List.find?, this]

theorem getHashFromSentinel_congr (f f' : Fib α) (hs : f'.hash_size = f.hash_size)
    (ht : f'.table = f.table) (c : Nat) :
    getHashFromSentinel f' c = getHashFromSentinel f c := by
  unfold getHashFromSentinel
  rw [hs, ht]

/-! ### Chain surgery -/

theorem chainOf_congr_next (f f' : Fib α) (L : List Nat)
    (hch : chainOf f = some L)
    (hlen : f.heap.length ≤ f'.heap.length)
    (htab : f'.table.getD 0 none = f.table.getD 0 none)
    (hnext : ∀ c ∈ L, (readNode f' c).next = (readNode f c).next) :
    chainFrom f'.heap (f'.heap.length + 1) (f'.table.getD 0 none) = some L := by
  unfold chainOf at hch
  have hmem := chainFrom_mem_lt _ _ _ hch
  have hc := @chainFrom_congr _ f.heap f'.heap _ _ _ hch (fun x hx =>
    ⟨Nat.lt_of_lt_of_le (hmem x hx) hlen, hnext x hx⟩)
  rw [htab]
  exact chainFrom_mono _ _ _ _ hc (by omega)

theorem chain_insert_aux {heap heap2 : List (FibNode α)} (c2 m : Nat)
    (hm : m = heap.length)
    (hlen : heap2.length = heap.length + 1)
    (hagree : ∀ x, x < heap.length → x ≠ c2 →
      (heap2.getD x junkNode).next = (heap.getD x junkNode).next)
    (hc2 : (heap2.getD c2 junkNode).next = some m)
    (hmnode : (heap2.getD m junkNode).next = (heap.getD c2 junkNode).next) :
    ∀ (A : List Nat) (start : Option Nat) (fuel : Nat) (Y : List Nat),
      chainFrom heap fuel start = some (A ++ c2 :: Y) →
      (A ++ c2 :: Y).Nodup →
      chainFrom heap2 (fuel + 1) start = some (A ++ c2 :: m :: Y)
  | [], start, fuel, Y, hch, hnd => by
    have hstart : start = some c2 := by
      have := chainFrom_head _ _ _ hch
      simpa using this.symm
    subst hstart
    obtain ⟨fu, rfl⟩ : ∃ fu, fuel = fu + 1 := by
      cases fuel with
      | zero => simp [chainFrom] at hch
      | succ k => exact ⟨k, rfl⟩
    obtain ⟨hcl, B0, hB0, hrec⟩ := chainFrom_cons_inv _ c2 _ hch
    have hB0e : B0 = Y := by simpa using hB0.symm
    rw [hB0e] at hrec
    have hYchain : chainFrom heap2 fu ((heap.getD c2 junkNode).next) = some Y := by
      apply chainFrom_congr _ _ _ hrec
      intro x hx
      have hxlt := chainFrom_mem_lt _ _ _ hrec x hx
      have hxne : x ≠ c2 := by
        intro hxe
        subst hxe
        have : ¬ x ∈ Y := (List.nodup_cons.1 (by simpa using hnd)).1
        exact this hx
      exact ⟨by omega, hagree x hxlt hxne⟩
    have hstep2 : chainFrom heap2 (fu + 1) (some m) = some (m :: Y) := by
      simp only [chainFrom]
      rw [if_pos (by omega), hmnode, hYchain]
      rfl
    simp only [List.nil_append, chainFrom]
    rw [if_pos (by omega : c2 < heap2.length), hc2, hstep2]
    rfl
  | a :: A', start, fuel, Y, hch, hnd => by
    have hstart : start = some a := by
      have := chainFrom_head _ _ _ hch
      simpa using this.symm
    subst hstart
    obtain ⟨fu, rfl⟩ : ∃ fu, fuel = fu + 1 := by
      cases fuel with
      | zero => simp [chainFrom] at hch
      | succ k => exact ⟨k, rfl⟩
    obtain ⟨hal, B0, hB0, hrec⟩ := chainFrom_cons_inv _ a _ hch
    have hB0e : B0 = A' ++ c2 :: Y := by simpa using hB0.symm
    rw [hB0e] at hrec
    have hane : a ≠ c2 := by
      have : ¬ a ∈ A' ++ c2 :: Y := (List.nodup_cons.1 (by simpa using hnd)).1
      intro hae
      exact this (by simp [hae])
    have hrec2 := chain_insert_aux c2 m hm hlen hagree hc2 hmnode A' _ fu Y hrec
      (List.nodup_cons.1 (by simpa using hnd)).2
    simp only [List.cons_append, chainFrom]
    rw [if_pos (by omega : a < heap2.length), hagree a hal hane, hrec2]
    rfl

theorem chain_erase_aux {heap heap2 : List (FibNode α)} (p e : Nat)
    (hlen : heap2.length = heap.length)
    (hagree : ∀ x, x < heap.length → x ≠ p →
      (heap2.getD x junkNode).next = (heap.getD x junkNode).next)
    (hp : (heap2.getD p junkNode).next = (heap.getD e junkNode).next) :
    ∀ (A : List Nat) (start : Option Nat) (fuel : Nat) (B2 : List Nat),
      chainFrom heap fuel start = some (A ++ p :: e :: B2) →
      (A ++ p :: e :: B2).Nodup →
      chainFrom heap2 fuel start = some (A ++ p :: B2)
  | [], start, fuel, B2, hch, hnd => by
    have hstart : start = some p := by
      have := chainFrom_head _ _ _ hch
      simpa using this.symm
    subst hstart
    obtain ⟨fu, rfl⟩ : ∃ fu, fuel = fu + 1 := by
      cases fuel with
      | zero => simp [chainFrom] at hch
      | succ k => exact ⟨k, rfl⟩
    obtain ⟨hpl, B0, hB0, hrec⟩ := chainFrom_cons_inv _ p _ hch
    have hB0e : B0 = e :: B2 := by simpa using hB0.symm
    rw [hB0e] at hrec
    obtain ⟨fu2, rfl⟩ : ∃ fu2, fu = fu2 + 1 := by
      cases fu with
      | zero => simp [chainFrom] at hrec
      | succ k => exact ⟨k, rfl⟩
    obtain ⟨hel, B1, hB1, hrec2⟩ := chainFrom_cons_inv _ e _ (by
      have hh := chainFrom_head _ _ _ hrec
      have : (heap.getD p junkNode).next = some e := by simpa using hh.symm
      rw [← this]
      exact hrec)
    have hB1e : B1 = B2 := by simpa using hB1.symm
    rw [hB1e] at hrec2
    have hB2chain : chainFrom heap2 fu2 ((heap.getD e junkNode).next) = some B2 := by
      apply chainFrom_congr _ _ _ hrec2
      intro x hx
      have hxlt := chainFrom_mem_lt _ _ _ hrec2 x hx
      have hxne : x ≠ p := by
        intro hxe
        subst hxe
        have hnp : ¬ x ∈ e :: B2 := (List.nodup_cons.1 (by simpa using hnd)).1
        exact hnp (by simp [hx])
      exact ⟨by omega, hagree x hxlt hxne⟩
    simp only [List.nil_append, chainFrom]
    rw [if_pos (by omega : p < heap2.length), hp]
    rw [chainFrom_mono _ (fu2 + 1) _ _ hB2chain (by omega)]
    rfl
  | a :: A', start, fuel, B2, hch, hnd => by
    have hstart : start = some a := by
      have := chainFrom_head _ _ _ hch
      simpa using this.symm
    subst hstart
    obtain ⟨fu, rfl⟩ : ∃ fu, fuel = fu + 1 := by
      cases fuel with
      | zero => simp [chainFrom] at hch
      | succ k => exact ⟨k, rfl⟩
    obtain ⟨hal, B0, hB0, hrec⟩ := chainFrom_cons_inv _ a _ hch
    have hB0e : B0 = A' ++ p :: e :: B2 := by simpa using hB0.symm
    rw [hB0e] at hrec
    have hane : a ≠ p := by
      have : ¬ a ∈ A' ++ p :: e :: B2 := (List.nodup_cons.1 (by simpa using hnd)).1
      intro hae
      exact this (by simp [hae])
    have hrec2 := chain_erase_aux p e hlen hagree hp A' _ fu B2 hrec
      (List.nodup_cons.1 (by simpa using hnd)).2
    simp only [List.cons_append, chainFrom]
    rw [if_pos (by omega : a < heap2.length), hagree a hal hane, hrec2]
    rfl

/-! ### List insertion lemmas -/

theorem nodup_insert_middle (P Y : List Nat) (c2 m : Nat)
    (hnd : (P ++ c2 :: Y).Nodup) (hm : m ∉ P ++ c2 :: Y) :
    (P ++ c2 :: m :: Y).Nodup := by
  rw [List.nodup_append] at hnd ⊢
  obtain ⟨hP, hcY, hdisj⟩ := hnd
  refine ⟨hP, ?_, ?_⟩
  · rw [List.nodup_cons] at hcY ⊢
    obtain ⟨hc2, hY⟩ := hcY
    refine ⟨?_, ?_⟩
    · intro hmem
      rcases List.mem_cons.1 hmem with rfl | hmem2
      · exact hm (by simp)
      · exact hc2 hmem2
    · rw [List.nodup_cons]
      refine ⟨fun hmY => hm (by simp [hmY]), hY⟩
  · intro x hxP
    intro hmem
    rcases List.mem_cons.1 hmem with rfl | hmem2
    · exact hdisj hxP (by simp)
    · rcases List.mem_cons.1 hmem2 with rfl | hmem3
      · exact hm (by simp [hxP])
      · exact hdisj hxP (by simp [hmem3])

theorem chain'_insert_middle {R : Nat → Nat → Prop} (P Y : List Nat) (c2 m : Nat)
    (hch : (P ++ c2 :: Y).Chain' R)
    (hcm : R c2 m) (hmy : ∀ y ∈ Y.head?, R m y) :
    (P ++ c2 :: m :: Y).Chain' R := by
  have hch1 : ((P ++ [c2]) ++ Y).Chain' R := by simpa using hch
  rw [List.chain'_append] at hch1
  obtain ⟨hl, hr, hcross⟩ := hch1
  have : ((P ++ [c2]) ++ m :: Y).Chain' R := by
    rw [List.chain'_append]
    refine ⟨hl, ?_, ?_⟩
    · rw [List.chain'_cons']
      exact ⟨hmy, hr⟩
    · intro x hx y hy
      have hxc : x = c2 := by
        simp [List.getLast?_append] at hx
        exact hx.symm
      have hym : y = m := by
        have := hy
        simp at this
        exact this.symm
      subst hxc hym
      exact hcm
  simpa using this

theorem pairwise_insert_middle {R : Nat → Nat → Prop} (P Y : List Nat) (c2 m : Nat)
    (hpw : (P ++ c2 :: Y).Pairwise R)
    (hml : ∀ x ∈ P ++ [c2], R x m) (hmr : ∀ y ∈ Y, R m y) :
    (P ++ c2 :: m :: Y).Pairwise R := by
  have hpw1 : ((P ++ [c2]) ++ Y).Pairwise R := by simpa using hpw
  rw [List.pairwise_append] at hpw1
  obtain ⟨hl, hr, hcross⟩ := hpw1
  have : ((P ++ [c2]) ++ m :: Y).Pairwise R := by
    rw [List.pairwise_append]
    refine ⟨hl, ?_, ?_⟩
    · rw [List.pairwise_cons]
      exact ⟨hmr, hr⟩
    · intro x hx y hy
      rcases List.mem_cons.1 hy with rfl | hy2
      · exact hml x hx
      · exact hcross x hx y hy2
  simpa using this

theorem and_submask_trans {i j k : Nat} (hij : i &&& j = i) (hjk : j &&& k = j) :
    i &&& k = i := by
  refine Nat.eq_of_testBit_eq fun t => ?_
  have h1 : (i.testBit t && j.testBit t) = i.testBit t := by
    rw [← Nat.testBit_and, hij]
  have h2 : (j.testBit t && k.testBit t) = j.testBit t := by
    rw [← Nat.testBit_and, hjk]
  rw [Nat.testBit_and]
  cases hi : i.testBit t <;> cases hj : j.testBit t <;> cases hk : k.testBit t <;>
    simp_all

theorem ordRel_congr (h : α → Nat) (f f' : Fib α) (x y : Nat)
    (hx : getHash h f' x = getHash h f x) (hy : getHash h f' y = getHash h f y)
    (hsy : getSentinel f' y = getSentinel f y) :
    ordRel h f' x y ↔ ordRel h f x y := by
  unfold ordRel
  rw [hx, hy, hsy]

theorem list_append_set_last (l : List (FibNode α)) (a b : FibNode α) :
    (l ++ [a]).set l.length b = l ++ [b] := by
  induction l with
  | nil => rfl
  | cons x l ih => simp [List.set, ih]

/-- The state effect shared by the two successful CAS-link paths (`fib_insert2`
and `fib_get2`): extend the heap with the node `nd` at index `m = heap.length`
and redirect the predecessor `c2` to it. -/
theorem link_new_node (f : Fib α) (nd cn : FibNode α) (c2 : Nat) (P Y : List Nat)
    (f' : Fib α)
    (hf' : f' = writeNode { f with heap := f.heap ++ [nd] } c2 cn)
    (hne : chainOf f ≠ none)
    (hchain : chainD f = P ++ c2 :: Y)
    (hnd : (chainD f).Nodup)
    (hndnext : nd.next = Y.head?)
    (hcnnext : cn.next = some f.heap.length) :
    chainOf f' = some (P ++ c2 :: f.heap.length :: Y) ∧
    f'.heap.length = f.heap.length + 1 ∧
    readNode f' f.heap.length = nd ∧
    (∀ c, c < f.heap.length → c ≠ c2 → readNode f' c = readNode f c) ∧
    readNode f' c2 = cn ∧
    f'.table = f.table ∧
    f'.hash_size = f.hash_size ∧ f'.hash_order = f.hash_order ∧
    f'.hash_mask = f.hash_mask ∧ f'.hash_shift = f.hash_shift ∧
    f'.entries = f.entries ∧ f'.entries_max = f.entries_max ∧
    f'.entries_min = f.entries_min ∧ f'.resizing = f.resizing ∧
    f'.handovers = f.handovers := by
  have hcheq := chainOf_eq f hne
  have hc2mem : c2 ∈ chainD f := by rw [hchain]; simp
  have hc2l : c2 < f.heap.length := by
    have := chainFrom_mem_lt _ _ _ hcheq c2 hc2mem
    exact this
  have hlen' : f'.heap.length = f.heap.length + 1 := by
    rw [hf']
    unfold writeNode
    simp
  have hreadm : readNode f' f.heap.length = nd := by
    rw [hf']
    rw [readNode_writeNode_ne _ _ _ _ (by omega)]
    exact readNode_extend_new f nd
  have hreadold : ∀ c, c < f.heap.length → c ≠ c2 → readNode f' c = readNode f c := by
    intro c hcl hcne
    rw [hf']
    rw [readNode_writeNode_ne _ _ _ _ (fun he => hcne he.symm)]
    exact readNode_extend f [nd] c hcl
  have hreadc2 : readNode f' c2 = cn := by
    rw [hf']
    exact readNode_writeNode_self _ _ _ (by simp; omega)
  have htab : f'.table = f.table := by rw [hf']; rfl
  have hnextc2 : (f.heap.getD c2 junkNode).next = Y.head? := by
    rw [hchain] at hcheq
    have hsuff := chainFrom_suffix P _ _ c2 Y hcheq
    obtain ⟨-, B0, hB0, hrec⟩ := chainFrom_cons_inv _ c2 _ hsuff
    have hB0e : B0 = Y := by simpa using hB0.symm
    rw [hB0e] at hrec
    exact (chainFrom_head _ _ _ hrec).symm
  have hchain' : chainOf f' = some (P ++ c2 :: f.heap.length :: Y) := by
    have haux := @chain_insert_aux _ f.heap f'.heap c2 f.heap.length
      rfl hlen'
      (by
        intro x hxl hxne
        have := hreadold x hxl hxne
        unfold readNode at this
        rw [this])
      (by
        have := hreadc2
        unfold readNode at this
        rw [this, hcnnext])
      (by
        have := hreadm
        unfold readNode at this
        rw [this, hndnext, hnextc2])
      P (f.table.getD 0 none) (f.heap.length + 1) Y (by rw [← hchain]; exact hcheq)
      (by rw [← hchain]; exact hnd)
    unfold chainOf
    rw [htab, hlen']
    exact haux
  exact ⟨hchain', hlen', hreadm, hreadold, hreadc2, htab,
    by rw [hf']; rfl, by rw [hf']; rfl, by rw [hf']; rfl, by rw [hf']; rfl,
    by rw [hf']; rfl, by rw [hf']; rfl, by rw [hf']; rfl, by rw [hf']; rfl,
    by rw [hf']; rfl⟩

theorem getSentinel_congr_state (f f2 : Fib α) (c : Nat)
    (hst : (readNode f2 c).state = (readNode f c).state) :
    getSentinel f2 c = getSentinel f c := by
  unfold getSentinel
  rw [hst]

theorem getFlag_congr (f f2 : Fib α) (c : Nat)
    (hm : (readNode f2 c).marked = (readNode f c).marked) :
    getFlag f2 c = getFlag f c := by
  unfold getFlag
  rw [hm]

theorem getHash_congr (h : α → Nat) (f f2 : Fib α) (c : Nat)
    (hst : (readNode f2 c).state = (readNode f c).state)
    (had : (readNode f2 c).addr = (readNode f c).addr)
    (hgs : getHashFromSentinel f2 c = getHashFromSentinel f c) :
    getHash h f2 c = getHash h f c := by
  unfold getHash getSentinel
  rw [hst, had, hgs]

theorem getHashFromSentinel_set_preserve (f f2 : Fib α) (bucket m s : Nat)
    (hsz : f2.hash_size = f.hash_size)
    (htab : f2.table = f.table.set bucket (some m))
    (hbl : bucket < f.table.length)
    (hms : m ≠ s)
    (hold : f.table.getD bucket none = none) :
    getHashFromSentinel f2 s = getHashFromSentinel f s := by
  unfold getHashFromSentinel
  rw [hsz, htab]
  apply find?_range_congr
  intro i _
  by_cases hib : bucket = i
  · subst hib
    rw [table_getD_set_self _ _ _ hbl, hold]
    simp [hms]
  · rw [table_getD_set_ne _ _ _ _ hib]

theorem getHashFromSentinel_set_new (f f2 : Fib α) (bucket m : Nat)
    (hsz : f2.hash_size = f.hash_size)
    (htab : f2.table = f.table.set bucket (some m))
    (hbl : bucket < f.table.length)
    (hbsz : bucket < f.hash_size)
    (hfresh : ∀ i < f.hash_size, f.table.getD i none ≠ some m) :
    getHashFromSentinel f2 m = some bucket := by
  unfold getHashFromSentinel
  rw [hsz, htab]
  apply find?_range_eq_some _ _ bucket hbsz
  · rw [table_getD_set_self _ _ _ hbl]
    simp
  · intro i hi
    rw [table_getD_set_ne _ _ _ _ (by omega)]
    have := hfresh i (by omega)
    simpa using this

/-- The trivial `InsertOut` for the branch of `fib_insert2` that skips the
recursive call because the parent bucket is already populated. -/
theorem insertOut_id (h : α → Nat) (f : Fib α) (sb : Nat)
    (hinv : InvS h f) (hw : f.table.getD sb none ≠ none) :
    InsertOut h f f sb := by
  refine ⟨hinv, hw, ?_, rfl, rfl, rfl, rfl, rfl, rfl, rfl, rfl, rfl, rfl,
    Nat.le_refl _, ?_, ?_, ?_, ?_⟩
  · intro i hne
    exact absurd rfl hne
  · intro c _
    exact ⟨rfl, rfl, rfl⟩
  · intro c _
    rfl
  · intro c hc
    exact Or.inl hc
  · intro c hc
    exact hc

/-- `InsertOut` composes along the recursive structure of `fib_insert2`: the
inner call works on a bucket that is a submask of the outer one. -/
theorem insertOut_comp (h : α → Nat) (f f1 f2 : Fib α) (sb bucket : Nat)
    (ha : InsertOut h f f1 sb) (hb : InsertOut h f1 f2 bucket)
    (hsub : sb &&& bucket = sb) :
    InsertOut h f f2 bucket := by
  refine ⟨hb.inv, hb.written, ?_, hb.tlen.trans ha.tlen, hb.size_eq.trans ha.size_eq,
    hb.order_eq.trans ha.order_eq, hb.mask_eq.trans ha.mask_eq,
    hb.shift_eq.trans ha.shift_eq, hb.entries_eq.trans ha.entries_eq,
    hb.emax_eq.trans ha.emax_eq, hb.emin_eq.trans ha.emin_eq,
    hb.resizing_eq.trans ha.resizing_eq, hb.handovers_eq.trans ha.handovers_eq,
    Nat.le_trans ha.hplen hb.hplen, ?_, ?_, ?_, ?_⟩
  · intro i hne
    by_cases h12 : f2.table.getD i none = f1.table.getD i none
    · rw [h12] at hne
      obtain ⟨hn, hs, hl⟩ := ha.writes i hne
      exact ⟨hn, and_submask_trans hs hsub, hl⟩
    · obtain ⟨hn1, hs1, hl1⟩ := hb.writes i h12
      refine ⟨?_, hs1, by rw [← ha.size_eq]; exact hl1⟩
      by_cases h01 : f1.table.getD i none = f.table.getD i none
      · rw [← h01]; exact hn1
      · exact (ha.writes i h01).1
  · intro c hc
    have hc1 : c < f1.heap.length := Nat.lt_of_lt_of_le hc ha.hplen
    obtain ⟨hs1, ha1, hm1⟩ := ha.node_pres c hc
    obtain ⟨hs2, ha2, hm2⟩ := hb.node_pres c hc1
    exact ⟨hs2.trans hs1, ha2.trans ha1, hm2.trans hm1⟩
  · intro c hc
    have hc1 : c ∈ chainD f1 := ha.chain_old c hc
    exact (hb.hash_pres c hc1).trans (ha.hash_pres c hc)
  · intro c hc2
    rcases hb.chain_new c hc2 with hc1 | ⟨hlen1, hmk2, b2, hget2, hsubm2, hlt2⟩
    · rcases ha.chain_new c hc1 with hc0 | ⟨hlen0, hmk1, b2, hget1, hsubm1, hlt1⟩
      · exact Or.inl hc0
      · refine Or.inr ⟨hlen0, ?_, b2, ?_, and_submask_trans hsubm1 hsub, hlt1⟩
        · have hc1l : c < f1.heap.length :=
            chainFrom_mem_lt _ _ _ (chainOf_eq f1 ha.inv.1) c hc1
          rw [(hb.node_pres c hc1l).2.2]
          exact hmk1
        · by_cases h12 : f2.table.getD b2 none = f1.table.getD b2 none
          · rw [h12]; exact hget1
          · exact absurd (hb.writes b2 h12).1 (by rw [hget1]; simp)
    · exact Or.inr ⟨Nat.le_trans ha.hplen hlen1, hmk2, b2, hget2,
        hsubm2, by rw [← ha.size_eq]; exact hlt2⟩
  · intro c hc
    exact hb.chain_old c (ha.chain_old c hc)

/-- The state produced by the successful CAS-link path of `fib_insert2`: when
the chain of `f1` splits as `P ++ c2 :: Y` around the scan exit `c2`, with
every key up to `c2` strictly below the new sentinel key and every key after
at or above it, appending the fresh sentinel node, redirecting `c2` to it and
publishing it in the bucket array re-establishes the structural invariant and
the full insert contract of this level. -/
theorem insert2_finish (h : α → Nat) (f1 : Fib α) (bucket : Nat)
    (P Y : List Nat) (c2 : Nat) (f3 f4 : Fib α)
    (hinv1 : InvS h f1)
    (hord : f1.hash_order ≤ 32)
    (hLsplit : chainD f1 = P ++ c2 :: Y)
    (hempty1 : f1.table.getD bucket none = none)
    (hblt1 : bucket < f1.hash_size)
    (hPkey : ∀ x ∈ P ++ [c2], (getHash h f1 x).getD 0 < reverseBits bucket)
    (hYge : ∀ y ∈ Y, reverseBits bucket ≤ (getHash h f1 y).getD 0)
    (hc2mk : (readNode f1 c2).marked = false)
    (hf3 : f3 = writeNode
      { f1 with heap := f1.heap ++ [(⟨Y.head?, false, 1, none⟩ : FibNode α)] } c2
      { readNode f1 c2 with next := some f1.heap.length, marked := false })
    (hf4 : f4 = { f3 with table := f3.table.set bucket (some f1.heap.length) }) :
    InsertOut h f1 f4 bucket := by
  obtain ⟨hchne, hnd1, htab0, hbuck, hsent, hpay, hsort, huniq, hsz, hmask, htlen, hres⟩ :=
    hinv1
  have hb0 : bucket ≠ 0 := by
    intro hbe
    rw [hbe] at hempty1
    exact htab0 hempty1
  have hcheq := chainOf_eq f1 hchne
  have hmemL1 : ∀ x ∈ P ++ c2 :: Y, x < f1.heap.length := by
    intro x hx
    exact chainFrom_mem_lt _ _ _ hcheq x (by rw [hLsplit]; exact hx)
  have hc2l : c2 < f1.heap.length := hmemL1 c2 (by simp)
  have hmnot : f1.heap.length ∉ P ++ c2 :: Y := by
    intro hmem
    exact absurd (hmemL1 _ hmem) (by omega)
  obtain ⟨hchain3, hlen3, hreadm, hreadold, hreadc2, htab3, hsz3, hord3, hmask3,
      hshift3, hent3, hemax3, hemin3, hres3, hhand3⟩ :=
    link_new_node f1 (⟨Y.head?, false, 1, none⟩ : FibNode α)
      { readNode f1 c2 with next := some f1.heap.length, marked := false } c2 P Y f3
      hf3 hchne hLsplit hnd1 rfl rfl
  have hheap4 : f4.heap = f3.heap := by rw [hf4]
  have htab4' : f4.table = f3.table.set bucket (some f1.heap.length) := by rw [hf4]
  have htab4 : f4.table = f1.table.set bucket (some f1.heap.length) := by
    rw [htab4', htab3]
  have hsz4 : f4.hash_size = f1.hash_size := by rw [hf4]; exact hsz3
  have hord4 : f4.hash_order = f1.hash_order := by rw [hf4]; exact hord3
  have hmask4 : f4.hash_mask = f1.hash_mask := by rw [hf4]; exact hmask3
  have hshift4 : f4.hash_shift = f1.hash_shift := by rw [hf4]; exact hshift3
  have hent4 : f4.entries = f1.entries := by rw [hf4]; exact hent3
  have hemax4 : f4.entries_max = f1.entries_max := by rw [hf4]; exact hemax3
  have hemin4 : f4.entries_min = f1.entries_min := by rw [hf4]; exact hemin3
  have hres4 : f4.resizing = f1.resizing := by rw [hf4]; exact hres3
  have hhand4 : f4.handovers = f1.handovers := by rw [hf4]; exact hhand3
  have hread4 : ∀ c, readNode f4 c = readNode f3 c := by
    intro c
    unfold readNode
    rw [hheap4]
  have hlen4 : f4.heap.length = f1.heap.length + 1 := by rw [hheap4]; exact hlen3
  have htblen1 : bucket < f1.table.length := by rw [htlen]; exact hblt1
  have hget4self : f4.table.getD bucket none = some f1.heap.length := by
    rw [htab4]
    exact table_getD_set_self _ _ _ htblen1
  have hget4ne : ∀ j, j ≠ bucket → f4.table.getD j none = f1.table.getD j none := by
    intro j hj
    rw [htab4]
    exact table_getD_set_ne _ _ _ _ (fun he => hj he.symm)
  have hchain4 : chainOf f4 = some (P ++ c2 :: f1.heap.length :: Y) := by
    unfold chainOf
    rw [hheap4]
    have h0 : f4.table.getD 0 none = f3.table.getD 0 none := by
      rw [hget4ne 0 (fun he => hb0 he.symm), htab3]
    rw [h0]
    exact hchain3
  have hchD4 : chainD f4 = P ++ c2 :: f1.heap.length :: Y := by
    unfold chainD
    rw [hchain4]
    rfl
  have hstate4 : ∀ c, c < f1.heap.length → (readNode f4 c).state = (readNode f1 c).state := by
    intro c hcl
    rw [hread4 c]
    by_cases hc2e : c = c2
    · subst hc2e
      rw [hreadc2]
    · rw [hreadold c hcl hc2e]
  have haddr4 : ∀ c, c < f1.heap.length → (readNode f4 c).addr = (readNode f1 c).addr := by
    intro c hcl
    rw [hread4 c]
    by_cases hc2e : c = c2
    · subst hc2e
      rw [hreadc2]
    · rw [hreadold c hcl hc2e]
  have hmarked4 : ∀ c, c < f1.heap.length →
      (readNode f4 c).marked = (readNode f1 c).marked := by
    intro c hcl
    rw [hread4 c]
    by_cases hc2e : c = c2
    · subst hc2e
      rw [hreadc2, hc2mk]
    · rw [hreadold c hcl hc2e]
  have hhfs_pres : ∀ s, s ≠ f1.heap.length →
      getHashFromSentinel f4 s = getHashFromSentinel f1 s := by
    intro s hs
    exact getHashFromSentinel_set_preserve f1 f4 bucket f1.heap.length s hsz4 htab4
      htblen1 (fun he => hs he.symm) hempty1
  have hfresh : ∀ i, i < f1.hash_size → f1.table.getD i none ≠ some f1.heap.length := by
    intro i hi hcon
    obtain ⟨hmem, -, -⟩ := hbuck i hi _ hcon
    rw [hLsplit] at hmem
    exact hmnot hmem
  have hhfs_new : getHashFromSentinel f4 f1.heap.length = some bucket :=
    getHashFromSentinel_set_new f1 f4 bucket f1.heap.length hsz4 htab4 htblen1 hblt1 hfresh
  have hsent4m : getSentinel f4 f1.heap.length = true := by
    unfold getSentinel
    rw [hread4, hreadm]
    rfl
  have hhash4m : getHash h f4 f1.heap.length = some (reverseBits bucket) := by
    unfold getHash
    rw [if_pos hsent4m, hhfs_new]
    rfl
  have hsent4 : ∀ c, c < f1.heap.length → getSentinel f4 c = getSentinel f1 c := by
    intro c hcl
    exact getSentinel_congr_state f1 f4 c (hstate4 c hcl)
  have hhash4 : ∀ c, c < f1.heap.length → getHash h f4 c = getHash h f1 c := by
    intro c hcl
    exact getHash_congr h f1 f4 c (hstate4 c hcl) (haddr4 c hcl) (hhfs_pres c (by omega))
  have hsize32 : f1.hash_size ≤ 2 ^ 32 := by
    rw [hsz]
    exact Nat.pow_le_pow_right (by omega) hord
  have hYsent : ∀ y ∈ Y, (getHash h f1 y).getD 0 = reverseBits bucket →
      getSentinel f1 y = false := by
    intro y hy hk
    cases hsy : getSentinel f1 y with
    | false => rfl
    | true =>
      exfalso
      have hy1 : y ∈ chainD f1 := by rw [hLsplit]; simp [hy]
      have hne := hsent y hy1 hsy
      obtain ⟨b', hb'⟩ : ∃ b', getHashFromSentinel f1 y = some b' := by
        cases hx : getHashFromSentinel f1 y with
        | none => exact absurd hx hne
        | some b => exact ⟨b, rfl⟩
      have hb'' := hb'
      unfold getHashFromSentinel at hb''
      obtain ⟨hb'lt, hb'p, -⟩ := find?_range_spec _ _ _ hb''
      have hb'get : f1.table.getD b' none = some y := by simpa using hb'p
      have hhy : getHash h f1 y = some (reverseBits b') := by
        unfold getHash
        rw [if_pos hsy, hb']
        rfl
      have hkey_eq : reverseBits b' = reverseBits bucket := by
        rw [hhy] at hk
        simpa using hk
      have hb'e : b' = bucket := reverseBits_inj (by omega) (by omega) hkey_eq
      rw [hb'e] at hb'get
      rw [hempty1] at hb'get
      exact Option.noConfusion hb'get
  have hmem_of : ∀ c, c ∈ P ++ c2 :: f1.heap.length :: Y → c ≠ f1.heap.length →
      c ∈ P ++ c2 :: Y := by
    intro c hc hcm
    rcases List.mem_append.1 hc with hcP | hcc
    · exact List.mem_append.2 (Or.inl hcP)
    · rcases List.mem_cons.1 hcc with rfl | hcc2
      · simp
      · rcases List.mem_cons.1 hcc2 with rfl | hcY
        · exact absurd rfl hcm
        · simp [hcY]
  have hmem_to : ∀ c, c ∈ P ++ c2 :: Y → c ∈ P ++ c2 :: f1.heap.length :: Y := by
    intro c hc
    rcases List.mem_append.1 hc with hcP | hcc
    · exact List.mem_append.2 (Or.inl hcP)
    · rcases List.mem_cons.1 hcc with rfl | hcY
      · simp
      · simp [hcY]
  haveI : IsTrans Nat (ordRel h f4) := ⟨fun a b c hab hbc => ordRel_trans h f4 hab hbc⟩
  have hsort1 : (P ++ c2 :: Y).Chain' (ordRel h f1) := by rw [← hLsplit]; exact hsort
  have hpw1 : (P ++ c2 :: Y).Pairwise (ordRel h f1) := chain_ordRel_pairwise h f1 _ hsort1
  have hpw1' : (P ++ c2 :: Y).Pairwise (ordRel h f4) := by
    refine hpw1.imp_of_mem ?_
    intro x y hx hy hr
    exact (ordRel_congr h f1 f4 x y (hhash4 x (hmemL1 x hx)) (hhash4 y (hmemL1 y hy))
      (hsent4 y (hmemL1 y hy))).2 hr
  have hml : ∀ x ∈ P ++ [c2], ordRel h f4 x f1.heap.length := by
    intro x hx
    have hx1 : x ∈ P ++ c2 :: Y := by
      rcases List.mem_append.1 hx with hxP | hxc
      · exact List.mem_append.2 (Or.inl hxP)
      · simp at hxc
        exact List.mem_append.2 (Or.inr (by simp [hxc]))
    refine Or.inl ?_
    rw [hhash4m, hhash4 x (hmemL1 x hx1)]
    simpa using hPkey x hx
  have hmr : ∀ y ∈ Y, ordRel h f4 f1.heap.length y := by
    intro y hy
    have hy1 : y ∈ P ++ c2 :: Y := by simp [hy]
    have hyl := hmemL1 y hy1
    have hge := hYge y hy
    rcases Nat.lt_or_ge (reverseBits bucket) ((getHash h f1 y).getD 0) with hlt | hge2
    · refine Or.inl ?_
      rw [hhash4m, hhash4 y hyl]
      simpa using hlt
    · have heq : (getHash h f1 y).getD 0 = reverseBits bucket := by omega
      refine Or.inr ⟨?_, ?_⟩
      · rw [hhash4m, hhash4 y hyl]
        simpa using heq.symm
      · rw [hsent4 y hyl]
        exact hYsent y hy heq
  have hpw4 : (P ++ c2 :: f1.heap.length :: Y).Pairwise (ordRel h f4) :=
    pairwise_insert_middle P Y c2 f1.heap.length hpw1' hml hmr
  have hchain'4 : (P ++ c2 :: f1.heap.length :: Y).Chain' (ordRel h f4) :=
    List.chain'_iff_pairwise.2 hpw4
  have huniq1 : (P ++ c2 :: Y).Pairwise (fun x y => getSentinel f1 x = false →
      getSentinel f1 y = false → (readNode f1 x).addr ≠ (readNode f1 y).addr) := by
    rw [← hLsplit]
    exact huniq
  have huniq4 : (P ++ c2 :: f1.heap.length :: Y).Pairwise (fun x y =>
      getSentinel f4 x = false → getSentinel f4 y = false →
      (readNode f4 x).addr ≠ (readNode f4 y).addr) := by
    refine pairwise_insert_middle P Y c2 f1.heap.length ?_ ?_ ?_
    · refine huniq1.imp_of_mem ?_
      intro x y hx hy hr hsx hsy
      rw [haddr4 x (hmemL1 x hx), haddr4 y (hmemL1 y hy)]
      exact hr (by rw [← hsent4 x (hmemL1 x hx)]; exact hsx)
        (by rw [← hsent4 y (hmemL1 y hy)]; exact hsy)
    · intro x hx hsx hsm
      rw [hsent4m] at hsm
      simp at hsm
    · intro y hy hsm hsy
      rw [hsent4m] at hsm
      simp at hsm
  have hinv4 : InvS h f4 := by
    refine ⟨?_, ?_, ?_, ?_, ?_, ?_, ?_, ?_, ?_, ?_, ?_, ?_⟩
    · rw [hchain4]
      simp
    · rw [hchD4]
      exact nodup_insert_middle P Y c2 f1.heap.length (by rw [← hLsplit]; exact hnd1) hmnot
    · rw [hget4ne 0 (fun he => hb0 he.symm)]
      exact htab0
    · intro b hb s hsget
      by_cases hbb : b = bucket
      · subst hbb
        rw [hget4self] at hsget
        have hsm : s = f1.heap.length := by simpa using hsget.symm
        subst hsm
        exact ⟨by rw [hchD4]; simp, hsent4m, hhfs_new⟩
      · rw [hget4ne b hbb] at hsget
        have hb1 : b < f1.hash_size := by rw [← hsz4]; exact hb
        obtain ⟨hmem1, hsent1, hfirst1⟩ := hbuck b hb1 s hsget
        have hmem1' : s ∈ P ++ c2 :: Y := by rw [← hLsplit]; exact hmem1
        have hsl := hmemL1 s hmem1'
        refine ⟨by rw [hchD4]; exact hmem_to s hmem1', ?_, ?_⟩
        · rw [hsent4 s hsl]
          exact hsent1
        · rw [hhfs_pres s (by omega)]
          exact hfirst1
    · intro c hc hcs
      rw [hchD4] at hc
      by_cases hcm : c = f1.heap.length
      · subst hcm
        rw [hhfs_new]
        simp
      · have hc1 : c ∈ P ++ c2 :: Y := hmem_of c hc hcm
        have hcl := hmemL1 c hc1
        rw [hhfs_pres c (by omega)]
        apply hsent c (by rw [hLsplit]; exact hc1)
        rw [← hsent4 c hcl]
        exact hcs
    · intro c hc hcs
      rw [hchD4] at hc
      by_cases hcm : c = f1.heap.length
      · subst hcm
        rw [hsent4m] at hcs
        simp at hcs
      · have hc1 : c ∈ P ++ c2 :: Y := hmem_of c hc hcm
        have hcl := hmemL1 c hc1
        rw [haddr4 c hcl]
        apply hpay c (by rw [hLsplit]; exact hc1)
        rw [← hsent4 c hcl]
        exact hcs
    · rw [hchD4]
      exact hchain'4
    · rw [hchD4]
      exact huniq4
    · rw [hsz4, hord4]
      exact hsz
    · rw [hmask4, hsz4]
      exact hmask
    · rw [htab4, hsz4]
      simp [htlen]
    · rw [hres4]
      exact hres
  refine ⟨hinv4, ?_, ?_, ?_, hsz4, hord4, hmask4, hshift4, hent4, hemax4, hemin4,
    hres4, hhand4, ?_, ?_, ?_, ?_, ?_⟩
  · rw [hget4self]
    simp
  · intro i hne
    by_cases hib : i = bucket
    · rw [hib]
      exact ⟨hempty1, Nat.and_self bucket, hblt1⟩
    · exact absurd (hget4ne i hib) hne
  · rw [htab4]
    simp
  · omega
  · intro c hcl
    exact ⟨hstate4 c hcl, haddr4 c hcl, hmarked4 c hcl⟩
  · intro c hc
    exact hhash4 c (hmemL1 c (by rw [← hLsplit]; exact hc))
  · intro c hc
    rw [hchD4] at hc
    by_cases hcm : c = f1.heap.length
    · subst hcm
      refine Or.inr ⟨Nat.le_refl _, ?_, bucket, hget4self, Nat.and_self bucket, hblt1⟩
      rw [hread4, hreadm]
    · exact Or.inl (by rw [hLsplit]; exact hmem_of c hc hcm)
  · intro c hc
    rw [hchD4]
    rw [hLsplit] at hc
    exact hmem_to c hc

/-- A sentinel on the chain never carries the key of a bucket whose array slot
is still empty: its first bucket-array occurrence would have to be that very
slot. -/
theorem chain_sentinel_key_bucket (h : α → Nat) (f : Fib α) (hinv : InvS h f)
    (hord : f.hash_order ≤ 32) (bucket : Nat)
    (hempty : f.table.getD bucket none = none)
    (hblt : bucket < f.hash_size)
    (y : Nat) (hy : y ∈ chainD f) (hsy : getSentinel f y = true) :
    (getHash h f y).getD 0 ≠ reverseBits bucket := by
  obtain ⟨-, -, -, -, hsent, -, -, -, hsz, -, -, -⟩ := hinv
  intro hk
  have hne := hsent y hy hsy
  obtain ⟨b', hb'⟩ : ∃ b', getHashFromSentinel f y = some b' := by
    cases hx : getHashFromSentinel f y with
    | none => exact absurd hx hne
    | some b => exact ⟨b, rfl⟩
  have hb'' := hb'
  unfold getHashFromSentinel at hb''
  obtain ⟨hb'lt, hb'p, -⟩ := find?_range_spec _ _ _ hb''
  have hb'get : f.table.getD b' none = some y := by simpa using hb'p
  have hhy : getHash h f y = some (reverseBits b') := by
    unfold getHash
    rw [if_pos hsy, hb']
    rfl
  have hsize32 : f.hash_size ≤ 2 ^ 32 := by
    rw [hsz]
    exact Nat.pow_le_pow_right (by omega) hord
  have hkey_eq : reverseBits b' = reverseBits bucket := by
    rw [hhy] at hk
    simpa using hk
  have hb'e : b' = bucket := reverseBits_inj (by omega) (by omega) hkey_eq
  rw [hb'e, hempty] at hb'get
  exact Option.noConfusion hb'get

/-- Overwriting the freshly appended junk slot is the same as appending the
final node directly. -/
theorem writeNode_append_last (f : Fib α) (nd0 nd1 : FibNode α) :
    writeNode { f with heap := f.heap ++ [nd0] } f.heap.length nd1 =
    { f with heap := f.heap ++ [nd1] } := by
  show ({ f with heap := (f.heap ++ [nd0]).set f.heap.length nd1 } : Fib α) = _
  rw [list_append_set_last]

theorem getNextAddress_writeNode_append (f : Fib α) (nd0 nd1 : FibNode α) (c : Nat)
    (hc : c < f.heap.length) :
    getNextAddress (writeNode { f with heap := f.heap ++ [nd0] } f.heap.length nd1) c =
    getNextAddress f c := by
  rw [writeNode_append_last]
  unfold getNextAddress
  rw [readNode_extend f [nd1] c hc]

theorem getFlag_writeNode_append (f : Fib α) (nd0 nd1 : FibNode α) (c : Nat)
    (hc : c < f.heap.length) :
    getFlag (writeNode { f with heap := f.heap ++ [nd0] } f.heap.length nd1) c =
    getFlag f c := by
  rw [writeNode_append_last]
  unfold getFlag
  rw [readNode_extend f [nd1] c hc]

/-- `fib_insert2` succeeds and satisfies the insert contract whenever the
requested bucket is empty, the structural invariant holds and every chain node
with a key below the new sentinel key is unmarked. -/
theorem insert2_spec (h : α → Nat) :
    ∀ (fuel : Nat) (f : Fib α) (bucket : Nat),
      InvS h f →
      (∀ c ∈ chainD f, (getHash h f c).getD 0 < reverseBits bucket →
        getFlag f c = false) →
      f.entries < f.entries_max →
      f.hash_order ≤ 32 →
      f.table.getD bucket none = none →
      bucket < f.hash_size →
      bucket < fuel →
      ∃ f2, fib_insert2 h fuel none f bucket = some f2 ∧ InsertOut h f f2 bucket
  | 0, _, _, _, _, _, _, _, _, hfuel => absurd hfuel (by omega)
  | fuel + 1, f, bucket, hinv, hmk, hcap, hord, hempty, hblt, hfuel => by
    have hinv0 := hinv
    obtain ⟨hchne, hndI, htab0, hbuckI, hsentI, hpayI, hsortI, huniqI, hsz, hmaskI,
      htlenI, hresI⟩ := hinv0
    have hb0 : bucket ≠ 0 := by
      intro hbe
      rw [hbe] at hempty
      exact htab0 hempty
    have hbpos : 0 < bucket := Nat.pos_of_ne_zero hb0
    have hblt2 : bucket < 2 ^ f.hash_order := by rw [← hsz]; exact hblt
    have hsize32 : f.hash_size ≤ 2 ^ 32 := by
      rw [hsz]
      exact Nat.pow_le_pow_right (by omega) hord
    have hb32 : bucket < 2 ^ 32 := by omega
    have hsb_lt : getParent bucket f.hash_size < bucket := by
      rw [hsz]
      exact getParent_lt _ _ hbpos hblt2
    have hsb_pow : getParent bucket f.hash_size = bucket - 2 ^ Nat.log 2 bucket := by
      rw [hsz]
      exact getParent_pow _ _ hbpos hblt2
    have hsb_sub : getParent bucket f.hash_size &&& bucket =
        getParent bucket f.hash_size := by
      rw [hsb_pow]
      exact sub_pow_log_and bucket hbpos
    have hsb_ne : getParent bucket f.hash_size ≠ bucket := by
      rw [hsb_pow]
      exact sub_pow_log_ne bucket hbpos
    have hsb_size : getParent bucket f.hash_size < f.hash_size := by omega
    have hrbsb : reverseBits (getParent bucket f.hash_size) < reverseBits bucket :=
      reverseBits_lt_of_and_self hsb_sub hsb_ne hb32
    have hnotge : ¬ (f.entries ≥ f.entries_max) := by omega
    have hg : (if f.entries ≥ f.entries_max then fib_rehash f else f) = f := if_neg hnotge
    have hstep : ∃ f1,
        (if f.table.getD (getParent bucket f.hash_size) none = none then
          fib_insert2 h fuel none f (getParent bucket f.hash_size) else some f) = some f1 ∧
        InsertOut h f f1 (getParent bucket f.hash_size) := by
      by_cases hsbe : f.table.getD (getParent bucket f.hash_size) none = none
      · rw [if_pos hsbe]
        exact insert2_spec h fuel f (getParent bucket f.hash_size) hinv
          (fun c hc hlt => hmk c hc (Nat.lt_trans hlt hrbsb)) hcap hord hsbe hsb_size
          (by omega)
      · rw [if_neg hsbe]
        exact ⟨f, rfl, insertOut_id h f _ hinv hsbe⟩
    obtain ⟨f1, hif1, hout1⟩ := hstep
    have hinv1 : InvS h f1 := hout1.inv
    have hinv1' := hinv1
    obtain ⟨hchne1, hnd1, htab01, hbuck1, hsent1, hpay1, hsort1, huniq1, hsz1, hmask1,
      htlen1, hres1⟩ := hinv1'
    have hord1 : f1.hash_order ≤ 32 := by rw [hout1.order_eq]; exact hord
    have hblt1 : bucket < f1.hash_size := by rw [hout1.size_eq]; exact hblt
    have hempty1 : f1.table.getD bucket none = none := by
      by_cases he : f1.table.getD bucket none = f.table.getD bucket none
      · rw [he]
        exact hempty
      · exfalso
        obtain ⟨-, hsubm, -⟩ := hout1.writes bucket he
        have hle : bucket ≤ getParent bucket f.hash_size := by
          conv_lhs => rw [← hsubm]
          exact Nat.and_le_right
        omega
    obtain ⟨c0, hc0⟩ : ∃ c0, f1.table.getD (getParent bucket f.hash_size) none =
        some c0 := by
      cases hx : f1.table.getD (getParent bucket f.hash_size) none with
      | none => exact absurd hx hout1.written
      | some c => exact ⟨c, rfl⟩
    have hsb_size1 : getParent bucket f.hash_size < f1.hash_size := by
      rw [hout1.size_eq]
      exact hsb_size
    obtain ⟨hc0mem, hc0sent, hc0first⟩ := hbuck1 _ hsb_size1 c0 hc0
    have hc0hash : getHash h f1 c0 = some (reverseBits (getParent bucket f.hash_size)) :=
      getHash_bucket_sentinel h f1 hinv1 _ c0 hsb_size1 hc0
    have hc0key : (getHash h f1 c0).getD 0 < reverseBits bucket := by
      rw [hc0hash]
      simpa using hrbsb
    have hmk1 : ∀ c ∈ chainD f1, (getHash h f1 c).getD 0 < reverseBits bucket →
        getFlag f1 c = false := by
      intro c hc hlt
      rcases hout1.chain_new c hc with hcold | ⟨-, hmkf, -⟩
      · have hcl : c < f.heap.length :=
          chainFrom_mem_lt _ _ _ (chainOf_eq f hchne) c hcold
        rw [getFlag_congr f f1 c (hout1.node_pres c hcl).2.2]
        apply hmk c hcold
        rw [← hout1.hash_pres c hcold]
        exact hlt
      · exact hmkf
    obtain ⟨A, B, hAB, hsuffix⟩ := chain_suffix_of_mem f1 c0 hchne1 hc0mem
    have hchlen : (chainD f1).length ≤ f1.heap.length :=
      nodup_length_le _ _ hnd1 (fun c hcm =>
        chainFrom_mem_lt _ _ _ (chainOf_eq f1 hchne1) c hcm)
    have hBlen : B.length < f1.heap.length + 1 := by
      rw [hAB] at hchlen
      simp at hchlen
      omega
    have hdefs : ∀ x ∈ B, getHash h f1 x ≠ none := by
      intro x hx
      exact getHash_total h f1 hinv1 x (by rw [hAB]; simp [hx])
    obtain ⟨X, Y, c2, hsplit, hscan, hnc2, hXkey, hYkey⟩ :=
      scanLt_spec h f1 (reverseBits bucket) B c0 (f1.heap.length + 1) hsuffix hdefs hBlen
    have hL1split : chainD f1 = (A ++ X) ++ c2 :: Y := by
      rw [hAB, hsplit, List.append_assoc]
    have hc2mem : c2 ∈ chainD f1 := by rw [hL1split]; simp
    have hPkey : ∀ x ∈ (A ++ X) ++ [c2], (getHash h f1 x).getD 0 < reverseBits bucket := by
      have hpw := chain_ordRel_pairwise h f1 _ hsort1
      rw [hAB] at hpw
      have hcross := (List.pairwise_append.1 hpw).2.2
      intro x hx
      rcases List.mem_append.1 hx with hx1 | hx2
      · rcases List.mem_append.1 hx1 with hxA | hxX
        · have hrel := hcross x hxA c0 (by simp)
          have hle := ordRel_le h f1 hrel
          omega
        · rcases hXkey x (by simp [hxX]) with heq | hlt
          · rw [heq]
            exact hc0key
          · exact hlt
      · have hxc : x = c2 := by simpa using hx2
        rw [hxc]
        rcases hXkey c2 (by simp) with heq | hlt
        · rw [heq]
          exact hc0key
        · exact hlt
    obtain ⟨kc, hkc⟩ : ∃ kc, getHash h f1 c2 = some kc := by
      cases hx : getHash h f1 c2 with
      | none => exact absurd hx (getHash_total h f1 hinv1 c2 hc2mem)
      | some k => exact ⟨k, rfl⟩
    have hkc_lt : kc < reverseBits bucket := by
      have := hPkey c2 (by simp)
      rw [hkc] at this
      simpa using this
    have hc2flag : getFlag f1 c2 = false := by
      apply hmk1 c2 hc2mem
      rw [hkc]
      simpa using hkc_lt
    have hc2mk : (readNode f1 c2).marked = false := hc2flag
    have hc2l : c2 < f1.heap.length :=
      chainFrom_mem_lt _ _ _ (chainOf_eq f1 hchne1) c2 hc2mem
    have hYge : ∀ y ∈ Y, reverseBits bucket ≤ (getHash h f1 y).getD 0 := by
      intro y hy
      have hpw2 := chain_ordRel_pairwise h f1 _ hsort1
      rw [hL1split] at hpw2
      have h2 := (List.pairwise_append.1 hpw2).2.1
      have h3 := (List.pairwise_cons.1 h2).2
      obtain ⟨s, Y', hYe⟩ : ∃ s Y', Y = s :: Y' := by
        cases Y with
        | nil => exact absurd hy (List.not_mem_nil y)
        | cons a Y0 => exact ⟨a, Y0, rfl⟩
      have hsq : reverseBits bucket ≤ (getHash h f1 s).getD 0 := by
        have := hYkey s (by simp [hYe])
        omega
      rw [hYe] at hy h3
      rcases List.mem_cons.1 hy with rfl | hy'
      · exact hsq
      · have h4 := (List.pairwise_cons.1 h3).1 y hy'
        have := ordRel_le h f1 h4
        omega
    obtain ⟨f3c, hf3c⟩ : ∃ f3c, f3c =
        writeNode { f1 with heap := f1.heap ++ [(⟨Y.head?, false, 1, none⟩ : FibNode α)] }
          c2 { readNode f1 c2 with next := some f1.heap.length, marked := false } :=
      ⟨_, rfl⟩
    obtain ⟨f4c, hf4c⟩ : ∃ f4c, f4c =
        { f3c with table := f3c.table.set bucket (some f1.heap.length) } := ⟨_, rfl⟩
    have hfin := insert2_finish h f1 bucket (A ++ X) Y c2 f3c f4c
      hinv1 hord1 hL1split hempty1 hblt1 hPkey hYge hc2mk hf3c hf4c
    have hout := insertOut_comp h f f1 _ (getParent bucket f.hash_size) bucket hout1
      hfin hsb_sub
    refine ⟨_, ?_, hout⟩
    rw [hf4c, hf3c]
    cases Y with
    | nil =>
      simp only [List.head?_nil] at hscan hnc2
      simp only [fib_insert2, hg, hif1, hc0, hscan, hkc]
      rw [if_pos hkc_lt]
      rw [readNode_extend_new f1 junkNode]
      rw [if_pos ⟨(getNextAddress_writeNode_append f1 junkNode _ c2 hc2l).trans hnc2,
        (getFlag_writeNode_append f1 junkNode _ c2 hc2l).trans hc2flag⟩]
      rw [writeNode_append_last]
      rw [readNode_extend f1 _ c2 hc2l]
      rfl
    | cons s Y' =>
      simp only [List.head?_cons] at hscan hnc2
      have hsmem : s ∈ chainD f1 := by rw [hL1split]; simp
      obtain ⟨ks, hks⟩ : ∃ ks, getHash h f1 s = some ks := by
        cases hx : getHash h f1 s with
        | none => exact absurd hx (getHash_total h f1 hinv1 s hsmem)
        | some k => exact ⟨k, rfl⟩
      have hks_ge : reverseBits bucket ≤ ks := by
        have := hYge s (by simp)
        rw [hks] at this
        simpa using this
      have hnodup2 : ¬ (ks = reverseBits bucket ∧ getSentinel f1 s = true) := by
        rintro ⟨hkse, hsse⟩
        have hns := chain_sentinel_key_bucket h f1 hinv1 hord1 bucket hempty1 hblt1 s
          hsmem hsse
        rw [hks] at hns
        simp at hns
        exact hns hkse
      simp only [fib_insert2, hg, hif1, hc0, hscan, hks]
      rw [if_neg hnodup2]
      simp only [hkc]
      rw [if_pos ⟨hkc_lt, hks_ge⟩]
      rw [readNode_extend_new f1 junkNode]
      rw [if_pos ⟨(getNextAddress_writeNode_append f1 junkNode _ c2 hc2l).trans hnc2,
        (getFlag_writeNode_append f1 junkNode _ c2 hc2l).trans hc2flag⟩]
      rw [writeNode_append_last]
      rw [readNode_extend f1 _ c2 hc2l]
      rfl

/-- `fib_find` hit: on an invariant-satisfying table whose bucket for `a` is
already populated, a single iteration finds the entry holding `a` and returns
its user pointer without modifying the table. -/
theorem find_hit (h : α → Nat) [DecidableEq α] (f : Fib α) (a : α) (e : Nat) (fuel : Nat)
    (hinv : Inv h f)
    (hmem : MemP f a e)
    (hbp : f.table.getD (bucketOfHash f (h a)) none ≠ none) :
    fib_find h a (fuel + 1) f = some (some (fib_node_to_user e), f) := by
  obtain ⟨hinvS, hflags⟩ := hinv
  obtain ⟨he_mem, he_sent, he_addr⟩ := hmem
  have hinvS' := hinvS
  obtain ⟨hchne, hnd, htab0, hbuck, hsent, hpay, hsort, huniq, hsz, hmask, htlen, hres⟩ :=
    hinvS'
  have hszpos : 0 < f.hash_size := by
    rw [hsz]
    exact Nat.pos_pow_of_pos _ (by omega)
  have hbl : bucketOfHash f (h a) < f.hash_size := bucketOfHash_lt f (h a) hmask hszpos
  obtain ⟨c0, hc0⟩ : ∃ c0, f.table.getD (bucketOfHash f (h a)) none = some c0 := by
    cases hx : f.table.getD (bucketOfHash f (h a)) none with
    | none => exact absurd hx hbp
    | some c => exact ⟨c, rfl⟩
  obtain ⟨hc0mem, hc0sent, hc0first⟩ := hbuck _ hbl c0 hc0
  have hc0hash : getHash h f c0 = some (reverseBits (bucketOfHash f (h a))) :=
    getHash_bucket_sentinel h f hinvS _ c0 hbl hc0
  have he_hash : getHash h f e = some (h a) := getHash_payload h f e a he_sent he_addr
  have hkey_le : reverseBits (bucketOfHash f (h a)) ≤ h a := sentinelKey_le (h a) f.hash_mask
  obtain ⟨A, M, hAM, heM⟩ := sentinel_before h f hinvS e c0 he_mem hc0mem he_sent hc0sent
    (by rw [hc0hash, he_hash]; simpa using hkey_le)
  have hsuffix : chainFrom f.heap (M.length + 2) (some c0) = some (c0 :: M) := by
    have hch := chainOf_eq f hchne
    rw [hAM] at hch
    exact chainFrom_suffix A _ _ c0 M hch
  have hchlen : (chainD f).length ≤ f.heap.length :=
    nodup_length_le _ _ hnd (fun c hcm => chainFrom_mem_lt _ _ _ (chainOf_eq f hchne) c hcm)
  have hMfuel : M.length < f.heap.length + 1 := by
    rw [hAM] at hchlen
    simp at hchlen
    omega
  have hsortM : (c0 :: M).Chain' (ordRel h f) := by
    rw [hAM] at hsort
    exact hsort.right_of_append
  have huniqM : (c0 :: M).Pairwise (fun x y => getSentinel f x = false →
      getSentinel f y = false → (readNode f x).addr ≠ (readNode f y).addr) := by
    rw [hAM] at huniq
    exact (List.pairwise_append.1 huniq).2.1
  have hfound := findScan_found h f a M c0 (f.heap.length + 1) e hsuffix
    (List.mem_cons_of_mem c0 heM) he_sent he_addr (hflags e he_mem)
    (fun x hx => getHash_total h f hinvS x (by rw [hAM]; simp [hx]))
    hsortM huniqM hMfuel
  simp only [fib_find, hc0]
  rw [if_neg (Option.some_ne_none c0)]
  simp only [hc0, hfound]

/-- The state produced by the successful CAS-link path of `fib_get2`: linking
a fresh payload node for `a` between the scan exit `c2` and the strictly
larger-key tail re-establishes the full invariant; the bucket array is
untouched and `entries` is incremented. -/
theorem get2_finish (h : α → Nat) (f1 : Fib α) (a : α)
    (P Y : List Nat) (c2 : Nat) (f3 f4 f5 : Fib α)
    (hinv1 : Inv h f1)
    (hLsplit : chainD f1 = P ++ c2 :: Y)
    (hPkey : ∀ x ∈ P ++ [c2], (getHash h f1 x).getD 0 ≤ h a)
    (hYgt : ∀ y ∈ Y, h a < (getHash h f1 y).getD 0)
    (hnoaddr : ∀ x ∈ chainD f1, getSentinel f1 x = false →
      (readNode f1 x).addr ≠ some a)
    (hf3 : f3 = writeNode
      { f1 with heap := f1.heap ++ [(⟨Y.head?, false, 0, some a⟩ : FibNode α)] } c2
      { readNode f1 c2 with next := some f1.heap.length, marked := false })
    (hf4 : f4 = addALink f3 (some f1.heap.length))
    (hf5 : f5 = { f4 with entries := (f4.entries + 1) % 2 ^ 32 }) :
    Inv h f5 ∧ MemP f5 a f1.heap.length ∧ f5.table = f1.table ∧
    f5.hash_size = f1.hash_size ∧ f5.hash_order = f1.hash_order ∧
    f5.hash_mask = f1.hash_mask ∧ f5.hash_shift = f1.hash_shift ∧
    f5.entries = (f1.entries + 1) % 2 ^ 32 ∧ f5.entries_max = f1.entries_max ∧
    f5.entries_min = f1.entries_min ∧ f5.resizing = f1.resizing ∧
    f5.heap.length = f1.heap.length + 1 := by
  obtain ⟨hinvS, hflags⟩ := hinv1
  have hinvS' := hinvS
  obtain ⟨hchne, hnd1, htab0, hbuck, hsent, hpay, hsort, huniq, hsz, hmask, htlen,
    hres⟩ := hinvS'
  have hcheq := chainOf_eq f1 hchne
  have hmemL1 : ∀ x ∈ P ++ c2 :: Y, x < f1.heap.length := by
    intro x hx
    exact chainFrom_mem_lt _ _ _ hcheq x (by rw [hLsplit]; exact hx)
  have hc2mem : c2 ∈ chainD f1 := by rw [hLsplit]; simp
  have hc2l : c2 < f1.heap.length := hmemL1 c2 (by simp)
  have hc2mk : (readNode f1 c2).marked = false := hflags c2 hc2mem
  have hmnot : f1.heap.length ∉ P ++ c2 :: Y := by
    intro hmem
    exact absurd (hmemL1 _ hmem) (by omega)
  obtain ⟨hchain3, hlen3, hreadm, hreadold, hreadc2, htab3, hsz3, hord3, hmask3,
      hshift3, hent3, hemax3, hemin3, hres3, hhand3⟩ :=
    link_new_node f1 (⟨Y.head?, false, 0, some a⟩ : FibNode α)
      { readNode f1 c2 with next := some f1.heap.length, marked := false } c2 P Y f3
      hf3 hchne hLsplit hnd1 rfl rfl
  have hf4' : f4 = writeNode f3 f1.heap.length
      (⟨Y.head?, false, 2, some a⟩ : FibNode α) := by
    rw [hf4]
    show writeNode f3 f1.heap.length
      { readNode f3 f1.heap.length with
        state := ((readNode f3 f1.heap.length).state + 2) % 2 ^ 8 } = _
    rw [hreadm]
    simp
  have hml3 : f1.heap.length < f3.heap.length := by omega
  have hread4m : readNode f4 f1.heap.length =
      (⟨Y.head?, false, 2, some a⟩ : FibNode α) := by
    rw [hf4']
    exact readNode_writeNode_self _ _ _ hml3
  have hread4ne : ∀ c, c ≠ f1.heap.length → readNode f4 c = readNode f3 c := by
    intro c hc
    rw [hf4']
    exact readNode_writeNode_ne _ _ _ _ (fun he => hc he.symm)
  have hlen4 : f4.heap.length = f1.heap.length + 1 := by
    rw [hf4']
    unfold writeNode
    simp [hlen3]
  have htab4 : f4.table = f1.table := by rw [hf4']; exact htab3
  have hsz4 : f4.hash_size = f1.hash_size := by rw [hf4']; exact hsz3
  have hord4 : f4.hash_order = f1.hash_order := by rw [hf4']; exact hord3
  have hmask4 : f4.hash_mask = f1.hash_mask := by rw [hf4']; exact hmask3
  have hshift4 : f4.hash_shift = f1.hash_shift := by rw [hf4']; exact hshift3
  have hent4 : f4.entries = f1.entries := by rw [hf4']; exact hent3
  have hemax4 : f4.entries_max = f1.entries_max := by rw [hf4']; exact hemax3
  have hemin4 : f4.entries_min = f1.entries_min := by rw [hf4']; exact hemin3
  have hres4 : f4.resizing = f1.resizing := by rw [hf4']; exact hres3
  have hchain4 : chainOf f4 = some (P ++ c2 :: f1.heap.length :: Y) := by
    have hnx : ∀ c ∈ P ++ c2 :: f1.heap.length :: Y,
        (readNode f4 c).next = (readNode f3 c).next := by
      intro c hc
      by_cases hcm : c = f1.heap.length
      · rw [hcm, hread4m, hreadm]
      · rw [hread4ne c hcm]
    exact chainOf_congr_next f3 f4 _ hchain3 (by omega) (by rw [htab4, htab3]) hnx
  have hheap5 : f5.heap = f4.heap := by rw [hf5]
  have hread5 : ∀ c, readNode f5 c = readNode f4 c := by
    intro c
    unfold readNode
    rw [hheap5]
  have htab5 : f5.table = f1.table := by rw [hf5]; exact htab4
  have hsz5 : f5.hash_size = f1.hash_size := by rw [hf5]; exact hsz4
  have hord5 : f5.hash_order = f1.hash_order := by rw [hf5]; exact hord4
  have hmask5 : f5.hash_mask = f1.hash_mask := by rw [hf5]; exact hmask4
  have hshift5 : f5.hash_shift = f1.hash_shift := by rw [hf5]; exact hshift4
  have hemax5 : f5.entries_max = f1.entries_max := by rw [hf5]; exact hemax4
  have hemin5 : f5.entries_min = f1.entries_min := by rw [hf5]; exact hemin4
  have hres5 : f5.resizing = f1.resizing := by rw [hf5]; exact hres4
  have hent5 : f5.entries = (f1.entries + 1) % 2 ^ 32 := by
    rw [hf5]
    show (f4.entries + 1) % 2 ^ 32 = _
    rw [hent4]
  have hlen5 : f5.heap.length = f1.heap.length + 1 := by rw [hheap5]; exact hlen4
  have hchain5 : chainOf f5 = some (P ++ c2 :: f1.heap.length :: Y) := by
    unfold chainOf
    rw [hheap5]
    have h0 : f5.table.getD 0 none = f4.table.getD 0 none := by rw [htab5, htab4]
    rw [h0]
    exact hchain4
  have hchD5 : chainD f5 = P ++ c2 :: f1.heap.length :: Y := by
    unfold chainD
    rw [hchain5]
    rfl
  have hstate5 : ∀ c, c < f1.heap.length →
      (readNode f5 c).state = (readNode f1 c).state := by
    intro c hcl
    rw [hread5, hread4ne c (by omega)]
    by_cases hc2e : c = c2
    · rw [hc2e, hreadc2]
    · rw [hreadold c hcl hc2e]
  have haddr5 : ∀ c, c < f1.heap.length →
      (readNode f5 c).addr = (readNode f1 c).addr := by
    intro c hcl
    rw [hread5, hread4ne c (by omega)]
    by_cases hc2e : c = c2
    · rw [hc2e, hreadc2]
    · rw [hreadold c hcl hc2e]
  have hmarked5 : ∀ c, c < f1.heap.length →
      (readNode f5 c).marked = (readNode f1 c).marked := by
    intro c hcl
    rw [hread5, hread4ne c (by omega)]
    by_cases hc2e : c = c2
    · rw [hc2e, hreadc2, hc2mk]
    · rw [hreadold c hcl hc2e]
  have hgHFS5 : ∀ s, getHashFromSentinel f5 s = getHashFromSentinel f1 s := by
    intro s
    exact getHashFromSentinel_congr f1 f5 hsz5 htab5 s
  have hsent5 : ∀ c, c < f1.heap.length → getSentinel f5 c = getSentinel f1 c := by
    intro c hcl
    exact getSentinel_congr_state f1 f5 c (hstate5 c hcl)
  have hhash5 : ∀ c, c < f1.heap.length → getHash h f5 c = getHash h f1 c := by
    intro c hcl
    exact getHash_congr h f1 f5 c (hstate5 c hcl) (haddr5 c hcl) (hgHFS5 c)
  have hflag5 : ∀ c, c < f1.heap.length → getFlag f5 c = getFlag f1 c := by
    intro c hcl
    exact getFlag_congr f1 f5 c (hmarked5 c hcl)
  have hsent5m : getSentinel f5 f1.heap.length = false := by
    unfold getSentinel
    rw [hread5, hread4m]
    simp
  have haddr5m : (readNode f5 f1.heap.length).addr = some a := by
    rw [hread5, hread4m]
  have hflag5m : getFlag f5 f1.heap.length = false := by
    unfold getFlag
    rw [hread5, hread4m]
  have hhash5m : getHash h f5 f1.heap.length = some (h a) :=
    getHash_payload h f5 _ a hsent5m haddr5m
  have hmem_of : ∀ c, c ∈ P ++ c2 :: f1.heap.length :: Y → c ≠ f1.heap.length →
      c ∈ P ++ c2 :: Y := by
    intro c hc hcm
    rcases List.mem_append.1 hc with hcP | hcc
    · exact List.mem_append.2 (Or.inl hcP)
    · rcases List.mem_cons.1 hcc with rfl | hcc2
      · simp
      · rcases List.mem_cons.1 hcc2 with rfl | hcY
        · exact absurd rfl hcm
        · simp [hcY]
  have hmem_to : ∀ c, c ∈ P ++ c2 :: Y → c ∈ P ++ c2 :: f1.heap.length :: Y := by
    intro c hc
    rcases List.mem_append.1 hc with hcP | hcc
    · exact List.mem_append.2 (Or.inl hcP)
    · rcases List.mem_cons.1 hcc with rfl | hcY
      · simp
      · simp [hcY]
  haveI : IsTrans Nat (ordRel h f5) := ⟨fun a b c hab hbc => ordRel_trans h f5 hab hbc⟩
  have hsort1 : (P ++ c2 :: Y).Chain' (ordRel h f1) := by rw [← hLsplit]; exact hsort
  have hpw1 : (P ++ c2 :: Y).Pairwise (ordRel h f1) := chain_ordRel_pairwise h f1 _ hsort1
  have hpw1' : (P ++ c2 :: Y).Pairwise (ordRel h f5) := by
    refine hpw1.imp_of_mem ?_
    intro x y hx hy hr
    exact (ordRel_congr h f1 f5 x y (hhash5 x (hmemL1 x hx)) (hhash5 y (hmemL1 y hy))
      (hsent5 y (hmemL1 y hy))).2 hr
  have hml : ∀ x ∈ P ++ [c2], ordRel h f5 x f1.heap.length := by
    intro x hx
    have hx1 : x ∈ P ++ c2 :: Y := by
      rcases List.mem_append.1 hx with hxP | hxc
      · exact List.mem_append.2 (Or.inl hxP)
      · simp at hxc
        exact List.mem_append.2 (Or.inr (by simp [hxc]))
    have hhx := hhash5 x (hmemL1 x hx1)
    have hle := hPkey x hx
    rcases Nat.lt_or_ge ((getHash h f1 x).getD 0) (h a) with hlt | hge
    · refine Or.inl ?_
      rw [hhx, hhash5m]
      simpa using hlt
    · have heq : (getHash h f1 x).getD 0 = h a := by omega
      refine Or.inr ⟨?_, hsent5m⟩
      rw [hhx, hhash5m]
      simpa using heq
  have hmr : ∀ y ∈ Y, ordRel h f5 f1.heap.length y := by
    intro y hy
    have hy1 : y ∈ P ++ c2 :: Y := by simp [hy]
    refine Or.inl ?_
    rw [hhash5m, hhash5 y (hmemL1 y hy1)]
    simpa using hYgt y hy
  have hpw5 : (P ++ c2 :: f1.heap.length :: Y).Pairwise (ordRel h f5) :=
    pairwise_insert_middle P Y c2 f1.heap.length hpw1' hml hmr
  have huniq1 : (P ++ c2 :: Y).Pairwise (fun x y => getSentinel f1 x = false →
      getSentinel f1 y = false → (readNode f1 x).addr ≠ (readNode f1 y).addr) := by
    rw [← hLsplit]
    exact huniq
  have huniq5 : (P ++ c2 :: f1.heap.length :: Y).Pairwise (fun x y =>
      getSentinel f5 x = false → getSentinel f5 y = false →
      (readNode f5 x).addr ≠ (readNode f5 y).addr) := by
    refine pairwise_insert_middle P Y c2 f1.heap.length ?_ ?_ ?_
    · refine huniq1.imp_of_mem ?_
      intro x y hx hy hr hsx hsy
      rw [haddr5 x (hmemL1 x hx), haddr5 y (hmemL1 y hy)]
      exact hr (by rw [← hsent5 x (hmemL1 x hx)]; exact hsx)
        (by rw [← hsent5 y (hmemL1 y hy)]; exact hsy)
    · intro x hx hsx hsm
      have hx1 : x ∈ P ++ c2 :: Y := by
        rcases List.mem_append.1 hx with hxP | hxc
        · exact List.mem_append.2 (Or.inl hxP)
        · simp at hxc
          exact List.mem_append.2 (Or.inr (by simp [hxc]))
      rw [haddr5 x (hmemL1 x hx1), haddr5m]
      exact hnoaddr x (by rw [hLsplit]; exact hx1)
        (by rw [← hsent5 x (hmemL1 x hx1)]; exact hsx)
    · intro y hy hsm hsy
      have hy1 : y ∈ P ++ c2 :: Y := by simp [hy]
      rw [haddr5m, haddr5 y (hmemL1 y hy1)]
      intro he
      exact hnoaddr y (by rw [hLsplit]; exact hy1)
        (by rw [← hsent5 y (hmemL1 y hy1)]; exact hsy) he.symm
  have hinv5 : InvS h f5 := by
    refine ⟨?_, ?_, ?_, ?_, ?_, ?_, ?_, ?_, ?_, ?_, ?_, ?_⟩
    · rw [hchain5]
      simp
    · rw [hchD5]
      exact nodup_insert_middle P Y c2 f1.heap.length (by rw [← hLsplit]; exact hnd1)
        hmnot
    · rw [htab5]
      exact htab0
    · intro b hb s hsget
      rw [htab5] at hsget
      have hb1 : b < f1.hash_size := by rw [← hsz5]; exact hb
      obtain ⟨hmem1, hsent1, hfirst1⟩ := hbuck b hb1 s hsget
      have hmem1' : s ∈ P ++ c2 :: Y := by rw [← hLsplit]; exact hmem1
      have hsl := hmemL1 s hmem1'
      refine ⟨by rw [hchD5]; exact hmem_to s hmem1', ?_, ?_⟩
      · rw [hsent5 s hsl]
        exact hsent1
      · rw [hgHFS5 s]
        exact hfirst1
    · intro c hc hcs
      rw [hchD5] at hc
      by_cases hcm : c = f1.heap.length
      · rw [hcm, hsent5m] at hcs
        simp at hcs
      · have hc1 : c ∈ P ++ c2 :: Y := hmem_of c hc hcm
        have hcl := hmemL1 c hc1
        rw [hgHFS5 c]
        apply hsent c (by rw [hLsplit]; exact hc1)
        rw [← hsent5 c hcl]
        exact hcs
    · intro c hc hcs
      rw [hchD5] at hc
      by_cases hcm : c = f1.heap.length
      · rw [hcm, haddr5m]
        simp
      · have hc1 : c ∈ P ++ c2 :: Y := hmem_of c hc hcm
        have hcl := hmemL1 c hc1
        rw [haddr5 c hcl]
        apply hpay c (by rw [hLsplit]; exact hc1)
        rw [← hsent5 c hcl]
        exact hcs
    · rw [hchD5]
      exact List.chain'_iff_pairwise.2 hpw5
    · rw [hchD5]
      exact huniq5
    · rw [hsz5, hord5]
      exact hsz
    · rw [hmask5, hsz5]
      exact hmask
    · rw [htab5, hsz5]
      exact htlen
    · rw [hres5]
      exact hres
  have hflags5 : ∀ c ∈ chainD f5, getFlag f5 c = false := by
    intro c hc
    rw [hchD5] at hc
    by_cases hcm : c = f1.heap.length
    · rw [hcm]
      exact hflag5m
    · have hc1 : c ∈ P ++ c2 :: Y := hmem_of c hc hcm
      rw [hflag5 c (hmemL1 c hc1)]
      exact hflags c (by rw [hLsplit]; exact hc1)
  refine ⟨⟨hinv5, hflags5⟩, ⟨?_, hsent5m, haddr5m⟩, htab5, hsz5, hord5, hmask5,
    hshift5, hent5, hemax5, hemin5, hres5, hlen5⟩
  rw [hchD5]
  simp

/-- `fib_get2` on an invariant-satisfying table below capacity: it returns in
one outer iteration, yields an entry holding `a` (tagged with the low bit
exactly when the entry already existed), preserves the invariant and the
sizing fields, populates the bucket of `a`, and grows `entries` by at most
one. -/
theorem get2_spec (h : α → Nat) [DecidableEq α] (f : Fib α) (a : α) (fuel : Nat)
    (hinv : Inv h f) (hcap : f.entries < f.entries_max) (hord : f.hash_order ≤ 32) :
    ∃ r f2 e, fib_get2 h a (fuel + 1) none f = some (r, f2) ∧
      Inv h f2 ∧ MemP f2 a e ∧
      ((∃ e0, MemP f a e0) → r = fib_node_to_user e ||| 1) ∧
      ((¬ ∃ e0, MemP f a e0) → r = fib_node_to_user e) ∧
      f2.table.getD (bucketOfHash f2 (h a)) none ≠ none ∧
      f2.hash_mask = f.hash_mask ∧ f2.hash_size = f.hash_size ∧
      f2.hash_order = f.hash_order ∧ f2.hash_shift = f.hash_shift ∧
      f2.entries_max = f.entries_max ∧ f2.entries_min = f.entries_min ∧
      f2.resizing = f.resizing ∧ f2.entries ≤ f.entries + 1 := by
  obtain ⟨hinvS, hflags⟩ := hinv
  have hinvS0 := hinvS
  obtain ⟨hchne, hndI, htab0, hbuckI, hsentI, hpayI, hsortI, huniqI, hsz, hmaskI,
    htlenI, hresI⟩ := hinvS0
  have hszpos : 0 < f.hash_size := by
    rw [hsz]
    exact Nat.pos_pow_of_pos _ (by omega)
  have hsbl : bucketOfHash f (h a) < f.hash_size := bucketOfHash_lt f (h a) hmaskI hszpos
  have hnotge : ¬ (f.entries ≥ f.entries_max) := by omega
  have hg : (if f.entries ≥ f.entries_max then fib_rehash f else f) = f := if_neg hnotge
  have hstep : ∃ f1,
      (if f.table.getD (bucketOfHash f (h a)) none = none then
        fib_insert2 h (bucketOfHash f (h a) + 1) none f (bucketOfHash f (h a))
        else some f) = some f1 ∧
      InsertOut h f f1 (bucketOfHash f (h a)) := by
    by_cases hsbe : f.table.getD (bucketOfHash f (h a)) none = none
    · rw [if_pos hsbe]
      exact insert2_spec h (bucketOfHash f (h a) + 1) f (bucketOfHash f (h a)) hinvS
        (fun c hc _ => hflags c hc) hcap hord hsbe hsbl (by omega)
    · rw [if_neg hsbe]
      exact ⟨f, rfl, insertOut_id h f _ hinvS hsbe⟩
  obtain ⟨f1, hif1, hout1⟩ := hstep
  have hinvS1 : InvS h f1 := hout1.inv
  have hinvS1' := hinvS1
  obtain ⟨hchne1, hnd1, htab01, hbuck1, hsent1, hpay1, hsort1, huniq1, hsz1, hmask1,
    htlen1, hres1⟩ := hinvS1'
  have hflags1 : ∀ c ∈ chainD f1, getFlag f1 c = false := by
    intro c hc
    rcases hout1.chain_new c hc with hcold | ⟨-, hmkf, -⟩
    · have hcl : c < f.heap.length :=
        chainFrom_mem_lt _ _ _ (chainOf_eq f hchne) c hcold
      rw [getFlag_congr f f1 c (hout1.node_pres c hcl).2.2]
      exact hflags c hcold
    · exact hmkf
  have hinv1 : Inv h f1 := ⟨hinvS1, hflags1⟩
  obtain ⟨c0, hc0⟩ : ∃ c0, f1.table.getD (bucketOfHash f (h a)) none = some c0 := by
    cases hx : f1.table.getD (bucketOfHash f (h a)) none with
    | none => exact absurd hx hout1.written
    | some c => exact ⟨c, rfl⟩
  have hsb1 : bucketOfHash f (h a) < f1.hash_size := by
    rw [hout1.size_eq]
    exact hsbl
  obtain ⟨hc0mem, hc0sent, hc0first⟩ := hbuck1 _ hsb1 c0 hc0
  have hc0hash : getHash h f1 c0 = some (reverseBits (bucketOfHash f (h a))) :=
    getHash_bucket_sentinel h f1 hinvS1 _ c0 hsb1 hc0
  have hkeyle : reverseBits (bucketOfHash f (h a)) ≤ h a := sentinelKey_le (h a) f.hash_mask
  obtain ⟨A, B, hAB, hsuffix⟩ := chain_suffix_of_mem f1 c0 hchne1 hc0mem
  have hchlen : (chainD f1).length ≤ f1.heap.length :=
    nodup_length_le _ _ hnd1 (fun c hcm =>
      chainFrom_mem_lt _ _ _ (chainOf_eq f1 hchne1) c hcm)
  have hBlen : B.length < f1.heap.length + 1 := by
    rw [hAB] at hchlen
    simp at hchlen
    omega
  obtain ⟨X, Y, c2, hsplit, hscan, hnc2, hXlt, hYge0⟩ :=
    scanLt_spec h f1 (h a) B c0 (f1.heap.length + 1) hsuffix
      (fun x hx => getHash_total h f1 hinvS1 x (by rw [hAB]; simp [hx])) hBlen
  have hL1split : chainD f1 = (A ++ X) ++ c2 :: Y := by
    rw [hAB, hsplit, List.append_assoc]
  have hc2mem : c2 ∈ chainD f1 := by rw [hL1split]; simp
  have hc2l : c2 < f1.heap.length :=
    chainFrom_mem_lt _ _ _ (chainOf_eq f1 hchne1) c2 hc2mem
  obtain ⟨kc, hkc⟩ : ∃ kc, getHash h f1 c2 = some kc := by
    cases hx : getHash h f1 c2 with
    | none => exact absurd hx (getHash_total h f1 hinvS1 c2 hc2mem)
    | some k => exact ⟨k, rfl⟩
  have hc2le : kc ≤ h a := by
    rcases hXlt c2 (by simp) with heqc | hlt
    · rw [heqc] at hkc
      rw [hkc] at hc0hash
      have := Option.some.inj hc0hash
      omega
    · rw [hkc] at hlt
      simp at hlt
      omega
  have hnrestart : ¬ (kc = h a ∧ getSentinel f1 c2 = false) := by
    rintro ⟨hke, hsc⟩
    rcases hXlt c2 (by simp) with heqc | hlt
    · rw [heqc] at hsc
      rw [hc0sent] at hsc
      exact absurd hsc (by simp)
    · rw [hkc] at hlt
      simp at hlt
      omega
  have hpres_iff : (∃ e0, MemP f1 a e0) ↔ (∃ e0, MemP f a e0) := by
    constructor
    · rintro ⟨e0, he0⟩
      obtain ⟨he0m, he0s, he0a⟩ := (he0 : e0 ∈ chainD f1 ∧ getSentinel f1 e0 = false ∧
        (readNode f1 e0).addr = some a)
      rcases hout1.chain_new e0 he0m with hcold | ⟨-, -, b2, hget, -, hlt2⟩
      · have hcl : e0 < f.heap.length :=
          chainFrom_mem_lt _ _ _ (chainOf_eq f hchne) e0 hcold
        refine ⟨e0, hcold, ?_, ?_⟩
        · rw [← getSentinel_congr_state f f1 e0 (hout1.node_pres e0 hcl).1]
          exact he0s
        · rw [← (hout1.node_pres e0 hcl).2.1]
          exact he0a
      · have hsb2 : b2 < f1.hash_size := by rw [hout1.size_eq]; exact hlt2
        have := (hbuck1 b2 hsb2 e0 hget).2.1
        rw [this] at he0s
        exact absurd he0s (by simp)
    · rintro ⟨e0, he0⟩
      obtain ⟨he0m, he0s, he0a⟩ := (he0 : e0 ∈ chainD f ∧ getSentinel f e0 = false ∧
        (readNode f e0).addr = some a)
      have hcl : e0 < f.heap.length :=
        chainFrom_mem_lt _ _ _ (chainOf_eq f hchne) e0 he0m
      refine ⟨e0, hout1.chain_old e0 he0m, ?_, ?_⟩
      · rw [getSentinel_congr_state f f1 e0 (hout1.node_pres e0 hcl).1]
        exact he0s
      · rw [(hout1.node_pres e0 hcl).2.1]
        exact he0a
  have hbuckpop : ∀ ft : Fib α, ft.table = f1.table → ft.hash_mask = f1.hash_mask →
      ft.table.getD (bucketOfHash ft (h a)) none ≠ none := by
    intro ft hte hme
    have hbe : bucketOfHash ft (h a) = bucketOfHash f (h a) := by
      unfold bucketOfHash
      rw [hme, hout1.mask_eq]
    rw [hte, hbe, hc0]
    simp
  have hsuffix2 : chainFrom f1.heap (Y.length + 2) (some c2) = some (c2 :: Y) := by
    have hch := chainOf_eq f1 hchne1
    rw [hL1split] at hch
    exact chainFrom_suffix (A ++ X) _ _ c2 Y hch
  have hYfuel : Y.length < f1.heap.length + 1 := by
    rw [hL1split] at hchlen
    simp at hchlen
    omega
  by_cases hpres : ∃ e0, MemP f1 a e0
  · obtain ⟨e0, he0⟩ := hpres
    obtain ⟨he0m, he0s, he0a⟩ := (he0 : e0 ∈ chainD f1 ∧ getSentinel f1 e0 = false ∧
      (readNode f1 e0).addr = some a)
    have hhe0 : getHash h f1 e0 = some (h a) := getHash_payload h f1 e0 a he0s he0a
    have he0Y : e0 ∈ Y := by
      have he0' : e0 ∈ (A ++ X) ++ c2 :: Y := by rw [← hL1split]; exact he0m
      rcases List.mem_append.1 he0' with heAX | heC
      · exfalso
        rcases List.mem_append.1 heAX with heA | heX
        · have hpw := chain_ordRel_pairwise h f1 _ hsort1
          rw [hAB] at hpw
          have hrel := (List.pairwise_append.1 hpw).2.2 e0 heA c0 (by simp)
          rcases hrel with hlt | ⟨-, hsc0⟩
          · rw [hhe0, hc0hash] at hlt
            simp at hlt
            omega
          · rw [hc0sent] at hsc0
            exact absurd hsc0 (by simp)
        · rcases hXlt e0 (by simp [heX]) with heqc | hlt
          · rw [heqc] at he0s
            rw [hc0sent] at he0s
            exact absurd he0s (by simp)
          · rw [hhe0] at hlt
            simp at hlt
      · rcases List.mem_cons.1 heC with heqc2 | heY
        · exfalso
          rcases hXlt c2 (by simp) with heqc | hlt
          · rw [heqc2, heqc] at he0s
            rw [hc0sent] at he0s
            exact absurd he0s (by simp)
          · rw [← heqc2, hhe0] at hlt
            simp at hlt
        · exact heY
    have hsortY : (c2 :: Y).Chain' (ordRel h f1) := by
      rw [hL1split] at hsort1
      exact hsort1.right_of_append
    have huniqY : (c2 :: Y).Pairwise (fun x y => getSentinel f1 x = false →
        getSentinel f1 y = false → (readNode f1 x).addr ≠ (readNode f1 y).addr) := by
      rw [hL1split] at huniq1
      exact (List.pairwise_append.1 huniq1).2.1
    have hfound2 := scan2_found h f1 a Y c2 (f1.heap.length + 1) e0 hsuffix2 he0Y
      he0s he0a (hflags1 e0 he0m)
      (fun x hx => getHash_total h f1 hinvS1 x
        (by rw [hL1split]; exact List.mem_append.2 (Or.inr hx)))
      hsortY huniqY hYfuel
    rw [hnc2] at hfound2
    refine ⟨fib_node_to_user e0 ||| 1, f1, e0, ?_, hinv1,
      show MemP f1 a e0 from ⟨he0m, he0s, he0a⟩,
      fun _ => rfl, ?_, hbuckpop f1 rfl rfl, hout1.mask_eq, hout1.size_eq,
      hout1.order_eq, hout1.shift_eq, hout1.emax_eq, hout1.emin_eq,
      hout1.resizing_eq, by rw [hout1.entries_eq]; omega⟩
    · simp only [fib_get2, hg, hif1, hc0, hscan, hkc]
      rw [if_neg hnrestart]
      simp only [hfound2]
    · intro hn
      exact absurd (hpres_iff.1 ⟨e0, show MemP f1 a e0 from ⟨he0m, he0s, he0a⟩⟩) hn
  · have hno1 : ∀ x ∈ chainD f1, getSentinel f1 x = false →
        (readNode f1 x).addr ≠ some a := by
      intro x hx hsx hax
      exact hpres ⟨x, show MemP f1 a x from ⟨hx, hsx, hax⟩⟩
    obtain ⟨X2, Y2, c3, hsplit2, hscan2, hnc3, hX2le, hY2gt⟩ :=
      scan2_through h f1 a (h a) Y c2 (f1.heap.length + 1) hsuffix2
        (fun x hx => getHash_total h f1 hinvS1 x
          (by rw [hL1split]; exact List.mem_append.2 (Or.inr hx)))
        (fun x hx hsx => hno1 x
          (by rw [hL1split]; exact List.mem_append.2 (Or.inr (List.mem_cons_of_mem c2 hx)))
          hsx)
        hYfuel
    rw [hnc2] at hscan2
    have hc3mem : c3 ∈ chainD f1 := by
      rw [hL1split]
      have hm : c3 ∈ c2 :: Y := by rw [hsplit2]; simp
      exact List.mem_append.2 (Or.inr hm)
    have hc3l : c3 < f1.heap.length :=
      chainFrom_mem_lt _ _ _ (chainOf_eq f1 hchne1) c3 hc3mem
    obtain ⟨kc3, hkc3⟩ : ∃ kc3, getHash h f1 c3 = some kc3 := by
      cases hx : getHash h f1 c3 with
      | none => exact absurd hx (getHash_total h f1 hinvS1 c3 hc3mem)
      | some k => exact ⟨k, rfl⟩
    have hkc3le : kc3 ≤ h a := by
      rcases hX2le c3 (by simp) with heqc | hle
      · rw [heqc] at hkc3
        rw [hkc] at hkc3
        have := Option.some.inj hkc3
        omega
      · rw [hkc3] at hle
        simp at hle
        omega
    have hL2split : chainD f1 = ((A ++ X) ++ X2) ++ c3 :: Y2 := by
      rw [hL1split, hsplit2]
      simp [List.append_assoc]
    have hPkeyFin : ∀ x ∈ ((A ++ X) ++ X2) ++ [c3], (getHash h f1 x).getD 0 ≤ h a := by
      intro x hx
      rcases List.mem_append.1 hx with hx1 | hx2
      · rcases List.mem_append.1 hx1 with hxAX | hxX2
        · rcases List.mem_append.1 hxAX with hxA | hxX
          · have hpw := chain_ordRel_pairwise h f1 _ hsort1
            rw [hAB] at hpw
            have hrel := (List.pairwise_append.1 hpw).2.2 x hxA c0 (by simp)
            have hlex := ordRel_le h f1 hrel
            rw [hc0hash] at hlex
            simp at hlex
            omega
          · rcases hXlt x (by simp [hxX]) with heqc | hlt
            · rw [heqc, hc0hash]
              simpa using hkeyle
            · omega
        · rcases hX2le x (by simp [hxX2]) with heqc | hle
          · rw [heqc, hkc]
            simpa using hc2le
          · exact hle
      · have hxc : x = c3 := by simpa using hx2
        rw [hxc, hkc3]
        simpa using hkc3le
    have hYgtFin : ∀ y ∈ Y2, h a < (getHash h f1 y).getD 0 := by
      intro y hy
      have hpw2 := chain_ordRel_pairwise h f1 _ hsort1
      rw [hL2split] at hpw2
      have h2 := (List.pairwise_append.1 hpw2).2.1
      have h3 := (List.pairwise_cons.1 h2).2
      obtain ⟨s2, Y2', hYe⟩ : ∃ s2 Y2', Y2 = s2 :: Y2' := by
        cases Y2 with
        | nil => exact absurd hy (List.not_mem_nil y)
        | cons a2 Y0 => exact ⟨a2, Y0, rfl⟩
      have hs2gt : h a < (getHash h f1 s2).getD 0 := hY2gt s2 (by simp [hYe])
      rw [hYe] at hy h3
      rcases List.mem_cons.1 hy with rfl | hy'
      · exact hs2gt
      · have h4 := (List.pairwise_cons.1 h3).1 y hy'
        have := ordRel_le h f1 h4
        omega
    obtain ⟨f3c, hf3c⟩ : ∃ f3c, f3c =
        writeNode { f1 with heap := f1.heap ++
            [(⟨Y2.head?, false, 0, some a⟩ : FibNode α)] }
          c3 { readNode f1 c3 with next := some f1.heap.length, marked := false } :=
      ⟨_, rfl⟩
    obtain ⟨f4c, hf4c⟩ : ∃ f4c, f4c = addALink f3c (some f1.heap.length) := ⟨_, rfl⟩
    obtain ⟨f5c, hf5c⟩ : ∃ f5c, f5c =
        { f4c with entries := (f4c.entries + 1) % 2 ^ 32 } := ⟨_, rfl⟩
    obtain ⟨hinv5, hmem5, htab5, hsz5, hord5, hmask5, hshift5, hent5, hemax5, hemin5,
        hres5, hlen5⟩ := get2_finish h f1 a ((A ++ X) ++ X2) Y2 c3 f3c f4c f5c hinv1
      hL2split hPkeyFin hYgtFin hno1 hf3c hf4c hf5c
    refine ⟨fib_node_to_user f1.heap.length, f5c, f1.heap.length, ?_, hinv5, hmem5,
      ?_, fun _ => rfl, hbuckpop f5c htab5 hmask5,
      hmask5.trans hout1.mask_eq, hsz5.trans hout1.size_eq,
      hord5.trans hout1.order_eq, hshift5.trans hout1.shift_eq,
      hemax5.trans hout1.emax_eq, hemin5.trans hout1.emin_eq,
      hres5.trans hout1.resizing_eq, ?_⟩
    · rw [hf5c, hf4c, hf3c]
      simp only [fib_get2, hg, hif1, hc0, hscan, hkc]
      rw [if_neg hnrestart]
      simp only [hscan2, hkc3]
      cases Y2 with
      | nil =>
        simp only [List.head?_nil] at hnc3 ⊢
        rw [if_pos hkc3le]
        rw [readNode_extend_new f1 (⟨none, false, 0, some a⟩ : FibNode α)]
        rw [if_pos ⟨(getNextAddress_writeNode_append f1 _ _ c3 hc3l).trans hnc3,
          (getFlag_writeNode_append f1 _ _ c3 hc3l).trans (hflags1 c3 hc3mem)⟩]
        rw [writeNode_append_last]
        rw [readNode_extend f1 _ c3 hc3l]
      | cons s2 Y2' =>
        simp only [List.head?_cons] at hnc3 ⊢
        have hs2mem : s2 ∈ chainD f1 := by
          rw [hL2split]
          simp
        obtain ⟨ks2, hks2⟩ : ∃ ks2, getHash h f1 s2 = some ks2 := by
          cases hx : getHash h f1 s2 with
          | none => exact absurd hx (getHash_total h f1 hinvS1 s2 hs2mem)
          | some k => exact ⟨k, rfl⟩
        have hks2gt : h a < ks2 := by
          have := hYgtFin s2 (by simp)
          rw [hks2] at this
          simpa using this
        simp only [hks2]
        rw [if_pos ⟨hkc3le, hks2gt⟩]
        rw [readNode_extend_new f1 (⟨none, false, 0, some a⟩ : FibNode α)]
        rw [if_pos ⟨(getNextAddress_writeNode_append f1 _ _ c3 hc3l).trans hnc3,
          (getFlag_writeNode_append f1 _ _ c3 hc3l).trans (hflags1 c3 hc3mem)⟩]
        rw [writeNode_append_last]
        rw [readNode_extend f1 _ c3 hc3l]
    · intro hp
      exact absurd (hpres_iff.2 hp) hpres
    · rw [hent5, hout1.entries_eq]
      exact Nat.mod_le _ _

/-- `getHash` congruence through the sentinel bit rather than the raw state
word: link-count updates change the state char but never the low bit. -/
theorem getHash_congr2 (h : α → Nat) (f f2 : Fib α) (c : Nat)
    (hs : getSentinel f2 c = getSentinel f c)
    (had : (readNode f2 c).addr = (readNode f c).addr)
    (hgs : getHashFromSentinel f2 c = getHashFromSentinel f c) :
    getHash h f2 c = getHash h f c := by
  unfold getHash
  rw [hs, had, hgs]

/-- `addALink` touches only the state char of the heap. -/
theorem addALink_fields (f : Fib α) (c : Option Nat) :
    (addALink f c).table = f.table ∧ (addALink f c).hash_size = f.hash_size ∧
    (addALink f c).hash_order = f.hash_order ∧
    (addALink f c).hash_mask = f.hash_mask ∧
    (addALink f c).hash_shift = f.hash_shift ∧
    (addALink f c).entries = f.entries ∧
    (addALink f c).entries_max = f.entries_max ∧
    (addALink f c).entries_min = f.entries_min ∧
    (addALink f c).resizing = f.resizing ∧
    (addALink f c).handovers = f.handovers := by
  cases c <;> exact ⟨rfl, rfl, rfl, rfl, rfl, rfl, rfl, rfl, rfl, rfl⟩

/-- The state produced by the successful unlink path of `fib_delete`: marking
the payload `e`, redirecting its predecessor `p` past it, adjusting the link
counts, enqueueing the node for deferred free and decrementing `entries`
removes the entry, restores the invariant and leaves the mark set on the
now-unreachable node. -/
theorem delete_finish (h : α → Nat) (f : Fib α) (a : α) (e p : Nat)
    (G1 B2 : List Nat) (f1 f2 f3 f4 f5 ff : Fib α)
    (hinv : Inv h f)
    (hLsplit : chainD f = G1 ++ p :: e :: B2)
    (he_sent : getSentinel f e = false)
    (he_addr : (readNode f e).addr = some a)
    (hf1 : f1 = writeNode f e { readNode f e with marked := true })
    (hf2 : f2 = writeNode f1 p
      { readNode f1 p with next := getNextAddress f1 e, marked := false })
    (hf3 : f3 = removeALink f2 (some e))
    (hf4 : f4 = addALink f3 (getNextAddress f3 e))
    (hf5 : f5 = { f4 with handovers := e :: f4.handovers })
    (hff : ff = { f5 with entries := (f5.entries + (2 ^ 32 - 1)) % 2 ^ 32 }) :
    Inv h ff ∧ (∀ e2, ¬ MemP ff a e2) ∧ getFlag ff e = true ∧
    ff.table = f.table ∧ ff.hash_size = f.hash_size ∧ ff.hash_order = f.hash_order ∧
    ff.hash_mask = f.hash_mask ∧ ff.hash_shift = f.hash_shift ∧
    ff.entries_max = f.entries_max ∧ ff.entries_min = f.entries_min ∧
    ff.resizing = f.resizing ∧ ff.heap.length = f.heap.length := by
  obtain ⟨hinvS, hflags⟩ := hinv
  have hinvS' := hinvS
  obtain ⟨hchne, hnd, htab0, hbuck, hsent, hpay, hsort, huniq, hsz, hmask, htlen,
    hres⟩ := hinvS'
  have hcheq := chainOf_eq f hchne
  have hLmem : ∀ x ∈ G1 ++ p :: e :: B2, x < f.heap.length := by
    intro x hx
    exact chainFrom_mem_lt _ _ _ hcheq x (by rw [hLsplit]; exact hx)
  have he_mem : e ∈ chainD f := by rw [hLsplit]; simp
  have hp_mem : p ∈ chainD f := by rw [hLsplit]; simp
  have he_l : e < f.heap.length := hLmem e (by simp)
  have hp_l : p < f.heap.length := hLmem p (by simp)
  have hnodL : (G1 ++ p :: e :: B2).Nodup := by rw [← hLsplit]; exact hnd
  have hndR : (p :: e :: B2).Nodup := (List.nodup_append.1 hnodL).2.1
  have hpeB : p ∉ e :: B2 := (List.nodup_cons.1 hndR).1
  have hpe : p ≠ e := fun hh => hpeB (by simp [hh])
  have he_nB2 : e ∉ B2 := (List.nodup_cons.1 ((List.nodup_cons.1 hndR).2)).1
  have he_nG1 : e ∉ G1 := by
    intro hh
    exact (List.nodup_append.1 hnodL).2.2 hh (by simp)
  have he_new : e ∉ G1 ++ p :: B2 := by
    intro hh
    rcases List.mem_append.1 hh with h1 | h2
    · exact he_nG1 h1
    · rcases List.mem_cons.1 h2 with h3 | h4
      · exact hpe h3.symm
      · exact he_nB2 h4
  have hnp : (readNode f p).next = some e := by
    have hch := hcheq
    rw [hLsplit] at hch
    have hsuff := chainFrom_suffix G1 _ _ p (e :: B2) hch
    obtain ⟨-, B0, hB0, hrec⟩ := chainFrom_cons_inv _ p _ hsuff
    have hB0e : B0 = e :: B2 := by simpa using hB0.symm
    rw [hB0e] at hrec
    exact (chainFrom_head _ _ _ hrec).symm
  have hne : (readNode f e).next = B2.head? := by
    have hch := hcheq
    have hL2 : chainD f = (G1 ++ [p]) ++ e :: B2 := by rw [hLsplit]; simp
    rw [hL2] at hch
    have hsuff := chainFrom_suffix (G1 ++ [p]) _ _ e B2 hch
    obtain ⟨-, B0, hB0, hrec⟩ := chainFrom_cons_inv _ e _ hsuff
    have hB0e : B0 = B2 := by simpa using hB0.symm
    rw [hB0e] at hrec
    exact (chainFrom_head _ _ _ hrec).symm
  have hr1self : readNode f1 e = { readNode f e with marked := true } := by
    rw [hf1]
    exact readNode_writeNode_self _ _ _ he_l
  have hr1ne : ∀ x, x ≠ e → readNode f1 x = readNode f x := by
    intro x hx
    rw [hf1]
    exact readNode_writeNode_ne _ _ _ _ (fun hh => hx hh.symm)
  have hlen1 : f1.heap.length = f.heap.length := by
    rw [hf1]
    unfold writeNode
    simp
  have hg1e : getNextAddress f1 e = (readNode f e).next := by
    unfold getNextAddress
    rw [hr1self]
  have hr2p : readNode f2 p =
      { readNode f p with next := (readNode f e).next, marked := false } := by
    rw [hf2]
    rw [readNode_writeNode_self _ _ _ (by rw [hlen1]; exact hp_l)]
    rw [hr1ne p hpe, hg1e]
  have hr2ne : ∀ x, x ≠ p → readNode f2 x = readNode f1 x := by
    intro x hx
    rw [hf2]
    exact readNode_writeNode_ne _ _ _ _ (fun hh => hx hh.symm)
  have hlen2 : f2.heap.length = f.heap.length := by
    rw [hf2]
    unfold writeNode
    simp [hlen1]
  have hr2e : readNode f2 e = { readNode f e with marked := true } := by
    rw [hr2ne e (fun hh => hpe hh.symm), hr1self]
  have hf3' : f3 = writeNode f2 e
      (⟨(readNode f e).next, true, ((readNode f e).state + (2 ^ 8 - 2)) % 2 ^ 8,
        (readNode f e).addr⟩ : FibNode α) := by
    rw [hf3]
    show writeNode f2 e
      { readNode f2 e with state := ((readNode f2 e).state + (2 ^ 8 - 2)) % 2 ^ 8 } = _
    rw [hr2e]
  have hr3e : readNode f3 e =
      (⟨(readNode f e).next, true, ((readNode f e).state + (2 ^ 8 - 2)) % 2 ^ 8,
        (readNode f e).addr⟩ : FibNode α) := by
    rw [hf3']
    exact readNode_writeNode_self _ _ _ (by rw [hlen2]; exact he_l)
  have hr3ne : ∀ x, x ≠ e → readNode f3 x = readNode f2 x := by
    intro x hx
    rw [hf3']
    exact readNode_writeNode_ne _ _ _ _ (fun hh => hx hh.symm)
  have hlen3 : f3.heap.length = f.heap.length := by
    rw [hf3']
    unfold writeNode
    simp [hlen2]
  have hg3e : getNextAddress f3 e = (readNode f e).next := by
    unfold getNextAddress
    rw [hr3e]
  have hpack : (∀ x, x ≠ e → x ≠ p → (readNode f4 x).next = (readNode f x).next ∧
      (readNode f4 x).addr = (readNode f x).addr ∧
      (readNode f4 x).marked = (readNode f x).marked ∧
      (readNode f4 x).state % 2 = (readNode f x).state % 2) ∧
      readNode f4 p =
        { readNode f p with next := (readNode f e).next, marked := false } ∧
      (readNode f4 e).marked = true ∧
      (readNode f4 e).next = (readNode f e).next ∧
      f4.heap.length = f.heap.length := by
    rcases hbs : (readNode f e).next with _ | s
    · have hf4id : f4 = f3 := by
        rw [hf4, hg3e, hbs]
        rfl
      refine ⟨?_, ?_, ?_, ?_, ?_⟩
      · intro x hxe hxp
        rw [hf4id, hr3ne x hxe, hr2ne x hxp, hr1ne x hxe]
        exact ⟨rfl, rfl, rfl, rfl⟩
      · rw [hf4id, hr3ne p hpe, hr2p, hbs]
      · rw [hf4id, hr3e]
      · rw [hf4id, hr3e, hbs]
      · rw [hf4id]
        exact hlen3
    · have hsB : B2.head? = some s := by rw [← hne]; exact hbs
      have hsB2 : s ∈ B2 := by
        cases B2 with
        | nil => simp at hsB
        | cons b0 t =>
          simp at hsB
          simp [← hsB]
      have hs_ne_e : s ≠ e := fun hh => he_nB2 (hh ▸ hsB2)
      have hs_ne_p : s ≠ p := by
        intro hh
        exact hpeB (by rw [← hh]; simp [hsB2])
      have hs_l : s < f.heap.length := hLmem s (by simp [hsB2])
      have hr3s : readNode f3 s = readNode f s := by
        rw [hr3ne s hs_ne_e, hr2ne s hs_ne_p, hr1ne s hs_ne_e]
      have hf4w : f4 = writeNode f3 s
          (⟨(readNode f s).next, (readNode f s).marked,
            ((readNode f s).state + 2) % 2 ^ 8, (readNode f s).addr⟩ : FibNode α) := by
        rw [hf4, hg3e, hbs]
        show writeNode f3 s
          { readNode f3 s with state := ((readNode f3 s).state + 2) % 2 ^ 8 } = _
        rw [hr3s]
      refine ⟨?_, ?_, ?_, ?_, ?_⟩
      · intro x hxe hxp
        by_cases hxs : x = s
        · rw [hxs, hf4w, readNode_writeNode_self _ _ _ (by rw [hlen3]; exact hs_l)]
          refine ⟨rfl, rfl, rfl, ?_⟩
          show ((readNode f s).state + 2) % 2 ^ 8 % 2 = (readNode f s).state % 2
          omega
        · rw [hf4w, readNode_writeNode_ne _ _ _ _ (fun hh => hxs hh.symm),
            hr3ne x hxe, hr2ne x hxp, hr1ne x hxe]
          exact ⟨rfl, rfl, rfl, rfl⟩
      · rw [hf4w, readNode_writeNode_ne _ _ _ _ hs_ne_p, hr3ne p hpe, hr2p, hbs]
      · rw [hf4w, readNode_writeNode_ne _ _ _ _ hs_ne_e, hr3e]
      · rw [hf4w, readNode_writeNode_ne _ _ _ _ hs_ne_e, hr3e, hbs]
      · rw [hf4w]
        unfold writeNode
        simp [hlen3]
  obtain ⟨hr4, hr4p, hr4em, hr4en, hlen4⟩ := hpack
  have htab4 : f4.table = f.table := by
    rw [hf4, (addALink_fields f3 _).1, hf3']
    show f2.table = f.table
    rw [hf2]
    show f1.table = f.table
    rw [hf1]
    rfl
  have hfields4 : f4.hash_size = f.hash_size ∧ f4.hash_order = f.hash_order ∧
      f4.hash_mask = f.hash_mask ∧ f4.hash_shift = f.hash_shift ∧
      f4.entries = f.entries ∧ f4.entries_max = f.entries_max ∧
      f4.entries_min = f.entries_min ∧ f4.resizing = f.resizing := by
    have ha := addALink_fields f3 (getNextAddress f3 e)
    rw [hf4]
    refine ⟨?_, ?_, ?_, ?_, ?_, ?_, ?_, ?_⟩ <;>
      first
        | (rw [ha.2.1, hf3']; rw [hf2]; rw [hf1]; rfl)
        | (rw [ha.2.2.1, hf3']; rw [hf2]; rw [hf1]; rfl)
        | (rw [ha.2.2.2.1, hf3']; rw [hf2]; rw [hf1]; rfl)
        | (rw [ha.2.2.2.2.1, hf3']; rw [hf2]; rw [hf1]; rfl)
        | (rw [ha.2.2.2.2.2.1, hf3']; rw [hf2]; rw [hf1]; rfl)
        | (rw [ha.2.2.2.2.2.2.1, hf3']; rw [hf2]; rw [hf1]; rfl)
        | (rw [ha.2.2.2.2.2.2.2.1, hf3']; rw [hf2]; rw [hf1]; rfl)
        | (rw [ha.2.2.2.2.2.2.2.2.1, hf3']; rw [hf2]; rw [hf1]; rfl)
  have hrff : ∀ x, readNode ff x = readNode f4 x := by
    intro x
    unfold readNode
    rw [hff, hf5]
  have htabff : ff.table = f.table := by
    rw [hff, hf5]
    exact htab4
  have hlenff : ff.heap.length = f.heap.length := by
    have : ff.heap = f4.heap := by rw [hff, hf5]
    rw [this]
    exact hlen4
  have hszff : ff.hash_size = f.hash_size := by rw [hff, hf5]; exact hfields4.1
  have hordff : ff.hash_order = f.hash_order := by rw [hff, hf5]; exact hfields4.2.1
  have hmaskff : ff.hash_mask = f.hash_mask := by rw [hff, hf5]; exact hfields4.2.2.1
  have hshiftff : ff.hash_shift = f.hash_shift := by
    rw [hff, hf5]
    exact hfields4.2.2.2.1
  have hemaxff : ff.entries_max = f.entries_max := by
    rw [hff, hf5]
    exact hfields4.2.2.2.2.2.1
  have heminff : ff.entries_min = f.entries_min := by
    rw [hff, hf5]
    exact hfields4.2.2.2.2.2.2.1
  have hresff : ff.resizing = f.resizing := by
    rw [hff, hf5]
    exact hfields4.2.2.2.2.2.2.2
  have hchainff : chainOf ff = some (G1 ++ p :: B2) := by
    have herase := @chain_erase_aux _ f.heap ff.heap p e
      (by rw [hlenff])
      (by
        intro x hxl hxp
        by_cases hxe : x = e
        · rw [hxe]
          show (readNode ff e).next = (readNode f e).next
          rw [hrff]
          exact hr4en
        · show (readNode ff x).next = (readNode f x).next
          rw [hrff]
          exact (hr4 x hxe hxp).1)
      (by
        show (readNode ff p).next = (readNode f e).next
        rw [hrff, hr4p])
      G1 (f.table.getD 0 none) (f.heap.length + 1) B2
      (by
        have hch := hcheq
        rw [hLsplit] at hch
        exact hch)
      hnodL
    unfold chainOf
    rw [show ff.table.getD 0 none = f.table.getD 0 none from by rw [htabff], hlenff]
    exact herase
  have hchDff : chainD ff = G1 ++ p :: B2 := by
    unfold chainD
    rw [hchainff]
    rfl
  have hmem_keep : ∀ x, x ∈ G1 ++ p :: e :: B2 → x ≠ e → x ∈ G1 ++ p :: B2 := by
    intro x hx hxe
    rcases List.mem_append.1 hx with h1 | h2
    · exact List.mem_append.2 (Or.inl h1)
    · rcases List.mem_cons.1 h2 with h3 | h4
      · simp [h3]
      · rcases List.mem_cons.1 h4 with h5 | h6
        · exact absurd h5 hxe
        · simp [h6]
  have hmem_back : ∀ x, x ∈ G1 ++ p :: B2 → x ∈ G1 ++ p :: e :: B2 := by
    intro x hx
    rcases List.mem_append.1 hx with h1 | h2
    · exact List.mem_append.2 (Or.inl h1)
    · rcases List.mem_cons.1 h2 with h3 | h4
      · simp [h3]
      · simp [h4]
  have hxe_of_new : ∀ x, x ∈ G1 ++ p :: B2 → x ≠ e := by
    intro x hx hxe
    exact he_new (hxe ▸ hx)
  have hstate_par : ∀ x, x ≠ e → (readNode ff x).state % 2 = (readNode f x).state % 2 := by
    intro x hxe
    rw [hrff]
    by_cases hxp : x = p
    · rw [hxp, hr4p]
    · exact (hr4 x hxe hxp).2.2.2
  have haddrff : ∀ x, x ≠ e → (readNode ff x).addr = (readNode f x).addr := by
    intro x hxe
    rw [hrff]
    by_cases hxp : x = p
    · rw [hxp, hr4p]
    · exact (hr4 x hxe hxp).2.1
  have hsentff : ∀ x, x ≠ e → getSentinel ff x = getSentinel f x := by
    intro x hxe
    unfold getSentinel
    rw [hstate_par x hxe]
  have hgHFSff : ∀ s, getHashFromSentinel ff s = getHashFromSentinel f s := by
    intro s
    exact getHashFromSentinel_congr f ff hszff htabff s
  have hhashff : ∀ x, x ≠ e → getHash h ff x = getHash h f x := by
    intro x hxe
    exact getHash_congr2 h f ff x (hsentff x hxe) (haddrff x hxe) (hgHFSff x)
  have hflagff : ∀ x, x ≠ e → x ≠ p → getFlag ff x = getFlag f x := by
    intro x hxe hxp
    unfold getFlag
    rw [hrff]
    rw [(hr4 x hxe hxp).2.2.1]
  have hflagffp : getFlag ff p = false := by
    unfold getFlag
    rw [hrff, hr4p]
  have hsub : (G1 ++ p :: B2).Sublist (G1 ++ p :: e :: B2) :=
    List.Sublist.append (List.Sublist.refl G1)
      (List.Sublist.cons₂ p (List.sublist_cons_self e B2))
  haveI : IsTrans Nat (ordRel h ff) := ⟨fun a b c hab hbc => ordRel_trans h ff hab hbc⟩
  have hpwold : (G1 ++ p :: e :: B2).Pairwise (ordRel h f) := by
    have := chain_ordRel_pairwise h f _ hsort
    rw [hLsplit] at this
    exact this
  have hpwnew : (G1 ++ p :: B2).Pairwise (ordRel h ff) := by
    have h1 : (G1 ++ p :: B2).Pairwise (ordRel h f) := hpwold.sublist hsub
    refine h1.imp_of_mem ?_
    intro x y hx hy hr
    exact (ordRel_congr h f ff x y (hhashff x (hxe_of_new x hx))
      (hhashff y (hxe_of_new y hy)) (hsentff y (hxe_of_new y hy))).2 hr
  have huniqold : (G1 ++ p :: e :: B2).Pairwise (fun x y => getSentinel f x = false →
      getSentinel f y = false → (readNode f x).addr ≠ (readNode f y).addr) := by
    rw [← hLsplit]
    exact huniq
  have huniqnew : (G1 ++ p :: B2).Pairwise (fun x y => getSentinel ff x = false →
      getSentinel ff y = false → (readNode ff x).addr ≠ (readNode ff y).addr) := by
    have h1 := huniqold.sublist hsub
    refine h1.imp_of_mem ?_
    intro x y hx hy hr hsx hsy
    rw [haddrff x (hxe_of_new x hx), haddrff y (hxe_of_new y hy)]
    exact hr (by rw [← hsentff x (hxe_of_new x hx)]; exact hsx)
      (by rw [← hsentff y (hxe_of_new y hy)]; exact hsy)
  have hinvff : InvS h ff := by
    refine ⟨?_, ?_, ?_, ?_, ?_, ?_, ?_, ?_, ?_, ?_, ?_, ?_⟩
    · rw [hchainff]
      simp
    · rw [hchDff]
      exact hnodL.sublist hsub
    · rw [htabff]
      exact htab0
    · intro b hb s hsget
      rw [htabff] at hsget
      have hb1 : b < f.hash_size := by rw [← hszff]; exact hb
      obtain ⟨hmem1, hsent1, hfirst1⟩ := hbuck b hb1 s hsget
      have hse : s ≠ e := by
        intro hh
        rw [hh, he_sent] at hsent1
        exact absurd hsent1 (by simp)
      have hmem1' : s ∈ G1 ++ p :: e :: B2 := by rw [← hLsplit]; exact hmem1
      refine ⟨by rw [hchDff]; exact hmem_keep s hmem1' hse, ?_, ?_⟩
      · rw [hsentff s hse]
        exact hsent1
      · rw [hgHFSff s]
        exact hfirst1
    · intro c hc hcs
      rw [hchDff] at hc
      have hce := hxe_of_new c hc
      rw [hgHFSff c]
      apply hsent c (by rw [hLsplit]; exact hmem_back c hc)
      rw [← hsentff c hce]
      exact hcs
    · intro c hc hcs
      rw [hchDff] at hc
      have hce := hxe_of_new c hc
      rw [haddrff c hce]
      apply hpay c (by rw [hLsplit]; exact hmem_back c hc)
      rw [← hsentff c hce]
      exact hcs
    · rw [hchDff]
      exact List.chain'_iff_pairwise.2 hpwnew
    · rw [hchDff]
      exact huniqnew
    · rw [hszff, hordff]
      exact hsz
    · rw [hmaskff, hszff]
      exact hmask
    · rw [htabff, hszff]
      exact htlen
    · rw [hresff]
      exact hres
  have hflagsff : ∀ c ∈ chainD ff, getFlag ff c = false := by
    intro c hc
    rw [hchDff] at hc
    by_cases hcp : c = p
    · rw [hcp]
      exact hflagffp
    · rw [hflagff c (hxe_of_new c hc) hcp]
      exact hflags c (by rw [hLsplit]; exact hmem_back c hc)
  have habsent : ∀ e2, ¬ MemP ff a e2 := by
    intro e2 he2
    obtain ⟨he2m, he2s, he2a⟩ := (he2 : e2 ∈ chainD ff ∧ getSentinel ff e2 = false ∧
      (readNode ff e2).addr = some a)
    rw [hchDff] at he2m
    have he2e := hxe_of_new e2 he2m
    have he2sf : getSentinel f e2 = false := by
      rw [← hsentff e2 he2e]
      exact he2s
    have he2af : (readNode f e2).addr = some a := by
      rw [← haddrff e2 he2e]
      exact he2a
    have hsym : Symmetric (fun x y : Nat => getSentinel f x = false →
        getSentinel f y = false → (readNode f x).addr ≠ (readNode f y).addr) := by
      intro x y hr hsy hsx hae
      exact hr hsx hsy hae.symm
    have hpair := huniqold.forall hsym (hmem_back e2 he2m) (by simp : e ∈ G1 ++ p :: e :: B2)
      he2e
    have := hpair he2sf he_sent
    rw [he2af, he_addr] at this
    exact this rfl
  have hflagffe : getFlag ff e = true := by
    unfold getFlag
    rw [hrff]
    exact hr4em
  exact ⟨⟨hinvff, hflagsff⟩, habsent, hflagffe, htabff, hszff, hordff, hmaskff,
    hshiftff, hemaxff, heminff, hresff, hlenff⟩

/-- User pointer / node pointer round trip. -/
theorem user_to_node_to_user (e : Nat) :
    fib_user_to_node (fib_node_to_user e) = e := by
  unfold fib_user_to_node fib_node_to_user
  omega

/-- `fib_delete` on the null entry returns 0 and leaves the table alone. -/
theorem delete_null (h : α → Nat) (f : Fib α) (fuel : Nat) :
    fib_delete h fuel f 0 = .ok false f := by
  unfold fib_delete
  rw [if_pos rfl]

/-- `fib_delete` on an already-marked node: the fetch-or observes the set bit
and the call returns 0 without touching the list. -/
theorem delete_marked (h : α → Nat) (f : Fib α) (e : Nat) (fuel : Nat)
    (hfl : getFlag f e = true) :
    fib_delete h fuel f (fib_node_to_user e) =
      .ok false (writeNode f e { readNode f e with marked := true }) := by
  have hEne : fib_node_to_user e ≠ 0 := by unfold fib_node_to_user; omega
  simp only [fib_delete, user_to_node_to_user]
  rw [if_neg hEne, if_pos hfl]

/-- `fib_delete` on a present, unmarked entry: the call succeeds, removes the
entry, marks the unlinked node, and preserves the invariant and the sizing
fields. -/
theorem delete_spec (h : α → Nat) (f : Fib α) (a : α) (e : Nat) (fuel : Nat)
    (hinv : Inv h f) (hmem : MemP f a e)
    (hbp : f.table.getD (bucketOfHash f (h a)) none ≠ none) :
    ∃ f1, fib_delete h (fuel + 1) f (fib_node_to_user e) = .ok true f1 ∧
      Inv h f1 ∧ (∀ e2, ¬ MemP f1 a e2) ∧ getFlag f1 e = true ∧
      f1.table = f.table ∧ f1.hash_size = f.hash_size ∧
      f1.hash_order = f.hash_order ∧ f1.hash_mask = f.hash_mask ∧
      f1.entries_max = f.entries_max ∧ f1.entries_min = f.entries_min ∧
      f1.heap.length = f.heap.length := by
  have hinvc := hinv
  obtain ⟨hinvS, hflags⟩ := hinv
  have hinvS' := hinvS
  obtain ⟨hchne, hnd, htab0, hbuck, hsent, hpay, hsort, huniq, hsz, hmask, htlen,
    hres⟩ := hinvS'
  obtain ⟨he_mem, he_sent, he_addr⟩ := (hmem : e ∈ chainD f ∧ getSentinel f e = false ∧
    (readNode f e).addr = some a)
  have hcheq := chainOf_eq f hchne
  have he_l : e < f.heap.length := chainFrom_mem_lt _ _ _ hcheq e he_mem
  have he_hash : getHash h f e = some (h a) := getHash_payload h f e a he_sent he_addr
  have hEne : fib_node_to_user e ≠ 0 := by unfold fib_node_to_user; omega
  have hwas : getFlag f e = false := hflags e he_mem
  have hwasne : ¬ (getFlag f e = true) := by rw [hwas]; simp
  have hszpos : 0 < f.hash_size := by
    rw [hsz]
    exact Nat.pos_pow_of_pos _ (by omega)
  have hbl : bucketOfHash f (h a) < f.hash_size := bucketOfHash_lt f (h a) hmask hszpos
  obtain ⟨c0, hc0f⟩ : ∃ c0, f.table.getD (bucketOfHash f (h a)) none = some c0 := by
    cases hx : f.table.getD (bucketOfHash f (h a)) none with
    | none => exact absurd hx hbp
    | some c => exact ⟨c, rfl⟩
  obtain ⟨hc0mem, hc0sent, hc0first⟩ := hbuck _ hbl c0 hc0f
  have hc0hash : getHash h f c0 = some (reverseBits (bucketOfHash f (h a))) :=
    getHash_bucket_sentinel h f hinvS _ c0 hbl hc0f
  have hkeyle : reverseBits (bucketOfHash f (h a)) ≤ h a := sentinelKey_le (h a) f.hash_mask
  obtain ⟨Afull, M, hAM, heM⟩ := sentinel_before h f hinvS e c0 he_mem hc0mem he_sent
    hc0sent (by rw [hc0hash, he_hash]; simpa using hkeyle)
  obtain ⟨M1, B2, hM⟩ := List.append_of_mem heM
  have hA0ne : (c0 :: M1) ≠ [] := by simp
  have hsplit_c0M : c0 :: M = ((c0 :: M1).dropLast ++ [(c0 :: M1).getLast hA0ne]) ++
      e :: B2 := by
    rw [List.dropLast_append_getLast hA0ne, hM]
    simp
  have hglobal : chainD f =
      (Afull ++ (c0 :: M1).dropLast) ++ ((c0 :: M1).getLast hA0ne) :: e :: B2 := by
    rw [hAM, hsplit_c0M]
    simp
  have hndc0M : ((c0 :: M1).dropLast ++ ((c0 :: M1).getLast hA0ne) :: e :: B2).Nodup := by
    have h1 : (c0 :: M).Nodup := by
      have := hnd
      rw [hAM] at this
      exact (List.nodup_append.1 this).2.1
    rw [hsplit_c0M] at h1
    simpa using h1
  have hA2key : ∀ x ∈ (c0 :: M1).dropLast, (getHash h f x).getD 0 ≤ h a := by
    intro x hx
    have hpw := chain_ordRel_pairwise h f _ hsort
    rw [hglobal] at hpw
    have hrel := (List.pairwise_append.1 hpw).2.2 x
      (List.mem_append.2 (Or.inr hx)) e (by simp)
    have := ordRel_le h f hrel
    rw [he_hash] at this
    simpa using this
  obtain ⟨f1c, hf1c⟩ : ∃ f1c, f1c = writeNode f e { readNode f e with marked := true } :=
    ⟨_, rfl⟩
  have hr1self : readNode f1c e = { readNode f e with marked := true } := by
    rw [hf1c]
    exact readNode_writeNode_self _ _ _ he_l
  have hr1ne : ∀ x, x ≠ e → readNode f1c x = readNode f x := by
    intro x hx
    rw [hf1c]
    exact readNode_writeNode_ne _ _ _ _ (fun hh => hx hh.symm)
  have hlen1 : f1c.heap.length = f.heap.length := by
    rw [hf1c]
    unfold writeNode
    simp
  have htab1 : f1c.table = f.table := by rw [hf1c]; rfl
  have hm1 : f1c.hash_mask = f.hash_mask := by rw [hf1c]; rfl
  have hsz1 : f1c.hash_size = f.hash_size := by rw [hf1c]; rfl
  have hgHFS1 : ∀ s, getHashFromSentinel f1c s = getHashFromSentinel f s := by
    intro s
    exact getHashFromSentinel_congr f f1c hsz1 htab1 s
  have hhash1e : getHash h f1c e = some (h a) := by
    have hs1 : getSentinel f1c e = false := by
      unfold getSentinel
      rw [hr1self]
      exact he_sent
    have ha1 : (readNode f1c e).addr = some a := by
      rw [hr1self]
      exact he_addr
    exact getHash_payload h f1c e a hs1 ha1
  have hhash1all : ∀ x, getHash h f1c x = getHash h f x := by
    intro x
    by_cases hxe : x = e
    · rw [hxe, hhash1e, he_hash]
    · exact getHash_congr h f f1c x (by rw [hr1ne x hxe]) (by rw [hr1ne x hxe])
        (hgHFS1 x)
  have hsuffix0 : chainFrom f.heap (M.length + 2) (some c0) = some (c0 :: M) := by
    have hch := hcheq
    rw [hAM] at hch
    exact chainFrom_suffix Afull _ _ c0 M hch
  have hsuffix1 : chainFrom f.heap
      ((((c0 :: M1).dropLast ++ ((c0 :: M1).getLast hA0ne) :: e :: B2).length) + 1)
      (some c0) =
      some ((c0 :: M1).dropLast ++ ((c0 :: M1).getLast hA0ne) :: e :: B2) := by
    have h1 := chainFrom_min _ _ _ hsuffix0
    rw [hsplit_c0M] at h1
    have h2 := chainFrom_min _ _ _ h1
    simpa using h2
  have hmemc0M : ∀ x ∈ (c0 :: M1).dropLast ++ ((c0 :: M1).getLast hA0ne) :: e :: B2,
      x ∈ chainD f := by
    intro x hx
    rw [hglobal]
    rcases List.mem_append.1 hx with h1 | h2
    · exact List.mem_append.2 (Or.inl (List.mem_append.2 (Or.inr h1)))
    · exact List.mem_append.2 (Or.inr h2)
  have hsuffix1c : chainFrom f1c.heap
      ((((c0 :: M1).dropLast ++ ((c0 :: M1).getLast hA0ne) :: e :: B2).length) + 1)
      (some c0) =
      some ((c0 :: M1).dropLast ++ ((c0 :: M1).getLast hA0ne) :: e :: B2) := by
    apply chainFrom_congr _ _ _ hsuffix1
    intro x hx
    have hxl : x < f.heap.length := chainFrom_mem_lt _ _ _ hcheq x (hmemc0M x hx)
    refine ⟨by rw [hlen1]; exact hxl, ?_⟩
    by_cases hxe : x = e
    · rw [hxe]
      show (readNode f1c e).next = (readNode f e).next
      rw [hr1self]
    · show (readNode f1c x).next = (readNode f x).next
      rw [hr1ne x hxe]
  have hA2len : ((c0 :: M1).dropLast).length < f1c.heap.length + 1 := by
    have hchlen : (chainD f).length ≤ f.heap.length :=
      nodup_length_le _ _ hnd (fun c hcm => chainFrom_mem_lt _ _ _ hcheq c hcm)
    rw [hglobal] at hchlen
    simp at hchlen
    rw [hlen1]
    simp
    omega
  have hds := delScan_spec h f1c (h a) e ((c0 :: M1).dropLast) c0
    (f1c.heap.length + 1) ((c0 :: M1).getLast hA0ne) B2 hsuffix1c
    (fun x hx => by
      rw [hhash1all x]
      exact getHash_total h f hinvS x (hmemc0M x hx))
    (fun x hx => by
      rw [hhash1all x]
      exact hA2key x hx)
    hndc0M hA2len
  have hpe : (c0 :: M1).getLast hA0ne ≠ e := by
    intro hh
    have := hndc0M
    have h2 : (((c0 :: M1).getLast hA0ne) :: e :: B2).Nodup :=
      (List.nodup_append.1 hndc0M).2.1
    have h3 := (List.nodup_cons.1 h2).1
    exact h3 (by simp [hh])
  have hp_mem : (c0 :: M1).getLast hA0ne ∈ chainD f := by
    rw [hglobal]
    simp
  have hfp : getFlag f1c ((c0 :: M1).getLast hA0ne) = false := by
    unfold getFlag
    rw [hr1ne _ hpe]
    exact hflags _ hp_mem
  obtain ⟨f2c, hf2c⟩ : ∃ f2c, f2c = writeNode f1c ((c0 :: M1).getLast hA0ne)
      { readNode f1c ((c0 :: M1).getLast hA0ne) with
        next := getNextAddress f1c e, marked := false } := ⟨_, rfl⟩
  obtain ⟨f3c, hf3c⟩ : ∃ f3c, f3c = removeALink f2c (some e) := ⟨_, rfl⟩
  obtain ⟨f4c, hf4c⟩ : ∃ f4c, f4c = addALink f3c (getNextAddress f3c e) := ⟨_, rfl⟩
  obtain ⟨f5c, hf5c⟩ : ∃ f5c, f5c = { f4c with handovers := e :: f4c.handovers } :=
    ⟨_, rfl⟩
  obtain ⟨ffc, hffc⟩ : ∃ ffc, ffc =
      { f5c with entries := (f5c.entries + (2 ^ 32 - 1)) % 2 ^ 32 } := ⟨_, rfl⟩
  obtain ⟨hinvf, habs, hflagf, htabf, hszf, hordf, hmaskf, hshiftf, hemaxf, heminf,
      hresf, hlenf⟩ := delete_finish h f a e ((c0 :: M1).getLast hA0ne)
    (Afull ++ (c0 :: M1).dropLast) B2 f1c f2c f3c f4c f5c ffc hinvc hglobal he_sent
    he_addr hf1c hf2c hf3c hf4c hf5c hffc
  refine ⟨ffc, ?_, hinvf, habs, hflagf, htabf, hszf, hordf, hmaskf, hemaxf, heminf,
    hlenf⟩
  have hbp' : ¬ (f.table.getD (reverseBits (h a) &&& f.hash_mask) none = none) := hbp
  have hc0f' : f.table.getD (reverseBits (h a) &&& f.hash_mask) none = some c0 := hc0f
  simp only [fib_delete, user_to_node_to_user]
  rw [if_neg hEne, if_neg hwasne, ← hf1c]
  simp only [hhash1e, fib_deleteGo, hm1, htab1]
  rw [if_neg hbp']
  simp only [htab1, hc0f', hds.1]
  rw [if_pos hds.2, if_pos hfp]
  rw [hffc, hf5c, hf4c, hf3c, hf2c]

/-- `fib_rehash` never touches `entries_min`, `entries`, the deferred-free
queue or the heap. -/
theorem rehash_fields (f : Fib α) :
    (fib_rehash f).entries_min = f.entries_min ∧
    (fib_rehash f).entries = f.entries ∧ (fib_rehash f).handovers = f.handovers ∧
    (fib_rehash f).heap = f.heap := by
  unfold fib_rehash
  split <;> exact ⟨rfl, rfl, rfl, rfl⟩

/-- `fib_insert2` preserves `entries_min` on every path. -/
theorem insert2_emin (h : α → Nat) :
    ∀ (fuel : Nat) (cache : Option Nat) (f : Fib α) (bucket : Nat) (f2 : Fib α),
      fib_insert2 h fuel cache f bucket = some f2 → f2.entries_min = f.entries_min
  | 0, _, _, _, _, hres => by simp [fib_insert2] at hres
  | fuel + 1, cache, f, bucket, f2, hres => by
    simp only [fib_insert2] at hres
    obtain ⟨f', hf', hfe⟩ : ∃ f',
        (if f.entries ≥ f.entries_max then fib_rehash f else f) = f' ∧
        f'.entries_min = f.entries_min :=
      ⟨_, rfl, by split; exacts [(rehash_fields f).1, rfl]⟩
    rw [hf'] at hres
    cases hif : (if f'.table.getD (getParent bucket f'.hash_size) none = none then
        fib_insert2 h fuel none f' (getParent bucket f'.hash_size) else some f') with
    | none =>
      simp only [hif] at hres
      exact Option.noConfusion hres
    | some fb =>
      have hfe2 : fb.entries_min = f.entries_min := by
        by_cases hc : f'.table.getD (getParent bucket f'.hash_size) none = none
        · rw [if_pos hc] at hif
          exact (insert2_emin h fuel none f' _ fb hif).trans hfe
        · rw [if_neg hc] at hif
          have h2 : f' = fb := by simpa using hif
          rw [← h2]
          exact hfe
      simp only [hif] at hres
      repeat' split at hres
      all_goals first
        | exact Option.noConfusion hres
        | exact (insert2_emin h fuel _ _ bucket f2 hres).trans hfe2
        | (rw [← Option.some.inj hres]; exact hfe2)

/-- `fib_find` preserves `entries_min` on every path. -/
theorem find_emin (h : α → Nat) [DecidableEq α] (a : α) :
    ∀ (fuel : Nat) (f : Fib α) (r : Option Nat) (f2 : Fib α),
      fib_find h a fuel f = some (r, f2) → f2.entries_min = f.entries_min
  | 0, f, r, f2, hres => by simp [fib_find] at hres
  | fuel + 1, f, r, f2, hres => by
    simp only [fib_find] at hres
    cases hif : (if f.table.getD (bucketOfHash f (h a)) none = none then
        fib_insert2 h (bucketOfHash f (h a) + 1) none f (bucketOfHash f (h a))
        else some f) with
    | none =>
      simp only [hif] at hres
      exact Option.noConfusion hres
    | some fb =>
      have hfe2 : fb.entries_min = f.entries_min := by
        by_cases hc : f.table.getD (bucketOfHash f (h a)) none = none
        · rw [if_pos hc] at hif
          exact insert2_emin h _ none f _ fb hif
        · rw [if_neg hc] at hif
          have h2 : f = fb := by simpa using hif
          rw [← h2]
      simp only [hif] at hres
      repeat' split at hres
      all_goals first
        | exact Option.noConfusion hres
        | exact (find_emin h a fuel _ _ f2 hres).trans hfe2
        | (have h3 : _ = f2 := congrArg Prod.snd (Option.some.inj hres)
           rw [← h3]
           exact hfe2)

/-- `fib_get2` preserves `entries_min` on every path. -/
theorem get2_emin (h : α → Nat) [DecidableEq α] (a : α) :
    ∀ (fuel : Nat) (cache : Option Nat) (f : Fib α) (r : Nat) (f2 : Fib α),
      fib_get2 h a fuel cache f = some (r, f2) → f2.entries_min = f.entries_min
  | 0, _, f, r, f2, hres => by simp [fib_get2] at hres
  | fuel + 1, cache, f, r, f2, hres => by
    simp only [fib_get2] at hres
    obtain ⟨f', hf', hfe⟩ : ∃ f',
        (if f.entries ≥ f.entries_max then fib_rehash f else f) = f' ∧
        f'.entries_min = f.entries_min :=
      ⟨_, rfl, by split; exacts [(rehash_fields f).1, rfl]⟩
    rw [hf'] at hres
    cases hif : (if f'.table.getD (bucketOfHash f' (h a)) none = none then
        fib_insert2 h (bucketOfHash f' (h a) + 1) none f' (bucketOfHash f' (h a))
        else some f') with
    | none =>
      simp only [hif] at hres
      exact Option.noConfusion hres
    | some fb =>
      have hfe2 : fb.entries_min = f.entries_min := by
        by_cases hc : f'.table.getD (bucketOfHash f' (h a)) none = none
        · rw [if_pos hc] at hif
          exact (insert2_emin h _ none f' _ fb hif).trans hfe
        · rw [if_neg hc] at hif
          have h2 : f' = fb := by simpa using hif
          rw [← h2]
          exact hfe
      simp only [hif] at hres
      repeat' split at hres
      all_goals first
        | exact Option.noConfusion hres
        | exact (get2_emin h a fuel _ _ r f2 hres).trans hfe2
        | (have h3 : _ = f2 := congrArg Prod.snd (Option.some.inj hres)
           rw [← h3]
           exact hfe2)
        | (cases cache <;>
            first
              | exact (get2_emin h a fuel _ _ r f2 hres).trans hfe2
              | (have h3 : _ = f2 := congrArg Prod.snd (Option.some.inj hres)
                 rw [← h3]
                 rw [(addALink_fields _ _).2.2.2.2.2.2.2.1]
                 exact hfe2))

/-- The unlink loop of `fib_delete` preserves `entries_min` on every path. -/
theorem deleteGo_emin (h : α → Nat) (n key hash : Nat) :
    ∀ (fuel : Nat) (f : Fib α) (b : Bool) (f2 : Fib α),
      fib_deleteGo h n key hash fuel f = .ok b f2 → f2.entries_min = f.entries_min
  | 0, f, b, f2, hres => by simp [fib_deleteGo] at hres
  | fuel + 1, f, b, f2, hres => by
    simp only [fib_deleteGo] at hres
    cases hif : (if f.table.getD (hash &&& f.hash_mask) none = none then
        fib_insert2 h ((hash &&& f.hash_mask) + 1) none f (hash &&& f.hash_mask)
        else some f) with
    | none =>
      simp only [hif] at hres
      exact DeleteRes.noConfusion hres
    | some fb =>
      have hfe2 : fb.entries_min = f.entries_min := by
        by_cases hc : f.table.getD (hash &&& f.hash_mask) none = none
        · rw [if_pos hc] at hif
          exact insert2_emin h _ none f _ fb hif
        · rw [if_neg hc] at hif
          have h2 : f = fb := by simpa using hif
          rw [← h2]
      simp only [hif] at hres
      repeat' split at hres
      all_goals first
        | exact DeleteRes.noConfusion hres
        | exact (deleteGo_emin h n key hash fuel _ b f2 hres).trans hfe2
        | (cases hres
           rw [(addALink_fields _ _).2.2.2.2.2.2.2.1]
           exact hfe2)

/-- `fib_delete` preserves `entries_min` on every path that returns. -/
theorem delete_emin (h : α → Nat) (fuel : Nat) (f : Fib α) (E : Nat) (b : Bool)
    (f2 : Fib α) (hres : fib_delete h fuel f E = .ok b f2) :
    f2.entries_min = f.entries_min := by
  simp only [fib_delete] at hres
  repeat' split at hres
  all_goals first
    | (cases hres; rfl)
    | exact DeleteRes.noConfusion hres
    | exact (deleteGo_emin h _ _ _ fuel _ b f2 hres).trans (by rfl)

/-- `fib_get` preserves `entries_min`. -/
theorem get_emin (h : α → Nat) [DecidableEq α] (a : α) (fuel : Nat) (f : Fib α)
    (r : Nat) (f2 : Fib α) (hres : fib_get h a fuel f = some (r, f2)) :
    f2.entries_min = f.entries_min := by
  unfold fib_get at hres
  cases hg : fib_get2 h a fuel none f with
  | none =>
    rw [hg] at hres
    exact Option.noConfusion hres
  | some p =>
    rw [hg] at hres
    obtain ⟨r2, f2'⟩ := p
    have h3 : f2' = f2 := congrArg Prod.snd (Option.some.inj hres)
    rw [← h3]
    exact get2_emin h a fuel none f r2 f2' hg

/-- The longest-prefix-match loop preserves `entries_min`. -/
theorem route_ip4_emin (h : IP4 → Nat) (fuel : Nat) :
    ∀ (pxlen pfx : Nat) (f : Fib IP4) (r : Option Nat) (f2 : Fib IP4),
      fib_route_ip4 h fuel pfx pxlen f = some (r, f2) → f2.entries_min = f.entries_min
  | 0, pfx, f, r, f2, hres => by
    rw [fib_route_ip4] at hres
    cases hf : fib_find h ⟨pfx, 0⟩ fuel f with
    | none =>
      rw [hf] at hres
      exact Option.noConfusion hres
    | some pr =>
      obtain ⟨r', f'⟩ := pr
      have hfe := find_emin h _ fuel f r' f' hf
      rw [hf] at hres
      cases r' with
      | none =>
        have h3 : _ = f2 := congrArg Prod.snd (Option.some.inj hres)
        rw [← h3]
        exact hfe
      | some rv =>
        have h3 : _ = f2 := congrArg Prod.snd (Option.some.inj hres)
        rw [← h3]
        exact hfe
  | px + 1, pfx, f, r, f2, hres => by
    rw [fib_route_ip4] at hres
    cases hf : fib_find h ⟨pfx, px + 1⟩ fuel f with
    | none =>
      rw [hf] at hres
      exact Option.noConfusion hres
    | some pr =>
      obtain ⟨r', f'⟩ := pr
      have hfe := find_emin h _ fuel f r' f' hf
      rw [hf] at hres
      cases r' with
      | none =>
        exact (route_ip4_emin h fuel px _ f' r f2 hres).trans hfe
      | some rv =>
        have h3 : _ = f2 := congrArg Prod.snd (Option.some.inj hres)
        rw [← h3]
        exact hfe

/-- `fib_route` preserves `entries_min`. -/
theorem route_emin (h : IP4 → Nat) (fuel : Nat) (f : Fib IP4) (n : IP4)
    (r : Option Nat) (f2 : Fib IP4) (hres : fib_route h fuel f n = some (r, f2)) :
    f2.entries_min = f.entries_min :=
  route_ip4_emin h fuel n.pxlen n.pfx f r f2 hres

/-! ### Helper lemmas for the claim theorems -/

theorem two_mul_lor_one (m : Nat) : 2 * m ||| 1 = 2 * m + 1 := by
  apply Nat.eq_of_testBit_eq
  intro i
  cases i with
  | zero => simp [Nat.testBit_zero, Nat.mul_add_mod]
  | succ j =>
    rw [Nat.testBit_lor, Nat.testBit_succ, Nat.testBit_succ, Nat.testBit_succ]
    have h1 : (2 * m) / 2 = m := by omega
    have h2 : (2 * m + 1) / 2 = m := by omega
    have h3 : (1 : Nat) / 2 = 0 := by omega
    rw [h1, h2, h3, Nat.zero_testBit, Bool.or_false]

theorem lor_one_div_two (m : Nat) : (2 * m ||| 1) / 2 = m := by
  rw [two_mul_lor_one]
  omega

theorem map_range_getD (n : Nat) (g : Nat → Option Nat) (i : Nat) (hi : i < n) :
    ((List.range n).map g).getD i none = g i := by
  rw [List.getD_eq_getElem?_getD, List.getElem?_map, List.getElem?_range hi]
  rfl

theorem map_range_getD_oob (n : Nat) (g : Nat → Option Nat) (i : Nat) (hi : n ≤ i) :
    ((List.range n).map g).getD i none = none := by
  rw [List.getD_eq_getElem?_getD, List.getElem?_eq_none]
  · rfl
  · simpa using hi

/-- The C loop of `fib_route` and the loop the spec describes compute the same
function: both repeat `fib_find`, and on a miss decrement the prefix length,
clear the dropped bit and retry. -/
theorem route_ip4_eq_spec_go (h : IP4 → Nat) (fuel : Nat) :
    ∀ (pxlen pfx : Nat) (f : Fib IP4),
      fib_route_ip4 h fuel pfx pxlen f = fib_route_spec.go h fuel pfx pxlen f
  | 0, pfx, f => by
    rw [fib_route_ip4, fib_route_spec.go]
  | px + 1, pfx, f => by
    rw [fib_route_ip4, fib_route_spec.go]
    cases hf : fib_find h ⟨pfx, px + 1⟩ fuel f with
    | none => rfl
    | some pr =>
      obtain ⟨r2, f2⟩ := pr
      cases r2 with
      | none => exact route_ip4_eq_spec_go h fuel px (ip4_clrbit pfx px) f2
      | some rv => rfl

/-! ### The claims -/

/-- Claim C3: `fib_route` performs longest-prefix match exactly as the spec
describes — it works on a copy of the input prefix, repeatedly calls
`fib_find`, on a miss decrements the prefix length and clears the dropped low
bit and retries, terminating at prefix length 0, and returns the entry found
or null: the code loop and the loop restated from the spec are the same
function. -/
theorem claim_C3_route_longest_prefix (h : IP4 → Nat) (fuel : Nat) (f : Fib IP4) (n : IP4) :
    fib_route h fuel f n = fib_route_spec h fuel f n := by
  rw [fib_route, fib_route_spec]
  exact route_ip4_eq_spec_go h fuel n.pxlen n.pfx f

/-- Claim C5 (corrected): for a power-of-two size `2 ^ k` and a bucket
`0 < b < 2 ^ k`, the parent bucket `getParent b (2 ^ k)` equals `b` minus the
highest power of two that is at most `b` (that is, `2 ^ log2 b`) — not `b`
minus the highest power of two at most `b / 2` as the spec words it. -/
theorem claim_C5_parent_bucket (k b : Nat) (hb : 0 < b) (hbk : b < 2 ^ k) :
    getParent b (2 ^ k) = b - 2 ^ Nat.log 2 b :=
  getParent_pow k b hb hbk

theorem claim_C5_witness : getParent 2 (2 ^ 2) = 2 - 2 ^ Nat.log 2 2 :=
  claim_C5_parent_bucket 2 2 (by decide) (by decide)

theorem claim_C5_counterexample : getParent 2 4 ≠ parentSpecFormula 2 := by
  unfold parentSpecFormula
  rw [show (2 : Nat) / 2 = 1 from rfl, Nat.log_one_right]
  decide

/-- Claim C9: for a power-of-two table size, `getParent` strictly decreases a
positive bucket index and fixes bucket 0, so the recursive sentinel insertion
of `fib_insert2` reaches the always-populated bucket 0 after finitely many
steps: with fuel `b + 1` the recursion for bucket `b` terminates with the
bucket populated. -/
theorem claim_C9_parent_descent (h : α → Nat) (f : Fib α) (b : Nat)
    (hinv : InvS h f)
    (hmk : ∀ c ∈ chainD f, (getHash h f c).getD 0 < reverseBits b → getFlag f c = false)
    (hcap : f.entries < f.entries_max) (hord : f.hash_order ≤ 32)
    (hempty : f.table.getD b none = none) (hblt : b < f.hash_size) (hb : 0 < b) :
    getParent b f.hash_size < b ∧ getParent 0 f.hash_size = 0 ∧
    ∃ f2, fib_insert2 h (b + 1) none f b = some f2 ∧
      f2.table.getD b none ≠ none := by
  have hsz : f.hash_size = 2 ^ f.hash_order := hinv.2.2.2.2.2.2.2.2.1
  refine ⟨?_, getParent_zero _, ?_⟩
  · rw [hsz]
    exact getParent_lt f.hash_order b hb (by rw [← hsz]; exact hblt)
  · obtain ⟨f2, hf2, hout⟩ := insert2_spec h (b + 1) f b hinv hmk hcap hord hempty hblt
      (by omega)
    exact ⟨f2, hf2, hout.written⟩

theorem claim_C9_witness :
    getParent 2 (fib_init Nat 2).hash_size < 2 ∧
    getParent 0 (fib_init Nat 2).hash_size = 0 ∧
    ∃ f2, fib_insert2 (fun n : Nat => n) 3 none (fib_init Nat 2) 2 = some f2 ∧
      f2.table.getD 2 none ≠ none :=
  claim_C9_parent_descent (fun n : Nat => n) (fib_init Nat 2) 2 (by decide) (by decide)
    (by decide) (by decide) (by decide) (by decide) (by decide)

/-- Claim C10: the byte-wise lookup-table bit-reversal and the bit-by-bit loop
bit-reversal compute the same function on every input. -/
theorem claim_C10_reverse_bits_agree (x : Nat) : reverseBits x = reverseBitsLoop x :=
  reverseBits_eq_loop x

/-- Claim C6: a grow rehash on a consistent, non-resizing table doubles the
bucket array (copying the existing pointers into the lower half and zeroing
the upper half), doubles `hash_size` and `entries_max` (as 32-bit counters),
sets `hash_mask` to the new size minus one, increments `hash_order`,
decrements `hash_shift`, and a contender that observes the resizing flag set
skips the resize entirely. -/
theorem claim_C6_rehash_grow (f : Fib α) (hflag : f.resizing = false)
    (hmask : f.hash_mask = f.hash_size - 1) (hpos : 0 < f.hash_size)
    (hsz : 2 * f.hash_size < 2 ^ 32) (hord : f.hash_order + 1 < 2 ^ 32)
    (hshpos : 0 < f.hash_shift) (hshlt : f.hash_shift < 2 ^ 32) :
    (fib_rehash f).hash_size = 2 * f.hash_size ∧
    (fib_rehash f).entries_max = 2 * f.entries_max % 2 ^ 32 ∧
    (fib_rehash f).hash_mask = 2 * f.hash_size - 1 ∧
    (fib_rehash f).hash_order = f.hash_order + 1 ∧
    (fib_rehash f).hash_shift = f.hash_shift - 1 ∧
    (fib_rehash f).table.length = 2 * f.hash_size ∧
    (∀ i, i < f.hash_size → (fib_rehash f).table.getD i none = f.table.getD i none) ∧
    (∀ i, f.hash_size ≤ i → (fib_rehash f).table.getD i none = none) ∧
    (∀ g : Fib α, g.resizing = true → fib_rehash g = g) := by
  unfold fib_rehash
  rw [hflag]
  rw [if_neg Bool.false_ne_true]
  refine ⟨?_, rfl, ?_, ?_, ?_, ?_, ?_, ?_, ?_⟩
  · show 2 * f.hash_size % 2 ^ 32 = 2 * f.hash_size
    omega
  · show (2 * f.hash_mask + 1) % 2 ^ 32 = 2 * f.hash_size - 1
    omega
  · show (f.hash_order + 1) % 2 ^ 32 = f.hash_order + 1
    omega
  · show (f.hash_shift + (2 ^ 32 - 1)) % 2 ^ 32 = f.hash_shift - 1
    omega
  · show ((List.range (2 * f.hash_size % 2 ^ 32)).map
      (fun i => if i < f.hash_size then f.table.getD i none else none)).length =
      2 * f.hash_size
    rw [List.length_map, List.length_range]
    omega
  · intro i hi
    show ((List.range (2 * f.hash_size % 2 ^ 32)).map
      (fun i => if i < f.hash_size then f.table.getD i none else none)).getD i none =
      f.table.getD i none
    rw [map_range_getD _ _ i (by omega)]
    rw [if_pos hi]
  · intro i hi
    show ((List.range (2 * f.hash_size % 2 ^ 32)).map
      (fun i => if i < f.hash_size then f.table.getD i none else none)).getD i none =
      none
    rcases Nat.lt_or_ge i (2 * f.hash_size % 2 ^ 32) with hlt | hge
    · rw [map_range_getD _ _ i hlt]
      rw [if_neg (by omega)]
    · rw [map_range_getD_oob _ _ i hge]
  · intro g hg
    rw [hg, if_pos rfl]

theorem claim_C6_witness :
    (fib_rehash (fib_init Nat 2)).hash_size = 2 * (fib_init Nat 2).hash_size ∧
    (fib_rehash (fib_init Nat 2)).entries_max = 2 * (fib_init Nat 2).entries_max % 2 ^ 32 ∧
    (fib_rehash (fib_init Nat 2)).hash_mask = 2 * (fib_init Nat 2).hash_size - 1 ∧
    (fib_rehash (fib_init Nat 2)).hash_order = (fib_init Nat 2).hash_order + 1 ∧
    (fib_rehash (fib_init Nat 2)).hash_shift = (fib_init Nat 2).hash_shift - 1 ∧
    (fib_rehash (fib_init Nat 2)).table.length = 2 * (fib_init Nat 2).hash_size ∧
    (∀ i, i < (fib_init Nat 2).hash_size →
      (fib_rehash (fib_init Nat 2)).table.getD i none = (fib_init Nat 2).table.getD i none) ∧
    (∀ i, (fib_init Nat 2).hash_size ≤ i →
      (fib_rehash (fib_init Nat 2)).table.getD i none = none) ∧
    (∀ g : Fib Nat, g.resizing = true → fib_rehash g = g) :=
  claim_C6_rehash_grow (fib_init Nat 2) (by decide) (by decide) (by decide) (by decide)
    (by decide) (by decide) (by decide)

/-- Claim C1: after `fib_get` returned an entry, a subsequent `fib_find` for
the same address returns that same entry pointer with the table unchanged —
find after get is the identity on the entry get returned. -/
theorem claim_C1_find_after_get (h : α → Nat) [DecidableEq α] (a : α) (f : Fib α)
    (gfuel ffuel : Nat) (hinv : Inv h f) (hcap : f.entries < f.entries_max)
    (hord : f.hash_order ≤ 32) (r : Nat) (f2 : Fib α)
    (hget : fib_get h a (gfuel + 1) f = some (r, f2)) :
    fib_find h a (ffuel + 1) f2 = some (some r, f2) := by
  obtain ⟨r2, f2p, e, hg2, hinv2, hmem2, htag, hnotag, hbp2, _⟩ :=
    get2_spec h f a gfuel hinv hcap hord
  unfold fib_get at hget
  rw [hg2] at hget
  have h12 := Option.some.inj hget
  have h1 : 2 * (r2 / 2) = r := congrArg Prod.fst h12
  have h2 : f2p = f2 := congrArg Prod.snd h12
  have hr : r = fib_node_to_user e := by
    by_cases hex : ∃ e0, MemP f a e0
    · rw [htag hex] at h1
      rw [← h1]
      unfold fib_node_to_user
      rw [lor_one_div_two (e + 1)]
    · rw [hnotag hex] at h1
      rw [← h1]
      unfold fib_node_to_user
      omega
  subst h2
  rw [hr]
  exact find_hit h f2p a e ffuel hinv2 hmem2 hbp2

theorem claim_C1_witness : fib_find (fun n : Nat => n) 5 1 demoF = some (some 4, demoF) :=
  claim_C1_find_after_get (fun n : Nat => n) 5 demoF 0 0 (by decide) (by decide)
    (by decide) 4 demoF (by decide)

/-- Claim C2 (corrected): `fib_delete` of the null pointer returns false with
the table unchanged, and deleting a present entry returns true, after which
the entry is gone and every repeated delete of it observes the mark and
returns false — true exactly once.  The spec also says a non-present entry
returns false, but an unmarked entry whose node is not linked in the table
trips the `bug()` call instead (see the counterexample). -/
theorem claim_C2_delete_result (h : α → Nat) (f : Fib α) (a : α) (e : Nat) (fuel : Nat)
    (hinv : Inv h f) (hmem : MemP f a e)
    (hbp : f.table.getD (bucketOfHash f (h a)) none ≠ none) :
    fib_delete h fuel f 0 = .ok false f ∧
    ∃ f1, fib_delete h (fuel + 1) f (fib_node_to_user e) = .ok true f1 ∧
      Inv h f1 ∧ (∀ e2, ¬ MemP f1 a e2) ∧ getFlag f1 e = true ∧
      ∀ fuel2, ∃ f3, fib_delete h fuel2 f1 (fib_node_to_user e) = .ok false f3 := by
  obtain ⟨f1, hd, hinv1, hnom, hfl, _⟩ := delete_spec h f a e fuel hinv hmem hbp
  exact ⟨delete_null h f fuel, f1, hd, hinv1, hnom, hfl,
    fun fuel2 => ⟨_, delete_marked h f1 e fuel2 hfl⟩⟩

theorem claim_C2_witness :
    fib_delete (fun n : Nat => n) 2 demoF 0 = .ok false demoF ∧
    ∃ f1, fib_delete (fun n : Nat => n) 3 demoF (fib_node_to_user 1) = .ok true f1 ∧
      Inv (fun n : Nat => n) f1 ∧ (∀ e2, ¬ MemP f1 5 e2) ∧ getFlag f1 1 = true ∧
      ∀ fuel2, ∃ f3, fib_delete (fun n : Nat => n) fuel2 f1 (fib_node_to_user 1) =
        .ok false f3 :=
  claim_C2_delete_result (fun n : Nat => n) demoF 5 1 2 (by decide) (by decide) (by decide)

theorem claim_C2_counterexample :
    fib_delete (fun n : Nat => n) 1 demoBad 4 = .fatal := by decide

/-- Claim C4 (corrected): the key ordering the payload nodes in the list is
the raw 32-bit hash `H(A)` itself, and the bucket index used by
find/get/delete is `bitreverse32(H(A)) & mask` — the spec swaps the two
roles.  `mask = size − 1` and `size` is the power of two `2 ^ order`, as
stated. -/
theorem claim_C4_key_and_bucket (h : α → Nat) (f : Fib α) (a : α) (e : Nat)
    (hinv : InvS h f) (hsent : getSentinel f e = false)
    (haddr : (readNode f e).addr = some a) :
    getHash h f e = some (h a) ∧
    fib_hash h f a = reverseBits (h a) &&& f.hash_mask ∧
    f.hash_mask = f.hash_size - 1 ∧ f.hash_size = 2 ^ f.hash_order ∧
    (chainD f).Chain' (ordRel h f) := by
  obtain ⟨-, -, -, -, -, -, hsort, -, hsz, hmask, -, -⟩ := hinv
  exact ⟨getHash_payload h f e a hsent haddr, rfl, hmask, hsz, hsort⟩

theorem claim_C4_witness :
    getHash (fun n : Nat => n) demoF 1 = some 5 ∧
    fib_hash (fun n : Nat => n) demoF 5 = reverseBits 5 &&& demoF.hash_mask ∧
    demoF.hash_mask = demoF.hash_size - 1 ∧ demoF.hash_size = 2 ^ demoF.hash_order ∧
    (chainD demoF).Chain' (ordRel (fun n : Nat => n) demoF) :=
  claim_C4_key_and_bucket (fun n : Nat => n) demoF 5 1 (by decide) (by decide) (by decide)

theorem claim_C4_counterexample :
    fib_hash (fun n : Nat => n) (fib_init Nat 2) 1 ≠ 1 &&& (fib_init Nat 2).hash_mask ∧
    getHash (fun n : Nat => n) demoF 1 ≠ some (reverseBits 5) := by decide

/-- Claim C7: the internal `fib_get2` flags an entry that already existed by
setting the low bit of the returned pointer, and the public wrapper `fib_get`
always masks the low bit off, so every pointer `fib_get` returns is even. -/
theorem claim_C7_low_bit_tag (h : α → Nat) [DecidableEq α] (a : α) (f : Fib α) (fuel : Nat)
    (hinv : Inv h f) (hcap : f.entries < f.entries_max) (hord : f.hash_order ≤ 32) :
    (∀ (gfuel r : Nat) (f2 : Fib α), fib_get h a gfuel f = some (r, f2) → r % 2 = 0) ∧
    ∃ r2 e f2, fib_get2 h a (fuel + 1) none f = some (r2, f2) ∧ MemP f2 a e ∧
      ((∃ e0, MemP f a e0) → r2 = fib_node_to_user e ||| 1) ∧
      fib_get h a (fuel + 1) f = some (fib_node_to_user e, f2) := by
  constructor
  · intro gfuel r f2 hg
    unfold fib_get at hg
    cases hq : fib_get2 h a gfuel none f with
    | none => rw [hq] at hg; exact Option.noConfusion hg
    | some p =>
      rw [hq] at hg
      obtain ⟨q, g⟩ := p
      have h1 : 2 * (q / 2) = r := congrArg Prod.fst (Option.some.inj hg)
      omega
  · obtain ⟨r2, f2, e, hg2, hinv2, hmem2, htag, hnotag, hbp2, _⟩ :=
      get2_spec h f a fuel hinv hcap hord
    refine ⟨r2, e, f2, hg2, hmem2, htag, ?_⟩
    unfold fib_get
    rw [hg2]
    by_cases hex : ∃ e0, MemP f a e0
    · rw [htag hex]
      show some (2 * ((fib_node_to_user e ||| 1) / 2), f2) = _
      unfold fib_node_to_user
      rw [lor_one_div_two (e + 1)]
    · rw [hnotag hex]
      show some (2 * (fib_node_to_user e / 2), f2) = _
      unfold fib_node_to_user
      have hdiv : 2 * ((2 * (e + 1)) / 2) = 2 * (e + 1) := by omega
      rw [hdiv]

theorem claim_C7_witness :
    (∀ (gfuel r : Nat) (f2 : Fib Nat),
      fib_get (fun n : Nat => n) 5 gfuel demoF = some (r, f2) → r % 2 = 0) ∧
    ∃ r2 e f2, fib_get2 (fun n : Nat => n) 5 1 none demoF = some (r2, f2) ∧
      MemP f2 5 e ∧
      ((∃ e0, MemP demoF 5 e0) → r2 = fib_node_to_user e ||| 1) ∧
      fib_get (fun n : Nat => n) 5 1 demoF = some (fib_node_to_user e, f2) :=
  claim_C7_low_bit_tag (fun n : Nat => n) 5 demoF 0 (by decide) (by decide) (by decide)

/-- Claim C8: `entries_min` is 0 right after `fib_init` regardless of the
requested order, and every operation of the table — rehash, sentinel insert,
find, get, delete and route — preserves `entries_min`, so the shrinking
branch is never triggered. -/
theorem claim_C8_entries_min_zero {α : Type} [DecidableEq α] (h : α → Nat) (k : Nat) :
    (fib_init α k).entries_min = 0 ∧
    (∀ f : Fib α, (fib_rehash f).entries_min = f.entries_min) ∧
    (∀ (fuel : Nat) (cache : Option Nat) (f f2 : Fib α) (bucket : Nat),
      fib_insert2 h fuel cache f bucket = some f2 → f2.entries_min = f.entries_min) ∧
    (∀ (a : α) (fuel : Nat) (f : Fib α) (r : Option Nat) (f2 : Fib α),
      fib_find h a fuel f = some (r, f2) → f2.entries_min = f.entries_min) ∧
    (∀ (a : α) (fuel : Nat) (cache : Option Nat) (f : Fib α) (r : Nat) (f2 : Fib α),
      fib_get2 h a fuel cache f = some (r, f2) → f2.entries_min = f.entries_min) ∧
    (∀ (a : α) (fuel : Nat) (f : Fib α) (r : Nat) (f2 : Fib α),
      fib_get h a fuel f = some (r, f2) → f2.entries_min = f.entries_min) ∧
    (∀ (fuel : Nat) (f : Fib α) (E : Nat) (b : Bool) (f2 : Fib α),
      fib_delete h fuel f E = .ok b f2 → f2.entries_min = f.entries_min) ∧
    (∀ (hI : IP4 → Nat) (fuel : Nat) (f : Fib IP4) (n : IP4) (r : Option Nat)
      (f2 : Fib IP4),
      fib_route hI fuel f n = some (r, f2) → f2.entries_min = f.entries_min) := by
  refine ⟨rfl, fun f => (rehash_fields f).1, ?_, ?_, ?_, ?_, ?_, ?_⟩
  · exact fun fuel cache f f2 bucket hres => insert2_emin h fuel cache f bucket f2 hres
  · exact fun a fuel f r f2 hres => find_emin h a fuel f r f2 hres
  · exact fun a fuel cache f r f2 hres => get2_emin h a fuel cache f r f2 hres
  · exact fun a fuel f r f2 hres => get_emin h a fuel f r f2 hres
  · exact fun fuel f E b f2 hres => delete_emin h fuel f E b f2 hres
  · exact fun hI fuel f n r f2 hres => route_emin hI fuel f n r f2 hres

end BirdFib

